import Mathlib

/-!
FOCUS: the `input.gacode` reader.

A shallow embedding of `read_input_gacode` (`include/formats/input_gacode.hpp`)
and theorems about it.

* Text is `List Char`; a character stands for one byte of the file.
* The input file stream is only ever read with `std::getline`, so an open stream
  is the list of the segments of the file, between its `\n`, that are still ahead.
* `double` values are kept abstract: the development is parametric in a
  `FloatOps F` giving `std::stod` and the product used for the `polflux` sign.
* The ways the C++ function can end (return, `exit`, exception) are the
  constructors of `Outcome`.
-/

namespace Focus

/-- Text of a line or of a token. -/
abbrev Str := List Char

/-! ## Regular expressions (the subset of ECMAScript used by the reader) -/

/-- Single-character matchers of the patterns in the source. -/
inductive CharClass where
  /-- a literal character -/
  | chr (c : Char)
  /-- `.` -/
  | any
  /-- `\d` -/
  | digit
  /-- `\s` -/
  | space
  /-- a bracket expression such as `[+-]` -/
  | set (cs : List Char)

/-- The test `std::isdigit` in the classic locale. -/
def isdigit (c : Char) : Bool := decide (48 ≤ c.toNat) && decide (c.toNat ≤ 57)

/-- The test `std::isspace` in the classic locale: space, `\t`, `\n`, `\v`, `\f`, `\r`. -/
def isspace (c : Char) : Bool := decide (c.toNat = 32) || (decide (9 ≤ c.toNat) && decide (c.toNat ≤ 13))

/-- Does the character belong to the class?  `.` excludes the line terminators
`\n` and `\r`, as in ECMAScript. -/
def CharClass.test : CharClass → Char → Bool
  | .chr c, x => decide (x = c)
  | .any, x => !(decide (x.toNat = 10) || decide (x.toNat = 13))
  | .digit, x => isdigit x
  | .space, x => isspace x
  | .set cs, x => cs.contains x

/-- Abstract syntax of the patterns. -/
inductive Regex where
  /-- the empty pattern -/
  | eps
  /-- one character of a class -/
  | cls (c : CharClass)
  /-- concatenation -/
  | seq (a b : Regex)
  /-- alternation `a|b`, left alternative first -/
  | alt (a b : Regex)
  /-- greedy `a?` -/
  | opt (a : Regex)
  /-- greedy `a*` -/
  | star (a : Regex)
  /-- greedy `a+` -/
  | plus (a : Regex)
  /-- the assertion `$` -/
  | eol

/-- Concatenation of a list of patterns. -/
def Regex.cat : List Regex → Regex
  | [] => .eps
  | [r] => r
  | r :: rs => .seq r (Regex.cat rs)

/-- A literal word. -/
def Regex.lit (s : String) : Regex := Regex.cat (s.toList.map fun c => .cls (.chr c))

/-- Greedy iteration of a matcher: try one more round (which must consume
something), and fall back on the continuation. -/
def starLoop {α : Type} (step : Str → (Str → Option α) → Option α) :
    Nat → Str → (Str → Option α) → Option α
  | 0, s, k => k s
  | n + 1, s, k =>
    match step s (fun s1 => if s1.length < s.length then starLoop step n s1 k else none) with
    | some r => some r
    | none => k s

/-- Backtracking matcher in continuation-passing style, as in the ECMAScript
specification: `r.run s k` matches `r` at the front of `s` and hands the rest of
the input to `k`; the first success in priority order is the result. -/
def Regex.run {α : Type} : Regex → Str → (Str → Option α) → Option α
  | .eps, s, k => k s
  | .cls c, s, k =>
    match s with
    | [] => none
    | x :: t => if c.test x then k t else none
  | .seq a b, s, k => a.run s (fun s1 => b.run s1 k)
  | .alt a b, s, k =>
    match a.run s k with
    | some r => some r
    | none => b.run s k
  | .opt a, s, k =>
    match a.run s k with
    | some r => some r
    | none => k s
  | .star a, s, k => starLoop (fun s1 k1 => a.run s1 k1) s.length s k
  | .plus a, s, k => a.run s (fun s1 => starLoop (fun s2 k2 => a.run s2 k2) s1.length s1 k)
  | .eol, s, k => if s.isEmpty then k s else none

/-- Continuation of a whole-string match. -/
def atEnd (s : Str) : Option Unit := if s.isEmpty then some () else none

/-- Modelled from the spec: the helper `regex_match(line, pattern)` of
`formats/regex_tokenizer.hpp` (not among the sources), taken to be
`std::regex_match`: the whole line has to match the pattern. -/
def regex_match (line : Str) (re : Regex) : Bool := (re.run line atEnd).isSome

/-- The function `std::regex_search`: leftmost match; gives the matched text and the
suffix after it. -/
def regex_search (re : Regex) : Str → Option (Str × Str)
  | [] =>
    match re.run [] some with
    | some rest => some ([], rest)
    | none => none
  | c :: t =>
    match re.run (c :: t) some with
    | some rest => some ((c :: t).take ((c :: t).length - rest.length), rest)
    | none => regex_search re t

/-! ## The patterns of the source -/

section Patterns

open Regex CharClass

/-- Pattern `"[+-]?\\d*[\\.]?\\d+(?:[Ee][+-]?\\d+)?"` (captures any number). -/
def number_re : Regex :=
  cat [opt (cls (set ['+', '-'])), star (cls digit), opt (cls (set ['.'])), plus (cls digit),
    opt (cat [cls (set ['E', 'e']), opt (cls (set ['+', '-'])), plus (cls digit)])]

/-- Pattern `"#.*shot.*"`. -/
def re_shot : Regex := cat [cls (chr '#'), star (cls any), lit "shot", star (cls any)]

/-- Pattern `"#.*nion.*"`. -/
def re_nion : Regex := cat [cls (chr '#'), star (cls any), lit "nion", star (cls any)]

/-- Pattern `"#.*nexp.*"`. -/
def re_nexp : Regex := cat [cls (chr '#'), star (cls any), lit "nexp", star (cls any)]

/-- Pattern `"#.*name.*"`. -/
def re_name : Regex := cat [cls (chr '#'), star (cls any), lit "name", star (cls any)]

/-- Pattern `"#.*masse.*"`. -/
def re_masse : Regex := cat [cls (chr '#'), star (cls any), lit "masse", star (cls any)]

/-- Pattern `"#.*\\s+ze\\s*"`. -/
def re_ze : Regex :=
  cat [cls (chr '#'), star (cls any), plus (cls space), lit "ze", star (cls space)]

/-- Pattern `"#.*\\s+mass\\s*.*"`. -/
def re_mass : Regex :=
  cat [cls (chr '#'), star (cls any), plus (cls space), lit "mass", star (cls space),
    star (cls any)]

/-- Pattern `"#.*\\s+z(?:$|\\s+.*)"`. -/
def re_z : Regex :=
  cat [cls (chr '#'), star (cls any), plus (cls space), cls (chr 'z'),
    alt eol (cat [plus (cls space), star (cls any)])]

/-- Pattern `"#.*\\s+polflux\\s*.*"`. -/
def re_polflux : Regex :=
  cat [cls (chr '#'), star (cls any), plus (cls space), lit "polflux", star (cls space),
    star (cls any)]

/-- Pattern `"#.*\\s+ne\\s*.*"`. -/
def re_ne : Regex :=
  cat [cls (chr '#'), star (cls any), plus (cls space), lit "ne", star (cls space),
    star (cls any)]

/-- Pattern `"#.*\\s+ni\\s*.*"`. -/
def re_ni : Regex :=
  cat [cls (chr '#'), star (cls any), plus (cls space), lit "ni", star (cls space),
    star (cls any)]

/-- Pattern `"#.*\\s+te\\s*.*"`. -/
def re_te : Regex :=
  cat [cls (chr '#'), star (cls any), plus (cls space), lit "te", star (cls space),
    star (cls any)]

/-- Pattern `"#.*\\s+ti\\s*.*"`. -/
def re_ti : Regex :=
  cat [cls (chr '#'), star (cls any), plus (cls space), lit "ti", star (cls space),
    star (cls any)]

end Patterns

/-! ## The input stream and the tokenizer -/

/-- An open `std::ifstream`, read with `std::getline` only: the segments of the file
between its `\n` that are still ahead. Every segment but the last is ended by `\n`, and
`std::getline` delivers it. On the last segment `std::getline` meets the end of the file:
it delivers the segment and sets `eofbit`; when that segment is empty (the file ends in
`\n`, or is empty) the call leaves the line empty and fails, which the loops below run
as one more round on an empty line: that line matches no pattern and holds no token. The
empty list is the stream that has met the end of the file: `std::getline` fails on it
and does not touch the line. -/
abbrev IFStream := List Str

/-- The segments of a file: split at `\n`. The last segment is the text after the last
`\n`, empty when the file ends in `\n`. -/
def getlines : Str → Str → List Str
  | [], acc => [acc.reverse]
  | c :: t, acc => if c = '\n' then acc.reverse :: getlines t [] else getlines t (c :: acc)

/-- Modelled from the spec: the class `Tokenizer` of `formats/regex_tokenizer.hpp`
(not among the sources). Section 4.1: it pulls the next substring matching its
pattern from the stream, skipping other text and advancing across line boundaries,
and keeps a read cursor between calls: here the part of the line it fetched last
that it has not scanned yet. -/
structure Tokenizer where
  /-- the pattern given to the constructor -/
  re : Regex
  /-- unscanned rest of the line fetched last -/
  line : Str

/-- Modelled from the spec: `Tokenizer::next(fi, token)`. The next match in the
rest of the current line, else fetch lines with `std::getline` until one holds a
match; `none` (the C++ `false`) when the stream is exhausted first. -/
def Tokenizer.next (tk : Tokenizer) : IFStream → Option Str × Tokenizer × IFStream
  | [] =>
    match regex_search tk.re tk.line with
    | some (token, suffix) => (some token, { tk with line := suffix }, [])
    | none => (none, { tk with line := [] }, [])
  | l :: ls =>
    match regex_search tk.re tk.line with
    | some (token, suffix) => (some token, { tk with line := suffix }, l :: ls)
    | none => Tokenizer.next { tk with line := l } ls

/-! ## Number conversions -/

/-- Value of a run of decimal digits. -/
def decValue (ds : Str) : Nat := ds.foldl (fun n c => 10 * n + (c.toNat - 48)) 0

/-- Sign and unsigned part of a token, as `strtol` and `strtoul` read them. -/
def splitSign : Str → Bool × Str
  | '-' :: t => (true, t)
  | '+' :: t => (false, t)
  | t => (false, t)

/-- The function `std::stoi`: optional sign and the longest run of decimal digits;
`none` stands for the exception (`std::invalid_argument` when there is no digit,
`std::out_of_range` when the value is not an `int`). -/
def stoi (token : Str) : Option Int :=
  let ds := (splitSign token).2.takeWhile isdigit
  let v : Int := if (splitSign token).1 then -(decValue ds : Int) else (decValue ds : Int)
  if ds.isEmpty then none
  else if -(2 : Int) ^ 31 ≤ v ∧ v < (2 : Int) ^ 31 then some v
  else none

/-- The function `std::stoul` (64-bit `unsigned long`): optional sign and the
longest run of decimal digits, a minus sign negating modulo `2^64`; `none` stands
for the exception (`std::invalid_argument`, `std::out_of_range`). -/
def stoul (token : Str) : Option Nat :=
  let ds := (splitSign token).2.takeWhile isdigit
  if ds.isEmpty then none
  else if 2 ^ 64 ≤ decValue ds then none
  else some (if (splitSign token).1 then (2 ^ 64 - decValue ds) % 2 ^ 64 else decValue ds)

/-- Conversion of an `unsigned long` to the 32-bit `int` it is assigned to. -/
def toInt32 (n : Nat) : Int :=
  if n % 2 ^ 32 < 2 ^ 31 then ((n % 2 ^ 32 : Nat) : Int) else ((n % 2 ^ 32 : Nat) : Int) - 2 ^ 32

/-- Conversion of an `int` to `size_t` (64 bits). -/
def toSizeT (v : Int) : Nat := (v % 2 ^ 64).toNat

/-- The operations on `double` that the reader uses. -/
structure FloatOps (F : Type) where
  /-- the function `std::stod`; `none` stands for `std::out_of_range` -/
  stod : Str → Option F
  /-- product of two doubles -/
  mul : F → F → F
  /-- the constant `1.0` -/
  one : F
  /-- the constant `-1.0` -/
  negOne : F

/-- Exact decimal reading of a numeric token as mantissa and power of ten:
`(m, e)` stands for `m * 10^e`. -/
def decimal_stod (token : Str) : Option (Int × Int) :=
  let body := (splitSign token).2
  let ip := body.takeWhile isdigit
  let r1 := body.dropWhile isdigit
  let fp := match r1 with
    | '.' :: t => t.takeWhile isdigit
    | _ => []
  let r2 := match r1 with
    | '.' :: t => t.dropWhile isdigit
    | _ => r1
  let ex : Int := match r2 with
    | [] => 0
    | c :: t =>
      if c = 'e' ∨ c = 'E' then
        (if (splitSign t).1 then -(decValue ((splitSign t).2.takeWhile isdigit) : Int)
         else (decValue ((splitSign t).2.takeWhile isdigit) : Int))
      else 0
  let m : Int := decValue (ip ++ fp)
  some (if (splitSign token).1 then -m else m, ex - fp.length)

/-- A concrete model of the `double` operations, exact on decimal numerals: the
value `(m, e)` stands for `m * 10^e`. -/
def decimalOps : FloatOps (Int × Int) where
  stod := decimal_stod
  mul := fun a b => (a.1 * b.1, a.2 + b.2)
  one := (1, 0)
  negOne := (-1, 0)

/-! ## The destination container -/

/-- Modelled from the spec: the aggregate `Plasma` of `types/plasma.hpp` (not among
the sources), section 3. A scalar or an array entry that no directive has written
yet is `none`. `ni` and `ti` are indexed by species, then by grid point. -/
structure Plasma (F : Type) where
  /-- integer identifier -/
  shot : Int
  /-- grid-point count -/
  nexp : Nat
  /-- species count -/
  nion : Nat
  /-- electron mass -/
  masse : Option F
  /-- electron charge -/
  ze : Option F
  /-- per-species mass -/
  mass : List (Option F)
  /-- per-species charge -/
  z : List (Option F)
  /-- poloidal flux profile -/
  polflux : List (Option F)
  /-- electron density profile -/
  ne : List (Option F)
  /-- electron temperature profile -/
  te : List (Option F)
  /-- ion densities, `ni[species][grid]` -/
  ni : List (List (Option F))
  /-- ion temperatures, `ti[species][grid]` -/
  ti : List (List (Option F))
  deriving DecidableEq, Repr

/-- Modelled from the spec: the constructor `Plasma(shot, nexp, nion)`; it fixes the
lengths of the arrays and leaves the entries unset. -/
def Plasma.new {F : Type} (shot : Int) (nexp nion : Nat) : Plasma F :=
  { shot := shot, nexp := nexp, nion := nion, masse := none, ze := none,
    mass := List.replicate nion none, z := List.replicate nion none,
    polflux := List.replicate nexp none, ne := List.replicate nexp none,
    te := List.replicate nexp none,
    ni := List.replicate nion (List.replicate nexp none),
    ti := List.replicate nion (List.replicate nexp none) }

/-- Assignment `m(ion, i) = v` to an entry of a species-by-grid matrix. -/
def setEntry {F : Type} : List (List (Option F)) → Nat → Nat → F → List (List (Option F))
  | [], _, _, _ => []
  | row :: rows, 0, i, v => row.set i (some v) :: rows
  | row :: rows, ion + 1, i, v => row :: setEntry rows ion i v

/-- The sizes of a container: the three integers given to the constructor and the
lengths of the arrays. -/
structure Shape where
  /-- the field `shot` -/
  shot : Int
  /-- the field `nexp` -/
  nexp : Nat
  /-- the field `nion` -/
  nion : Nat
  /-- length of `mass` -/
  mass : Nat
  /-- length of `z` -/
  z : Nat
  /-- length of `polflux` -/
  polflux : Nat
  /-- length of `ne` -/
  ne : Nat
  /-- length of `te` -/
  te : Nat
  /-- lengths of the rows of `ni` -/
  ni : List Nat
  /-- lengths of the rows of `ti` -/
  ti : List Nat
  deriving DecidableEq, Repr

/-- The sizes of a container. -/
def Plasma.shape {F : Type} (p : Plasma F) : Shape :=
  { shot := p.shot, nexp := p.nexp, nion := p.nion, mass := p.mass.length, z := p.z.length,
    polflux := p.polflux.length, ne := p.ne.length, te := p.te.length,
    ni := p.ni.map List.length, ti := p.ti.map List.length }

/-! ## Diagnostics and outcomes -/

/-- The fields a diagnostic can name. -/
inductive Field where
  | shot | nion | nexp | masse | ze | mass | z | polflux | ne | ni | te | ti
  deriving DecidableEq, Repr

/-- Messages written to `std::cerr`. -/
inductive Diag where
  /-- the message "Couldn't open file " followed by the file name -/
  | couldnt_open
  /-- the message "Invalid line for " followed by the field -/
  | invalid_line (f : Field)
  /-- the message "Error No specification of " followed by the field -/
  | no_specification (f : Field)
  deriving DecidableEq, Repr

/-- Ways a handler leaves the loops early. -/
inductive Abort where
  /-- the handler of field `f` got no token: message, then `goto RETURN_FAIL` -/
  | fail (f : Field)
  /-- an exception of `std::stoi`, `std::stoul` or `std::stod` -/
  | thrown
  /-- the loop ran out of rounds (never the case with the rounds `read_input_gacode` gives) -/
  | rounds
  deriving DecidableEq, Repr

/-- How a call of `read_input_gacode` ends. -/
inductive Outcome (F : Type) where
  /-- the function returns `plasma`; the caller sees `species_identifiers` -/
  | returned (plasma : Plasma F) (species_identifiers : List Str) (cerr : List Diag)
  /-- the process ends in `exit(status)` -/
  | exited (status : Int) (cerr : List Diag)
  /-- an exception leaves the function -/
  | thrown (species_identifiers : List Str) (cerr : List Diag)
  /-- the loops ran out of rounds (never the case, see `Abort.rounds`) -/
  | hang
  deriving DecidableEq, Repr

/-! ## The reader -/

/-- Local state of the BODY loop: the container, the caller's sequence of species
names, the tokenizer and the stream. -/
structure Reader (F : Type) where
  /-- the local `plasma` -/
  plasma : Plasma F
  /-- the reference parameter `species_identifiers` -/
  species_identifiers : List Str
  /-- the local `tk` -/
  tk : Tokenizer
  /-- the local `fi` -/
  fi : IFStream

/-- The loop `for (size_t i = 0; i < count; i++) body`, started at index `i` with
`count` rounds to go. -/
def forLoop {σ ε : Type} (body : Nat → σ → Except ε σ) : Nat → Nat → σ → Except ε σ
  | 0, _, s => .ok s
  | k + 1, i, s =>
    match body i s with
    | .ok s1 => forLoop body k (i + 1) s1
    | .error e => .error e

/-- The condition `tk.next(fi, token) && tk.next(fi, token)`: an index, then a value. -/
def next2 (tk : Tokenizer) (fi : IFStream) : Option Str × Tokenizer × IFStream :=
  match tk.next fi with
  | (none, tk1, fi1) => (none, tk1, fi1)
  | (some _, tk1, fi1) => tk1.next fi1

/-- One checked read `if(!tk.next(fi, token)) fail; x = std::stod(token)`. -/
def read_float {F : Type} (ops : FloatOps F) (f : Field) (store : Plasma F → F → Plasma F)
    (st : Reader F) : Except Abort (Reader F) :=
  match st.tk.next st.fi with
  | (none, _, _) => .error (.fail f)
  | (some token, tk1, fi1) =>
    match ops.stod token with
    | none => .error .thrown
    | some v => .ok { st with plasma := store st.plasma v, tk := tk1, fi := fi1 }

/-- One checked read of an (index, value) pair, storing `conv (std::stod(token))`. -/
def read_pair {F : Type} (ops : FloatOps F) (f : Field) (store : Plasma F → F → Plasma F)
    (st : Reader F) : Except Abort (Reader F) :=
  match next2 st.tk st.fi with
  | (none, _, _) => .error (.fail f)
  | (some token, tk1, fi1) =>
    match ops.stod token with
    | none => .error .thrown
    | some v => .ok { st with plasma := store st.plasma v, tk := tk1, fi := fi1 }

/-- The extraction `ss >> name`: skip white space, then take the characters up to
the next white space; gives the word (empty when the extraction fails) and the
rest of the string stream. -/
def extract_word (ss : Str) : Str × Str :=
  ((ss.dropWhile isspace).takeWhile (fun c => !isspace c),
   (ss.dropWhile isspace).dropWhile (fun c => !isspace c))

/-- The loop of the `name` handler: `count` times `ss >> name; push_back(name)`. -/
def name_loop : Nat → Str → List Str → List Str
  | 0, _, ids => ids
  | k + 1, ss, ids => name_loop k (extract_word ss).2 (ids ++ [(extract_word ss).1])

/-- The handler of `name`: `std::getline(fi, line)`, unchecked, then `nion` words of
`line`. The call puts the next segment into `line` (the empty one, when it fails on the
empty last segment). When the directive line was the last segment, the stream has met
the end of the file: the call fails without touching `line`, which still holds the
directive line, and the words are taken from it. -/
def handle_name {F : Type} (line : Str) (st : Reader F) : Reader F :=
  { st with species_identifiers :=
              name_loop st.plasma.nion (st.fi.head?.getD line) st.species_identifiers,
            fi := st.fi.tail }

/-- The handlers of `mass` and `z`: `nion` floats. -/
def fill_species {F : Type} (ops : FloatOps F) (f : Field)
    (store : Nat → Plasma F → F → Plasma F) (st : Reader F) : Except Abort (Reader F) :=
  forLoop (fun i s => read_float ops f (store i) s) st.plasma.nion 0 st

/-- The handlers of `polflux`, `ne` and `te`: `nexp` (index, value) pairs. -/
def fill_profile {F : Type} (ops : FloatOps F) (f : Field)
    (store : Nat → Plasma F → F → Plasma F) (st : Reader F) : Except Abort (Reader F) :=
  forLoop (fun i s => read_pair ops f (store i) s) st.plasma.nexp 0 st

/-- The handlers of `ni` and `ti`: per grid point an index, read unchecked, and
`nion` floats. -/
def fill_matrix {F : Type} (ops : FloatOps F) (f : Field)
    (store : Nat → Nat → Plasma F → F → Plasma F) (st : Reader F) : Except Abort (Reader F) :=
  forLoop (fun i s =>
      forLoop (fun ion s1 => read_float ops f (store ion i) s1) s.plasma.nion 0
        { s with tk := (s.tk.next s.fi).2.1, fi := (s.tk.next s.fi).2.2 })
    st.plasma.nexp 0 st

/-- One round of the BODY loop after `std::getline(fi, line)` gave `line`: the
first matching pattern, in the order of the source, selects the handler. -/
def body_step {F : Type} (ops : FloatOps F) (negative_psi : Bool) (line : Str)
    (st : Reader F) : Except Abort (Reader F) :=
  if regex_match line re_name then .ok (handle_name line st)
  else if regex_match line re_masse then
    read_float ops .masse (fun p v => { p with masse := some v }) st
  else if regex_match line re_ze then
    read_float ops .ze (fun p v => { p with ze := some v }) st
  else if regex_match line re_mass then
    fill_species ops .mass (fun i p v => { p with mass := p.mass.set i (some v) }) st
  else if regex_match line re_z then
    fill_species ops .z (fun i p v => { p with z := p.z.set i (some v) }) st
  else if regex_match line re_polflux then
    fill_profile ops .polflux (fun i p v =>
      { p with polflux :=
          p.polflux.set i (some (ops.mul (if negative_psi then ops.negOne else ops.one) v)) }) st
  else if regex_match line re_ne then
    fill_profile ops .ne (fun i p v => { p with ne := p.ne.set i (some v) }) st
  else if regex_match line re_ni then
    fill_matrix ops .ni (fun ion i p v => { p with ni := setEntry p.ni ion i v }) st
  else if regex_match line re_te then
    fill_profile ops .te (fun i p v => { p with te := p.te.set i (some v) }) st
  else if regex_match line re_ti then
    fill_matrix ops .ti (fun ion i p v => { p with ti := setEntry p.ti ion i v }) st
  else .ok st

/-- The BODY loop `while(std::getline(fi, line))`. An early exit keeps the species
names appended so far. -/
def body_loop {F : Type} (ops : FloatOps F) (negative_psi : Bool) :
    Nat → Reader F → Except (Abort × List Str) (Reader F)
  | 0, st => .error (.rounds, st.species_identifiers)
  | n + 1, st =>
    match st.fi with
    | [] => .ok st
    | line :: rest =>
      match body_step ops negative_psi line { st with fi := rest } with
      | .ok st1 => body_loop ops negative_psi n st1
      | .error e => .error (e, st.species_identifiers)

/-- Locals of the HEADER loop. -/
structure Header where
  /-- the local `shot` -/
  shot : Int
  /-- the local `nexp` -/
  nexp : Int
  /-- the local `nion` -/
  nion : Int
  /-- the local `tk` -/
  tk : Tokenizer
  /-- the local `fi` -/
  fi : IFStream

/-- The HEADER loop `while((nexp == -1 || nion == -1) && std::getline(fi, line))`;
gives the locals at the exit of the loop. -/
def header_loop : Nat → Header → Except Abort Header
  | 0, _ => .error .rounds
  | n + 1, h =>
    if h.nexp = -1 ∨ h.nion = -1 then
      match h.fi with
      | [] => .ok h
      | line :: rest =>
        if regex_match line re_shot then
          match h.tk.next rest with
          | (none, _, _) => .error (.fail .shot)
          | (some token, tk1, fi1) =>
            match stoi token with
            | none => .error .thrown
            | some v => header_loop n { h with shot := v, tk := tk1, fi := fi1 }
        else if regex_match line re_nion then
          match h.tk.next rest with
          | (none, _, _) => .error (.fail .nion)
          | (some token, tk1, fi1) =>
            match stoul token with
            | none => .error .thrown
            | some v => header_loop n { h with nion := toInt32 v, tk := tk1, fi := fi1 }
        else if regex_match line re_nexp then
          match h.tk.next rest with
          | (none, _, _) => .error (.fail .nexp)
          | (some token, tk1, fi1) =>
            match stoul token with
            | none => .error .thrown
            | some v => header_loop n { h with nexp := toInt32 v, tk := tk1, fi := fi1 }
        else header_loop n { h with fi := rest }
    else .ok h

/-- The messages of lines 61 and 62 of the source. -/
def missing_diags (h : Header) : List Diag :=
  (if h.nexp = -1 then [Diag.no_specification .nexp] else []) ++
  (if h.nion = -1 then [Diag.no_specification .nion] else [])

/-- The value `Plasma(-1, 0, 0)` returned at the label `RETURN_FAIL`. -/
def sentinel {F : Type} : Plasma F := Plasma.new (-1) 0 0

/-- What every handler keeps: the sizes of the container and the pattern of the
tokenizer; the stream is a suffix of what it was and the species names are extended. -/
def Follows {F : Type} (st st1 : Reader F) : Prop :=
  st1.plasma.shape = st.plasma.shape ∧ st1.tk.re = st.tk.re ∧ st1.fi <:+ st.fi ∧
    st.species_identifiers <+: st1.species_identifiers

/-- The locals with which the HEADER loop starts on the stream `fi`. -/
def header_start (fi : IFStream) : Header :=
  { shot := -1, nexp := -1, nion := -1, tk := { re := number_re, line := [] }, fi := fi }

/-- The state in which the BODY loop starts: `Plasma plasma(shot, nexp, nion)`.
The two `int` sizes become the unsigned lengths that the loops `i < plasma.nion`
and `i < plasma.nexp` compare a `size_t` counter with. -/
def body_start {F : Type} (h : Header) (species_identifiers : List Str) : Reader F :=
  { plasma := Plasma.new h.shot (toSizeT h.nexp) (toSizeT h.nion),
    species_identifiers := species_identifiers, tk := h.tk, fi := h.fi }

/-- The part of `read_input_gacode` after the stream has been opened, on the lines
of the file. The loops get one round more than there are lines. -/
def read_stream {F : Type} (ops : FloatOps F) (fi : IFStream) (species_identifiers : List Str)
    (negative_psi : Bool) : Outcome F :=
  match header_loop (fi.length + 1) (header_start fi) with
  | .error (.fail f) => .returned sentinel species_identifiers [.invalid_line f]
  | .error .thrown => .thrown species_identifiers []
  | .error .rounds => .hang
  | .ok h =>
    if h.nexp = -1 ∨ h.nion = -1 then .exited (-1) (missing_diags h)
    else
      match body_loop ops negative_psi (h.fi.length + 1) (body_start h species_identifiers) with
      | .ok st => .returned st.plasma st.species_identifiers []
      | .error (.fail f, ids) => .returned sentinel ids [.invalid_line f]
      | .error (.thrown, ids) => .thrown ids []
      | .error (.rounds, _) => .hang

/-- The function `read_input_gacode(filename, species_identifiers, negative_psi)`.
The file system is the argument `file`: the content of the file named `filename`,
or `none` when it cannot be opened. The C++ default of `negative_psi` is `true`. -/
def read_input_gacode {F : Type} (ops : FloatOps F) (file : Option Str)
    (species_identifiers : List Str) (negative_psi : Bool) : Outcome F :=
  match file with
  | none => .returned sentinel species_identifiers [.couldnt_open]
  | some content => read_stream ops (getlines content []) species_identifiers negative_psi

/-- The fields whose handlers belong to the BODY loop. -/
def Field.inBody : Field → Bool
  | .shot | .nion | .nexp => false
  | _ => true

/-- The sizes kept by the HEADER loop are 32-bit integers. -/
def Header.inRange (h : Header) : Prop :=
  (-(2 : Int) ^ 31 ≤ h.nexp ∧ h.nexp < (2 : Int) ^ 31) ∧
    (-(2 : Int) ^ 31 ≤ h.nion ∧ h.nion < (2 : Int) ^ 31)

/-- The container with every written `polflux` entry multiplied by `-1.0`. -/
def Plasma.negated {F : Type} (ops : FloatOps F) (p : Plasma F) : Plasma F :=
  { p with polflux := p.polflux.map (Option.map (ops.mul ops.negOne)) }

/-- A state of the BODY loop with the `polflux` entries of its container negated. -/
def Reader.negated {F : Type} (ops : FloatOps F) (st : Reader F) : Reader F :=
  { st with plasma := st.plasma.negated ops }

/-- Apply `g` to the container of a returning outcome. -/
def Outcome.onPlasma {F : Type} (g : Plasma F → Plasma F) : Outcome F → Outcome F
  | .returned p ids cerr => .returned (g p) ids cerr
  | o => o

/-- Least number of characters a match of the pattern consumes. -/
def Regex.minLen : Regex → Nat
  | .eps => 0
  | .cls _ => 1
  | .seq a b => a.minLen + b.minLen
  | .alt a b => min a.minLen b.minLen
  | .opt _ => 0
  | .star _ => 0
  | .plus a => a.minLen
  | .eol => 0

/-- The successive matches of a pattern in a text, at most `n` of them. -/
def matches_in (re : Regex) : Nat → Str → List Str
  | 0, _ => []
  | n + 1, s =>
    match regex_search re s with
    | none => []
    | some (token, suffix) => token :: matches_in re n suffix

/-- The tokens of a line: the successive matches of the pattern (a match of a pattern
with `0 < minLen` consumes a character, so there are at most as many as characters). -/
def tokens_of (re : Regex) (line : Str) : List Str := matches_in re line.length line

/-- The tokens a tokenizer can still deliver: those of the rest of its line, then those
of the lines of the stream. -/
def stream_tokens (tk : Tokenizer) (fi : IFStream) : List Str :=
  tokens_of tk.re tk.line ++ (fi.map (tokens_of tk.re)).flatten

/-- The states the BODY loop passes through: `Reaches ops negative_psi st st1` when the
loop, started in `st`, is in `st1` at the start of some later round. -/
inductive Reaches {F : Type} (ops : FloatOps F) (negative_psi : Bool) :
    Reader F → Reader F → Prop where
  /-- the state at the start -/
  | start (st : Reader F) : Reaches ops negative_psi st st
  /-- one more round: a line is read and its handler returns normally -/
  | round (st st1 st2 : Reader F) (line : Str) (rest : IFStream) (hfi : st.fi = line :: rest)
      (hstep : body_step ops negative_psi line { st with fi := rest } = .ok st1)
      (hrest : Reaches ops negative_psi st1 st2) : Reaches ops negative_psi st st2

/-- The states of the BODY loop in a call on the file `content`: the HEADER loop ends
with both sizes known, the BODY loop starts and reaches `st`. -/
def ReachedBy {F : Type} (ops : FloatOps F) (negative_psi : Bool) (content : Str)
    (species_identifiers : List Str) (st : Reader F) : Prop :=
  ∃ hd, header_loop ((getlines content []).length + 1) (header_start (getlines content []))
      = .ok hd ∧ hd.nexp ≠ -1 ∧ hd.nion ≠ -1 ∧
    Reaches ops negative_psi (body_start hd species_identifiers) st

/-- Does the BODY loop select the handler of `z` for this line?  The patterns of `name`,
`masse`, `ze` and `mass` come first. -/
def selects_z (line : Str) : Bool :=
  !regex_match line re_name && !regex_match line re_masse && !regex_match line re_ze &&
    !regex_match line re_mass && regex_match line re_z

/-- The outcome of a greedy iteration over the run of characters `ds` followed by `x`,
for the continuation `k`: the longest consumption comes first. -/
def backoff {α : Type} (k : Str → Option α) : Str → Str → Option α
  | [], x => k x
  | d :: ds, x =>
    match backoff k ds x with
    | some r => some r
    | none => k (d :: ds ++ x)

/-- A text that ends a numeral: empty, or starting with white space. -/
def Sep (x : Str) : Prop := x = [] ∨ ∃ c t, x = c :: t ∧ isspace c = true

/-- Is the text empty or one sign? -/
def isSign (s : Str) : Bool := s == [] || s == ['+'] || s == ['-']

/-- Is the text a non-empty run of decimal digits? -/
def isDigits (s : Str) : Bool := !s.isEmpty && s.all isdigit

/-- A numeral of the grammar of `number_re`: optional sign, digits, optional point
followed by digits, optional exponent. -/
structure Numeral where
  /-- the sign: empty, `+` or `-` -/
  sign : Str
  /-- the digits before the point -/
  int : Str
  /-- the digits after the point, when there is a point -/
  frac : Option Str
  /-- the exponent, when there is one: marker, sign and digits -/
  exp : Option (Char × Str × Str)
  deriving DecidableEq, Repr

/-- The text of the fractional part. -/
def Numeral.fracText (t : Numeral) : Str :=
  match t.frac with
  | none => []
  | some f => '.' :: f

/-- The text of the exponent. -/
def Numeral.expText (t : Numeral) : Str :=
  match t.exp with
  | none => []
  | some (c, s, d) => c :: (s ++ d)

/-- The text of a numeral. -/
def Numeral.text (t : Numeral) : Str := t.sign ++ (t.int ++ (t.fracText ++ t.expText))

/-- Well-formed numerals: the digits before the point may be missing only when a
fractional part follows. -/
def Numeral.wf (t : Numeral) : Bool :=
  isSign t.sign && t.int.all isdigit &&
  (match t.frac with
    | none => !t.int.isEmpty
    | some f => isDigits f) &&
  (match t.exp with
    | none => true
    | some (c, s, d) => (c == 'e' || c == 'E') && isSign s && isDigits d)

/-- Texts, each preceded by one space. -/
def tailText (ts : List Str) : Str := (ts.map (fun t => ' ' :: t)).flatten

/-- Texts separated by single spaces, on one line. -/
def spaced (ts : List Str) : Str := (tailText ts).drop 1

/-- The part `(?:[Ee][+-]?\\d+)?` of `number_re`, with the continuation `k`. -/
def numK4 {α : Type} (k : Str → Option α) : Str → Option α := fun s4 =>
  (Regex.opt (.seq (.cls (.set ['E', 'e']))
    (.seq (.opt (.cls (.set ['+', '-']))) (.plus (.cls .digit))))).run s4 k

/-- The part `\\d+(?:[Ee][+-]?\\d+)?` of `number_re`. -/
def numK3 {α : Type} (k : Str → Option α) : Str → Option α := fun s3 =>
  (Regex.plus (.cls .digit)).run s3 (numK4 k)

/-- The part `[\\.]?\\d+(?:[Ee][+-]?\\d+)?` of `number_re`. -/
def numK2 {α : Type} (k : Str → Option α) : Str → Option α := fun s2 =>
  (Regex.opt (.cls (.set ['.']))).run s2 (numK3 k)

/-- The part `\\d*[\\.]?\\d+(?:[Ee][+-]?\\d+)?` of `number_re`. -/
def numK1 {α : Type} (k : Str → Option α) : Str → Option α := fun s1 =>
  (Regex.star (.cls .digit)).run s1 (numK2 k)

/-- The text does not start with a character of the class. -/
def StartsOut (c : CharClass) (y : Str) : Prop := ∀ a t, y = a :: t → c.test a = false

/-- A text that ends a numeral: it does not start with a digit, a sign, a point or an
exponent marker. -/
def Ends (x : Str) : Prop :=
  StartsOut .digit x ∧ StartsOut (.set ['+', '-']) x ∧ StartsOut (.set ['.']) x ∧
    StartsOut (.set ['E', 'e']) x

/-- Successive calls of `Tokenizer::next` from `(tk, fi)` deliver the tokens `ts` and
leave `(tk1, fi1)`. -/
inductive Delivers : Tokenizer → IFStream → List Str → Tokenizer → IFStream → Prop where
  /-- no call -/
  | done (tk : Tokenizer) (fi : IFStream) : Delivers tk fi [] tk fi
  /-- a successful call, then the others -/
  | step (tk : Tokenizer) (fi : IFStream) (t : Str) (tk1 : Tokenizer) (fi1 : IFStream)
      (ts : List Str) (tk2 : Tokenizer) (fi2 : IFStream)
      (hnext : tk.next fi = (some t, tk1, fi1)) (hrest : Delivers tk1 fi1 ts tk2 fi2) :
      Delivers tk fi (t :: ts) tk2 fi2

/-- The stores of the rounds `i`, `i + 1`, ... of a loop, for the values `vs`. -/
def storeAll {F : Type} (store : Nat → Plasma F → F → Plasma F) :
    Nat → List F → Plasma F → Plasma F
  | _, [], p => p
  | i, v :: vs, p => storeAll store (i + 1) vs (store i p v)

/-- The array `l` after the assignments `l[i] = v` for the values `vs`, from index `i`. -/
def writeFrom {F : Type} (l : List (Option F)) : Nat → List F → List (Option F)
  | _, [] => l
  | i, v :: vs => writeFrom (l.set i (some v)) (i + 1) vs

/-- The tokens of `ts` convert to the values `vs`. -/
def Converts {F : Type} (ops : FloatOps F) (ts : List Str) (vs : List F) : Prop :=
  List.Forall₂ (fun t v => ops.stod t = some v) ts vs

/-- The content of the file whose lines are `ls`, each ended by `\n`. -/
def unlines : List Str → Str
  | [] => []
  | l :: ls => l ++ '\n' :: unlines ls

/-- A step of the reader that does not look beyond the lines it consumes: when it leaves
a non-empty stream, it acts the same way whatever follows the consumed lines. -/
def Framed {F ε : Type} (f : Reader F → Except ε (Reader F)) : Prop :=
  ∀ st st1, f st = .ok st1 → st1.fi ≠ [] →
    ∃ pre, st.fi = pre ++ st1.fi ∧ ∀ Y, f { st with fi := pre ++ Y } = .ok { st1 with fi := Y }

/-- The directives that the BODY loop knows. -/
inductive Directive where
  | name | masse | ze | mass | z | polflux | ne | ni | te | ti
  deriving DecidableEq, Repr

/-- The pattern that the BODY loop tests for a directive. -/
def Directive.pattern : Directive → Regex
  | .name => re_name
  | .masse => re_masse
  | .ze => re_ze
  | .mass => re_mass
  | .z => re_z
  | .polflux => re_polflux
  | .ne => re_ne
  | .ni => re_ni
  | .te => re_te
  | .ti => re_ti

/-- The directives in the order in which the BODY loop tests their patterns. -/
def body_directives : List Directive :=
  [.name, .masse, .ze, .mass, .z, .polflux, .ne, .ni, .te, .ti]

/-- The block that the BODY loop runs for a directive, up to its `continue`; `line` is
the content of the local `line`, the directive line. -/
def Directive.handler {F : Type} (ops : FloatOps F) (negative_psi : Bool) (line : Str) :
    Directive → Reader F → Except Abort (Reader F)
  | .name, st => .ok (handle_name line st)
  | .masse, st => read_float ops .masse (fun p v => { p with masse := some v }) st
  | .ze, st => read_float ops .ze (fun p v => { p with ze := some v }) st
  | .mass, st =>
    fill_species ops .mass (fun i p v => { p with mass := p.mass.set i (some v) }) st
  | .z, st => fill_species ops .z (fun i p v => { p with z := p.z.set i (some v) }) st
  | .polflux, st =>
    fill_profile ops .polflux (fun i p v =>
      { p with polflux :=
          p.polflux.set i (some (ops.mul (if negative_psi then ops.negOne else ops.one) v)) }) st
  | .ne, st => fill_profile ops .ne (fun i p v => { p with ne := p.ne.set i (some v) }) st
  | .ni, st =>
    fill_matrix ops .ni (fun ion i p v => { p with ni := setEntry p.ni ion i v }) st
  | .te, st => fill_profile ops .te (fun i p v => { p with te := p.te.set i (some v) }) st
  | .ti, st =>
    fill_matrix ops .ti (fun ion i p v => { p with ti := setEntry p.ti ion i v }) st

/-- The directive that a line selects: the first one, in the order of the BODY loop,
whose pattern the line matches. -/
def classify (line : Str) : Option Directive :=
  body_directives.find? (fun d => regex_match line d.pattern)

/-- Specification of the words of a line, for the `name` handler: the maximal runs of
characters that are not white space, from left to right. -/
def words_of_line : Str → List Str
  | [] => []
  | c :: t =>
    if isspace c then words_of_line t
    else
      match t with
      | [] => [[c]]
      | d :: _ =>
        if isspace d then [c] :: words_of_line t
        else
          match words_of_line t with
          | w :: ws => (c :: w) :: ws
          | [] => [[c]]

/-- The entry `m(s, g)` of a species-by-grid matrix: row `s`, column `g`; `none` when it
is unset or outside the matrix. -/
def entry {F : Type} (m : List (List (Option F))) (s g : Nat) : Option F :=
  (m.getD s []).getD g none

/-- A matrix field of the container, `ni` or `ti`: how it is read and how it is
replaced. -/
structure MatrixField (F : Type) where
  /-- the matrix of a container -/
  get : Plasma F → List (List (Option F))
  /-- the container with another matrix in the field -/
  set : Plasma F → List (List (Option F)) → Plasma F

/-- The field `ni`. -/
def MatrixField.ni {F : Type} : MatrixField F :=
  ⟨fun p => p.ni, fun p m => { p with ni := m }⟩

/-- The field `ti`. -/
def MatrixField.ti {F : Type} : MatrixField F :=
  ⟨fun p => p.ti, fun p m => { p with ti := m }⟩

/-- Reading and replacing a matrix field fit together, and replacing it keeps `nion`. -/
def MatrixField.lawful {F : Type} (L : MatrixField F) : Prop :=
  (∀ p m, L.get (L.set p m) = m) ∧ (∀ p m m1, L.set (L.set p m) m1 = L.set p m1) ∧
    (∀ p, L.set p (L.get p) = p) ∧ (∀ p m, (L.set p m).nion = p.nion)

/-- The value of the token at position `j` of the tokens `T`, when there is such a token
and `std::stod` converts it. -/
def value_at {F : Type} (ops : FloatOps F) (T : List Str) (j : Nat) : Option F :=
  (T[j]?).bind ops.stod

/-- The matches of a pattern: `Lang r s s1` when `r` matches a front part of `s` and
leaves `s1`. An iteration of `*` that consumes nothing is not repeated. -/
inductive Lang : Regex → Str → Str → Prop where
  | eps (s : Str) : Lang .eps s s
  | cls (c : CharClass) (x : Char) (t : Str) (h : c.test x = true) : Lang (.cls c) (x :: t) t
  | seq (a b : Regex) (s s1 s2 : Str) (h1 : Lang a s s1) (h2 : Lang b s1 s2) :
      Lang (.seq a b) s s2
  | altL (a b : Regex) (s s1 : Str) (h : Lang a s s1) : Lang (.alt a b) s s1
  | altR (a b : Regex) (s s1 : Str) (h : Lang b s s1) : Lang (.alt a b) s s1
  | optSome (a : Regex) (s s1 : Str) (h : Lang a s s1) : Lang (.opt a) s s1
  | optNone (a : Regex) (s : Str) : Lang (.opt a) s s
  | starNil (a : Regex) (s : Str) : Lang (.star a) s s
  | starCons (a : Regex) (s s1 s2 : Str) (h1 : Lang a s s1) (hlt : s1.length < s.length)
      (h2 : Lang (.star a) s1 s2) : Lang (.star a) s s2
  | plus (a : Regex) (s s1 s2 : Str) (h1 : Lang a s s1) (h2 : Lang (.star a) s1 s2) :
      Lang (.plus a) s s2
  | eol : Lang .eol [] []

/-- Letters `a`-`z` and `A`-`Z`. -/
def isLetter (c : Char) : Bool :=
  (decide (97 ≤ c.toNat) && decide (c.toNat ≤ 122)) ||
    (decide (65 ≤ c.toNat) && decide (c.toNat ≤ 90))

/-- Does the HEADER loop take the line for a `nion` line?  The pattern of `shot` is
tested first. -/
def is_nion_line (line : Str) : Bool :=
  !regex_match line re_shot && regex_match line re_nion

/-- Does the HEADER loop take the line for a `nexp` line?  The patterns of `shot` and
`nion` are tested first. -/
def is_nexp_line (line : Str) : Bool :=
  !regex_match line re_shot && !regex_match line re_nion && regex_match line re_nexp

/-- A line that matches none of the patterns of the HEADER loop and holds no numeric
token. -/
def is_inert_line (line : Str) : Bool :=
  !regex_match line re_shot && !regex_match line re_nion && !regex_match line re_nexp &&
    (regex_search number_re line).isNone

/-- A line that holds the decimal token `d`, with white space around it. -/
def token_line (w d w1 : Str) : Str := w ++ (d ++ w1)

/-- A declaration in a header: the directive line, lines without token, and the line of
the token. -/
def header_decl (line : Str) (between : List Str) (tline : Str) : List Str :=
  line :: (between ++ [tline])

/-- Does `strtod` convert the value `m * 10^e` without range error, as the GNU C library
reports it?  There is an overflow when the magnitude is `2^1024 - 2^970` (half a unit in
the last place above the greatest `double`) or more. There is an underflow when the
result is tiny and inexact: the magnitude is below `2^-1022 - 2^-1076`, so that it does
not round to the least normal `double`, and the value is no multiple of `2^-1074`. -/
def in_double_range (v : Int × Int) : Bool :=
  if 0 ≤ v.2 then decide (v.1.natAbs * 10 ^ v.2.toNat < 2 ^ 1024 - 2 ^ 970)
  else
    decide (v.1.natAbs < (2 ^ 1024 - 2 ^ 970) * 10 ^ (-v.2).toNat) &&
      (decide ((2 ^ 54 - 1) * 10 ^ (-v.2).toNat ≤ v.1.natAbs * 2 ^ 1076) ||
        decide ((v.1.natAbs * 2 ^ 1074) % 10 ^ (-v.2).toNat = 0))

/-- The function `std::stod` with its range check, on the tokens of the grammar of the
numbers: the exact decimal reading of the token, and `none` (the exception
`std::out_of_range`) when `strtod` reports a range error. -/
def ranged_stod (token : Str) : Option (Int × Int) :=
  match decimal_stod token with
  | none => none
  | some v => if in_double_range v then some v else none

/-- The concrete model of the `double` operations with the range check of `std::stod`. -/
def rangedOps : FloatOps (Int × Int) where
  stod := ranged_stod
  mul := fun a b => (a.1 * b.1, a.2 + b.2)
  one := (1, 0)
  negOne := (-1, 0)

/-- A line that the HEADER loop passes over: it matches none of its three patterns. -/
def is_passed_line (line : Str) : Bool :=
  !regex_match line re_shot && !regex_match line re_nion && !regex_match line re_nexp

/-- The numeric tokens of lines, in the order of the file. -/
def line_tokens (lines : List Str) : List Str := (lines.map (tokens_of number_re)).flatten

/-- The lines `body` are a body with the tokens `ts`: they hold these numeric tokens and
no other, and the last of the lines holds one of them, so that a tokenizer asked for
these tokens fetches all the lines and no line after them. -/
def is_body (body : List Str) (ts : List Str) : Bool :=
  decide (line_tokens body = ts) &&
    (match body.getLast? with
     | none => true
     | some l => !(tokens_of number_re l).isEmpty)

/-- A part of a header outside the declarations of the sizes. -/
inductive HeaderBlock where
  /-- a line that the HEADER loop passes over -/
  | line (l : Str)
  /-- a declaration of `shot`: its directive line and a body with one token -/
  | shot (l : Str) (body : List Str) (token : Str)

/-- The lines of a block. -/
def HeaderBlock.lines : HeaderBlock → List Str
  | .line l => [l]
  | .shot l body _ => l :: body

/-- A block that the HEADER loop gets over: a line that matches none of its patterns, or
a `shot` line followed by a body with one token that `std::stoi` converts. -/
def HeaderBlock.ok : HeaderBlock → Bool
  | .line l => is_passed_line l
  | .shot l body token => regex_match l re_shot && is_body body [token] && (stoi token).isSome

/-- The lines of a sequence of blocks. -/
def block_lines (bs : List HeaderBlock) : List Str := (bs.map HeaderBlock.lines).flatten

/-- The words that a round of the BODY loop on `line` appends to `species_identifiers`,
for the state `st` that the round has after its `std::getline`: the `nion` words that the
handler of `name` extracts when the line selects it, none for any other line. -/
def pushed_names {F : Type} (line : Str) (st : Reader F) : List Str :=
  if regex_match line re_name then name_loop st.plasma.nion (st.fi.head?.getD line) [] else []

/-- The rounds of the BODY loop from `st` to `st1`, as in `Reaches`, with the names that
these rounds appended, in order. -/
inductive ReachesPushing {F : Type} (ops : FloatOps F) (negative_psi : Bool) :
    Reader F → List Str → Reader F → Prop where
  /-- no round, no name -/
  | start (st : Reader F) : ReachesPushing ops negative_psi st [] st
  /-- one more round: its names come first -/
  | round (st st1 st2 : Reader F) (line : Str) (rest : IFStream) (names : List Str)
      (hfi : st.fi = line :: rest)
      (hstep : body_step ops negative_psi line { st with fi := rest } = .ok st1)
      (hrest : ReachesPushing ops negative_psi st1 names st2) :
      ReachesPushing ops negative_psi st
        (pushed_names line { st with fi := rest } ++ names) st2

/-- The text of a body line. An item is a numeric token with the text before it; the token
comes in two variants, that of an input and that of its variant, and `sel` chooses one.
The text `last` follows the last token. -/
def lineText (sel : Str × Str → Str) : List (Str × (Str × Str)) → Str → Str
  | [], last => last
  | (g, q) :: items, last => g ++ (sel q ++ lineText sel items last)

/-- The items are the numeric tokens of the line, in the variant that `sel` chooses: from
each item on, the first match of the number pattern in the text of the line is the token
of that item, and the text after it is that of the items that follow; the text after the
last token holds no match. -/
def splits (sel : Str × Str → Str) : List (Str × (Str × Str)) → Str → Bool
  | [], last => (regex_search number_re last).isNone
  | (g, q) :: items, last =>
    decide (regex_search number_re (lineText sel ((g, q) :: items) last)
      = some (sel q, lineText sel items last)) && splits sel items last

/-- C8: when the input file cannot be opened, `read_input_gacode` returns (the
process is not terminated) the sentinel container, whose `shot` is `-1` and whose
`nexp` and `nion` are `0`, and the caller's `species_identifiers` is unchanged. -/
theorem open_failure_returns_sentinel {F : Type} (ops : FloatOps F) (ids : List Str)
    (negative_psi : Bool) :
    read_input_gacode ops none ids negative_psi = .returned sentinel ids [.couldnt_open] ∧
      (sentinel : Plasma F).shot = -1 ∧ (sentinel : Plasma F).nexp = 0 ∧
      (sentinel : Plasma F).nion = 0 :=
  ⟨rfl, rfl, rfl, rfl⟩

/-! ### The stream only shrinks -/

theorem Tokenizer.next_suffix (tk : Tokenizer) (fi : IFStream) : (tk.next fi).2.2 <:+ fi := by
  induction fi generalizing tk with
  | nil =>
    unfold Tokenizer.next
    split <;> simp
  | cons l ls ih =>
    unfold Tokenizer.next
    split
    · simp
    · exact (ih _).trans (List.suffix_cons l ls)

theorem Tokenizer.next_re (tk : Tokenizer) (fi : IFStream) : (tk.next fi).2.1.re = tk.re := by
  induction fi generalizing tk with
  | nil =>
    unfold Tokenizer.next
    split <;> simp
  | cons l ls ih =>
    unfold Tokenizer.next
    split
    · simp
    · rw [ih]

theorem next2_suffix (tk : Tokenizer) (fi : IFStream) : (next2 tk fi).2.2 <:+ fi := by
  unfold next2
  have h1 := Tokenizer.next_suffix tk fi
  split
  · next tk1 fi1 heq => rw [heq] at h1; exact h1
  · next t tk1 fi1 heq =>
    rw [heq] at h1
    exact (Tokenizer.next_suffix tk1 fi1).trans h1

theorem next2_re (tk : Tokenizer) (fi : IFStream) : (next2 tk fi).2.1.re = tk.re := by
  unfold next2
  have h1 := Tokenizer.next_re tk fi
  split
  · next tk1 fi1 heq => rw [heq] at h1; exact h1
  · next t tk1 fi1 heq =>
    rw [heq] at h1
    rw [Tokenizer.next_re, h1]

/-- Generic rule for `forLoop`: a reflexive and transitive relation kept by every round
is kept by the loop. -/
theorem forLoop_rel {σ ε : Type} (R : σ → σ → Prop) (hrefl : ∀ s, R s s)
    (htrans : ∀ a b c, R a b → R b c → R a c) (body : Nat → σ → Except ε σ)
    (hbody : ∀ i s s1, body i s = .ok s1 → R s s1) :
    ∀ k i s s1, forLoop body k i s = .ok s1 → R s s1 := by
  intro k
  induction k with
  | zero =>
    intro i s s1 h
    simp only [forLoop] at h
    cases h
    exact hrefl s
  | succ k ih =>
    intro i s s1 h
    simp only [forLoop] at h
    split at h
    · next s2 heq => exact htrans _ _ _ (hbody _ _ _ heq) (ih _ _ _ h)
    · cases h

theorem Follows.refl {F : Type} (st : Reader F) : Follows st st :=
  ⟨rfl, rfl, List.suffix_refl _, List.prefix_refl _⟩

theorem Follows.trans {F : Type} (a b c : Reader F) (h1 : Follows a b) (h2 : Follows b c) :
    Follows a c :=
  ⟨h2.1.trans h1.1, h2.2.1.trans h1.2.1, h2.2.2.1.trans h1.2.2.1, h1.2.2.2.trans h2.2.2.2⟩

theorem setEntry_shape {F : Type} (m : List (List (Option F))) (ion i : Nat) (v : F) :
    (setEntry m ion i v).map List.length = m.map List.length := by
  induction m generalizing ion with
  | nil => rfl
  | cons row rows ih =>
    cases ion with
    | zero => simp [setEntry]
    | succ ion => simp [setEntry, ih]

theorem read_float_follows {F : Type} (ops : FloatOps F) (f : Field)
    (store : Plasma F → F → Plasma F) (hstore : ∀ p v, (store p v).shape = p.shape)
    (st st1 : Reader F) (h : read_float ops f store st = .ok st1) : Follows st st1 := by
  unfold read_float at h
  have hs := Tokenizer.next_suffix st.tk st.fi
  have hr := Tokenizer.next_re st.tk st.fi
  split at h
  · cases h
  · next token tk1 fi1 heq =>
    rw [heq] at hs hr
    split at h
    · cases h
    · next v hv =>
      cases h
      exact ⟨hstore _ _, hr, hs, List.prefix_refl _⟩

theorem read_pair_follows {F : Type} (ops : FloatOps F) (f : Field)
    (store : Plasma F → F → Plasma F) (hstore : ∀ p v, (store p v).shape = p.shape)
    (st st1 : Reader F) (h : read_pair ops f store st = .ok st1) : Follows st st1 := by
  unfold read_pair at h
  have hs := next2_suffix st.tk st.fi
  have hr := next2_re st.tk st.fi
  split at h
  · cases h
  · next token tk1 fi1 heq =>
    rw [heq] at hs hr
    split at h
    · cases h
    · next v hv =>
      cases h
      exact ⟨hstore _ _, hr, hs, List.prefix_refl _⟩

theorem fill_species_follows {F : Type} (ops : FloatOps F) (f : Field)
    (store : Nat → Plasma F → F → Plasma F) (hstore : ∀ i p v, (store i p v).shape = p.shape)
    (st st1 : Reader F) (h : fill_species ops f store st = .ok st1) : Follows st st1 :=
  forLoop_rel Follows Follows.refl Follows.trans _
    (fun i s s1 hb => read_float_follows ops f (store i) (hstore i) s s1 hb) _ _ _ _ h

theorem fill_profile_follows {F : Type} (ops : FloatOps F) (f : Field)
    (store : Nat → Plasma F → F → Plasma F) (hstore : ∀ i p v, (store i p v).shape = p.shape)
    (st st1 : Reader F) (h : fill_profile ops f store st = .ok st1) : Follows st st1 :=
  forLoop_rel Follows Follows.refl Follows.trans _
    (fun i s s1 hb => read_pair_follows ops f (store i) (hstore i) s s1 hb) _ _ _ _ h

theorem fill_matrix_follows {F : Type} (ops : FloatOps F) (f : Field)
    (store : Nat → Nat → Plasma F → F → Plasma F)
    (hstore : ∀ ion i p v, (store ion i p v).shape = p.shape)
    (st st1 : Reader F) (h : fill_matrix ops f store st = .ok st1) : Follows st st1 := by
  refine forLoop_rel Follows Follows.refl Follows.trans _ ?_ _ _ _ _ h
  intro i s s1 hb
  have h1 : Follows s { s with tk := (s.tk.next s.fi).2.1, fi := (s.tk.next s.fi).2.2 } :=
    ⟨rfl, Tokenizer.next_re _ _, Tokenizer.next_suffix _ _, List.prefix_refl _⟩
  refine Follows.trans _ _ _ h1 ?_
  exact forLoop_rel Follows Follows.refl Follows.trans _
    (fun ion a b hab => read_float_follows ops f (store ion i) (hstore ion i) a b hab) _ _ _ _ hb

theorem name_loop_extends (k : Nat) (ss : Str) (ids : List Str) : ids <+: name_loop k ss ids := by
  induction k generalizing ss ids with
  | zero => exact List.prefix_refl _
  | succ k ih =>
    simp only [name_loop]
    exact (List.prefix_append ids _).trans (ih _ _)

theorem handle_name_follows {F : Type} (line : Str) (st : Reader F) :
    Follows st (handle_name line st) :=
  ⟨rfl, rfl, List.tail_suffix _, name_loop_extends _ _ _⟩

theorem body_step_follows {F : Type} (ops : FloatOps F) (negative_psi : Bool) (line : Str)
    (st st1 : Reader F) (h : body_step ops negative_psi line st = .ok st1) : Follows st st1 := by
  unfold body_step at h
  by_cases c1 : regex_match line re_name = true
  · rw [if_pos c1] at h; cases h; exact handle_name_follows line st
  rw [if_neg c1] at h
  by_cases c2 : regex_match line re_masse = true
  · rw [if_pos c2] at h; exact read_float_follows _ _ _ (fun _ _ => by simp [Plasma.shape]) _ _ h
  rw [if_neg c2] at h
  by_cases c3 : regex_match line re_ze = true
  · rw [if_pos c3] at h; exact read_float_follows _ _ _ (fun _ _ => by simp [Plasma.shape]) _ _ h
  rw [if_neg c3] at h
  by_cases c4 : regex_match line re_mass = true
  · rw [if_pos c4] at h
    exact fill_species_follows _ _ _ (fun i p v => by simp [Plasma.shape]) _ _ h
  rw [if_neg c4] at h
  by_cases c5 : regex_match line re_z = true
  · rw [if_pos c5] at h
    exact fill_species_follows _ _ _ (fun i p v => by simp [Plasma.shape]) _ _ h
  rw [if_neg c5] at h
  by_cases c6 : regex_match line re_polflux = true
  · rw [if_pos c6] at h
    exact fill_profile_follows _ _ _ (fun i p v => by simp [Plasma.shape]) _ _ h
  rw [if_neg c6] at h
  by_cases c7 : regex_match line re_ne = true
  · rw [if_pos c7] at h
    exact fill_profile_follows _ _ _ (fun i p v => by simp [Plasma.shape]) _ _ h
  rw [if_neg c7] at h
  by_cases c8 : regex_match line re_ni = true
  · rw [if_pos c8] at h
    exact fill_matrix_follows _ _ _
      (fun ion i p v => by simp [Plasma.shape, setEntry_shape]) _ _ h
  rw [if_neg c8] at h
  by_cases c9 : regex_match line re_te = true
  · rw [if_pos c9] at h
    exact fill_profile_follows _ _ _ (fun i p v => by simp [Plasma.shape]) _ _ h
  rw [if_neg c9] at h
  by_cases c10 : regex_match line re_ti = true
  · rw [if_pos c10] at h
    exact fill_matrix_follows _ _ _
      (fun ion i p v => by simp [Plasma.shape, setEntry_shape]) _ _ h
  rw [if_neg c10] at h
  cases h; exact Follows.refl st

/-! ### Early exits -/

theorem forLoop_error {σ ε : Type} (body : Nat → σ → Except ε σ) :
    ∀ k i s e, forLoop body k i s = .error e → ∃ j t, body j t = .error e := by
  intro k
  induction k with
  | zero => intro i s e h; simp [forLoop] at h
  | succ k ih =>
    intro i s e h
    simp only [forLoop] at h
    split at h
    · exact ih _ _ _ h
    · next e1 heq => cases h; exact ⟨_, _, heq⟩

theorem read_float_error {F : Type} (ops : FloatOps F) (f : Field)
    (store : Plasma F → F → Plasma F) (st : Reader F) (e : Abort)
    (h : read_float ops f store st = .error e) : e = .fail f ∨ e = .thrown := by
  unfold read_float at h
  split at h
  · cases h; exact Or.inl rfl
  · split at h
    · cases h; exact Or.inr rfl
    · cases h

theorem read_pair_error {F : Type} (ops : FloatOps F) (f : Field)
    (store : Plasma F → F → Plasma F) (st : Reader F) (e : Abort)
    (h : read_pair ops f store st = .error e) : e = .fail f ∨ e = .thrown := by
  unfold read_pair at h
  split at h
  · cases h; exact Or.inl rfl
  · split at h
    · cases h; exact Or.inr rfl
    · cases h

theorem fill_species_error {F : Type} (ops : FloatOps F) (f : Field)
    (store : Nat → Plasma F → F → Plasma F) (st : Reader F) (e : Abort)
    (h : fill_species ops f store st = .error e) : e = .fail f ∨ e = .thrown := by
  obtain ⟨j, t, hjt⟩ := forLoop_error _ _ _ _ _ h
  exact read_float_error _ _ _ _ _ hjt

theorem fill_profile_error {F : Type} (ops : FloatOps F) (f : Field)
    (store : Nat → Plasma F → F → Plasma F) (st : Reader F) (e : Abort)
    (h : fill_profile ops f store st = .error e) : e = .fail f ∨ e = .thrown := by
  obtain ⟨j, t, hjt⟩ := forLoop_error _ _ _ _ _ h
  exact read_pair_error _ _ _ _ _ hjt

theorem fill_matrix_error {F : Type} (ops : FloatOps F) (f : Field)
    (store : Nat → Nat → Plasma F → F → Plasma F) (st : Reader F) (e : Abort)
    (h : fill_matrix ops f store st = .error e) : e = .fail f ∨ e = .thrown := by
  obtain ⟨j, t, hjt⟩ := forLoop_error _ _ _ _ _ h
  obtain ⟨j1, t1, h1⟩ := forLoop_error _ _ _ _ _ hjt
  exact read_float_error _ _ _ _ _ h1

theorem body_step_error {F : Type} (ops : FloatOps F) (negative_psi : Bool) (line : Str)
    (st : Reader F) (e : Abort) (h : body_step ops negative_psi line st = .error e) :
    (∃ f, e = .fail f ∧ f.inBody = true) ∨ e = .thrown := by
  unfold body_step at h
  by_cases c1 : regex_match line re_name = true
  · rw [if_pos c1] at h; cases h
  rw [if_neg c1] at h
  by_cases c2 : regex_match line re_masse = true
  · rw [if_pos c2] at h
    rcases read_float_error _ _ _ _ _ h with h1 | h1
    · exact Or.inl ⟨_, h1, rfl⟩
    · exact Or.inr h1
  rw [if_neg c2] at h
  by_cases c3 : regex_match line re_ze = true
  · rw [if_pos c3] at h
    rcases read_float_error _ _ _ _ _ h with h1 | h1
    · exact Or.inl ⟨_, h1, rfl⟩
    · exact Or.inr h1
  rw [if_neg c3] at h
  by_cases c4 : regex_match line re_mass = true
  · rw [if_pos c4] at h
    rcases fill_species_error _ _ _ _ _ h with h1 | h1
    · exact Or.inl ⟨_, h1, rfl⟩
    · exact Or.inr h1
  rw [if_neg c4] at h
  by_cases c5 : regex_match line re_z = true
  · rw [if_pos c5] at h
    rcases fill_species_error _ _ _ _ _ h with h1 | h1
    · exact Or.inl ⟨_, h1, rfl⟩
    · exact Or.inr h1
  rw [if_neg c5] at h
  by_cases c6 : regex_match line re_polflux = true
  · rw [if_pos c6] at h
    rcases fill_profile_error _ _ _ _ _ h with h1 | h1
    · exact Or.inl ⟨_, h1, rfl⟩
    · exact Or.inr h1
  rw [if_neg c6] at h
  by_cases c7 : regex_match line re_ne = true
  · rw [if_pos c7] at h
    rcases fill_profile_error _ _ _ _ _ h with h1 | h1
    · exact Or.inl ⟨_, h1, rfl⟩
    · exact Or.inr h1
  rw [if_neg c7] at h
  by_cases c8 : regex_match line re_ni = true
  · rw [if_pos c8] at h
    rcases fill_matrix_error _ _ _ _ _ h with h1 | h1
    · exact Or.inl ⟨_, h1, rfl⟩
    · exact Or.inr h1
  rw [if_neg c8] at h
  by_cases c9 : regex_match line re_te = true
  · rw [if_pos c9] at h
    rcases fill_profile_error _ _ _ _ _ h with h1 | h1
    · exact Or.inl ⟨_, h1, rfl⟩
    · exact Or.inr h1
  rw [if_neg c9] at h
  by_cases c10 : regex_match line re_ti = true
  · rw [if_pos c10] at h
    rcases fill_matrix_error _ _ _ _ _ h with h1 | h1
    · exact Or.inl ⟨_, h1, rfl⟩
    · exact Or.inr h1
  rw [if_neg c10] at h
  cases h

/-! ### The BODY loop -/

theorem body_loop_follows {F : Type} (ops : FloatOps F) (negative_psi : Bool) :
    ∀ n (st st1 : Reader F), body_loop ops negative_psi n st = .ok st1 →
      Follows st st1 ∧ st1.fi = [] := by
  intro n
  induction n with
  | zero => intro st st1 h; simp [body_loop] at h
  | succ n ih =>
    intro st st1 h
    simp only [body_loop] at h
    split at h
    · next hfi => cases h; exact ⟨Follows.refl _, hfi⟩
    · next line rest hfi =>
      split at h
      · next st2 hstep =>
        have h1 := body_step_follows _ _ _ _ _ hstep
        have h2 := ih _ _ h
        refine ⟨Follows.trans _ _ _ ⟨h1.1, h1.2.1, ?_, h1.2.2.2⟩ h2.1, h2.2⟩
        rw [hfi]
        exact h1.2.2.1.trans (List.suffix_cons _ _)
      · cases h

/-- An early exit of the BODY loop: the cause is a handler of the BODY loop without
token or an exception, provided the loop has more rounds than the stream has lines;
the species names are those before the call, extended. -/
theorem body_loop_error {F : Type} (ops : FloatOps F) (negative_psi : Bool) :
    ∀ n (st : Reader F) (e : Abort) (ids : List Str), st.fi.length < n →
      body_loop ops negative_psi n st = .error (e, ids) →
      ((∃ f, e = .fail f ∧ f.inBody = true) ∨ e = .thrown) ∧ st.species_identifiers <+: ids := by
  intro n
  induction n with
  | zero => intro st e ids hlen h; omega
  | succ n ih =>
    intro st e ids hlen h
    simp only [body_loop] at h
    split at h
    · cases h
    · next line rest hfi =>
      split at h
      · next st2 hstep =>
        have h1 := body_step_follows _ _ _ _ _ hstep
        have hlen2 : st2.fi.length < n := by
          have := h1.2.2.1.length_le
          rw [hfi] at hlen
          simp only [List.length_cons] at hlen this
          omega
        have h2 := ih _ _ _ hlen2 h
        exact ⟨h2.1, h1.2.2.2.trans h2.2⟩
      · next e1 hstep =>
        cases h
        exact ⟨body_step_error _ _ _ _ _ hstep, List.prefix_refl _⟩

/-! ### The HEADER loop -/

/-- At the exit of the HEADER loop the tokenizer still has its pattern, the stream is a
suffix of the one at the start, and either both sizes differ from `-1` or the stream is
exhausted. -/
theorem header_loop_ok : ∀ n (h h1 : Header), header_loop n h = .ok h1 →
    h1.tk.re = h.tk.re ∧ h1.fi <:+ h.fi ∧ ((h1.nexp = -1 ∨ h1.nion = -1) → h1.fi = []) := by
  intro n
  induction n with
  | zero => intro h h1 hh; simp [header_loop] at hh
  | succ n ih =>
    intro h h1 hh
    simp only [header_loop] at hh
    split at hh
    · split at hh
      · next hfi => cases hh; exact ⟨rfl, List.suffix_refl _, fun _ => hfi⟩
      · next line rest hfi =>
        have hsuf := Tokenizer.next_suffix h.tk rest
        have hre := Tokenizer.next_re h.tk rest
        have hcons : rest <:+ h.fi := by rw [hfi]; exact List.suffix_cons _ _
        split at hh
        · split at hh
          · cases hh
          · next token tk1 fi1 heq =>
            rw [heq] at hsuf hre
            split at hh
            · cases hh
            · have := ih _ _ hh
              exact ⟨this.1.trans hre, this.2.1.trans (hsuf.trans hcons), this.2.2⟩
        · split at hh
          · split at hh
            · cases hh
            · next token tk1 fi1 heq =>
              rw [heq] at hsuf hre
              split at hh
              · cases hh
              · have := ih _ _ hh
                exact ⟨this.1.trans hre, this.2.1.trans (hsuf.trans hcons), this.2.2⟩
          · split at hh
            · split at hh
              · cases hh
              · next token tk1 fi1 heq =>
                rw [heq] at hsuf hre
                split at hh
                · cases hh
                · have := ih _ _ hh
                  exact ⟨this.1.trans hre, this.2.1.trans (hsuf.trans hcons), this.2.2⟩
            · have := ih _ _ hh
              exact ⟨this.1, this.2.1.trans hcons, this.2.2⟩
    · next hc =>
      cases hh
      exact ⟨rfl, List.suffix_refl _, fun hc1 => absurd hc1 hc⟩

/-- An early exit of the HEADER loop: a handler of the HEADER loop without token or an
exception, provided the loop has more rounds than the stream has lines. -/
theorem header_loop_error : ∀ n (h : Header) (e : Abort), h.fi.length < n →
    header_loop n h = .error e →
    (∃ f, e = .fail f ∧ f.inBody = false) ∨ e = .thrown := by
  intro n
  induction n with
  | zero => intro h e hlen hh; omega
  | succ n ih =>
    intro h e hlen hh
    simp only [header_loop] at hh
    split at hh
    · split at hh
      · cases hh
      · next line rest hfi =>
        have hsuf := (Tokenizer.next_suffix h.tk rest).length_le
        rw [hfi] at hlen
        simp only [List.length_cons] at hlen
        split at hh
        · split at hh
          · cases hh; exact Or.inl ⟨_, rfl, rfl⟩
          · next token tk1 fi1 heq =>
            rw [heq] at hsuf
            split at hh
            · cases hh; exact Or.inr rfl
            · exact ih _ _ (by simp only; simp only at hsuf; omega) hh
        · split at hh
          · split at hh
            · cases hh; exact Or.inl ⟨_, rfl, rfl⟩
            · next token tk1 fi1 heq =>
              rw [heq] at hsuf
              split at hh
              · cases hh; exact Or.inr rfl
              · exact ih _ _ (by simp only; simp only at hsuf; omega) hh
          · split at hh
            · split at hh
              · cases hh; exact Or.inl ⟨_, rfl, rfl⟩
              · next token tk1 fi1 heq =>
                rw [heq] at hsuf
                split at hh
                · cases hh; exact Or.inr rfl
                · exact ih _ _ (by simp only; simp only at hsuf; omega) hh
            · exact ih _ _ (by simp only; omega) hh
    · cases hh

/-- Outcomes of `read_stream`, by cases on the two loops. -/
theorem read_stream_returned {F : Type} (ops : FloatOps F) (fi : IFStream) (ids : List Str)
    (negative_psi : Bool) (p : Plasma F) (ids1 : List Str) (cerr : List Diag)
    (h : read_stream ops fi ids negative_psi = .returned p ids1 cerr) :
    (∃ f, cerr = [.invalid_line f] ∧ p = sentinel ∧ ids <+: ids1 ∧
        (f.inBody = false → ids1 = ids)) ∨
      (cerr = [] ∧ ∃ hd st, header_loop (fi.length + 1) (header_start fi) = .ok hd ∧
        hd.nexp ≠ -1 ∧ hd.nion ≠ -1 ∧
        body_loop ops negative_psi (hd.fi.length + 1) (body_start hd ids) = .ok st ∧
        p = st.plasma ∧ ids1 = st.species_identifiers) := by
  unfold read_stream at h
  split at h
  · next f hh =>
    cases h
    exact Or.inl ⟨f, rfl, rfl, List.prefix_refl _, fun _ => rfl⟩
  · cases h
  · cases h
  · next hd hh =>
    split at h
    · cases h
    · next hc =>
      have hc1 : hd.nexp ≠ -1 ∧ hd.nion ≠ -1 := by
        constructor
        · intro h1; exact hc (Or.inl h1)
        · intro h1; exact hc (Or.inr h1)
      split at h
      · next st hb =>
        cases h
        exact Or.inr ⟨rfl, hd, st, hh, hc1.1, hc1.2, hb, rfl, rfl⟩
      · next f ids2 hb =>
        cases h
        have := body_loop_error ops negative_psi _ _ _ _ (Nat.lt_succ_self _) hb
        rcases this.1 with ⟨f1, hf1, hin⟩ | h2
        · cases hf1
          exact Or.inl ⟨f, rfl, rfl, this.2, fun hf => by rw [hin] at hf; cases hf⟩
        · cases h2
      · cases h
      · cases h

/-! ### Integer conversions -/

theorem toInt32_range (n : Nat) : -(2 : Int) ^ 31 ≤ toInt32 n ∧ toInt32 n < (2 : Int) ^ 31 := by
  unfold toInt32
  have hlt : n % 2 ^ 32 < 2 ^ 32 := Nat.mod_lt _ (by norm_num)
  norm_num at hlt ⊢
  split <;> constructor <;> omega

theorem toInt32_of_lt (n : Nat) (h : n < 2 ^ 31) : toInt32 n = (n : Int) := by
  unfold toInt32
  norm_num at h ⊢
  have h1 : n % 4294967296 = n := Nat.mod_eq_of_lt (by omega)
  rw [h1, if_pos h]
  omega

theorem toSizeT_natCast (n : Nat) (h : n < 2 ^ 31) : toSizeT (n : Int) = n := by
  unfold toSizeT
  norm_num at h ⊢
  omega

theorem toSizeT_eq_zero (v : Int) (h1 : -(2 : Int) ^ 31 ≤ v) (h2 : v < (2 : Int) ^ 31)
    (h : toSizeT v = 0) : v = 0 := by
  unfold toSizeT at h
  norm_num at h h1 h2
  omega

theorem header_loop_range : ∀ n (h h1 : Header), header_loop n h = .ok h1 →
    h.inRange → h1.inRange := by
  intro n
  induction n with
  | zero => intro h h1 hh; simp [header_loop] at hh
  | succ n ih =>
    intro h h1 hh hr
    simp only [header_loop] at hh
    split at hh
    · split at hh
      · cases hh; exact hr
      · split at hh
        · split at hh
          · cases hh
          · split at hh
            · cases hh
            · exact ih _ _ hh hr
        · split at hh
          · split at hh
            · cases hh
            · split at hh
              · cases hh
              · exact ih _ _ hh ⟨hr.1, toInt32_range _⟩
          · split at hh
            · split at hh
              · cases hh
              · split at hh
                · cases hh
                · exact ih _ _ hh ⟨toInt32_range _, hr.2⟩
            · exact ih _ _ hh hr
    · cases hh; exact hr

theorem header_start_inRange (fi : IFStream) : (header_start fi).inRange := by
  unfold Header.inRange header_start
  norm_num

/-! ### The ways the call ends -/

/-- The call always ends: the loops never run out of rounds. -/
theorem read_input_gacode_ends {F : Type} (ops : FloatOps F) (file : Option Str)
    (ids : List Str) (negative_psi : Bool) :
    read_input_gacode ops file ids negative_psi ≠ .hang := by
  unfold read_input_gacode
  split
  · intro h; cases h
  · unfold read_stream
    split
    · intro h; cases h
    · intro h; cases h
    · next hh =>
      rcases header_loop_error _ _ _ (Nat.lt_succ_self _) hh with ⟨f, hf, _⟩ | hf <;> cases hf
    · split
      · intro h; cases h
      · split
        · intro h; cases h
        · intro h; cases h
        · intro h; cases h
        · next ids2 hb =>
          rcases (body_loop_error ops negative_psi _ _ _ _ (Nat.lt_succ_self _) hb).1 with
            ⟨f, hf, _⟩ | hf <;> cases hf

/-- C2, at the failing input: a `shot` directive that follows the two sizes is not
read; the container keeps `shot = -1`. -/
theorem shot_after_sizes_is_ignored :
    read_input_gacode decimalOps (some "# nexp\n3\n# nion\n2\n# shot\n163303\n".toList) [] true
      = .returned (Plasma.new (-1) 3 2) [] [] := by
  decide

/-- C9, counterexample: the stream opens, the `masse` handler finds no token, and the
call returns the sentinel container. -/
theorem sentinel_from_open_stream :
    read_input_gacode decimalOps (some "# nion\n2\n# nexp\n3\n# masse\n".toList) [] true
      = .returned sentinel [] [.invalid_line .masse] := by
  decide

/-- C9, amended: on a stream that opens, the sentinel container is returned only after
a handler found no token (with the diagnostic "Invalid line for" that field) or, without
diagnostic, as the regular result of an input whose HEADER loop ends with `shot = -1`,
`nexp = 0` and `nion = 0`. -/
theorem sentinel_on_open_stream {F : Type} (ops : FloatOps F) (content : Str)
    (ids ids1 : List Str) (negative_psi : Bool) (cerr : List Diag)
    (h : read_input_gacode ops (some content) ids negative_psi = .returned sentinel ids1 cerr) :
    (∃ f, cerr = [.invalid_line f]) ∨
    (cerr = [] ∧ ∃ hd, header_loop ((getlines content []).length + 1)
        (header_start (getlines content [])) = .ok hd ∧
      hd.shot = -1 ∧ hd.nexp = 0 ∧ hd.nion = 0) := by
  rcases read_stream_returned ops _ _ _ _ _ _ h with ⟨f, hf, _⟩ | ⟨hc, hd, st, hh, _, _, hb, hp, _⟩
  · exact Or.inl ⟨f, hf⟩
  · refine Or.inr ⟨hc, hd, hh, ?_⟩
    have hshape := (body_loop_follows ops negative_psi _ _ _ hb).1.1
    rw [← hp] at hshape
    have hr := header_loop_range _ _ _ hh (header_start_inRange _)
    have e1 : hd.shot = -1 := (congrArg Shape.shot hshape).symm
    have e2 : toSizeT hd.nexp = 0 := (congrArg Shape.nexp hshape).symm
    have e3 : toSizeT hd.nion = 0 := (congrArg Shape.nion hshape).symm
    exact ⟨e1, toSizeT_eq_zero _ hr.1.1 hr.1.2 e2, toSizeT_eq_zero _ hr.2.1 hr.2.2 e3⟩

/-- C9, amended, at an input that declares both sizes as zero. -/
theorem sentinel_on_open_stream_witness :
    read_input_gacode decimalOps (some "# nion\n0\n# nexp\n0\n".toList) [] true
        = .returned sentinel [] [] ∧
      ((∃ f, ([] : List Diag) = [.invalid_line f]) ∨
        (([] : List Diag) = [] ∧ ∃ hd, header_loop ((getlines "# nion\n0\n# nexp\n0\n".toList []).length + 1)
          (header_start (getlines "# nion\n0\n# nexp\n0\n".toList [])) = .ok hd ∧
          hd.shot = -1 ∧ hd.nexp = 0 ∧ hd.nion = 0)) :=
  ⟨by decide,
    sentinel_on_open_stream decimalOps "# nion\n0\n# nexp\n0\n".toList [] [] true [] (by decide)⟩

/-! ### The sizes of a new container -/

theorem shape_new {F : Type} (shot : Int) (nexp nion : Nat) :
    (Plasma.new shot nexp nion : Plasma F).shape =
      { shot := shot, nexp := nexp, nion := nion, mass := nion, z := nion, polflux := nexp,
        ne := nexp, te := nexp, ni := List.replicate nion nexp,
        ti := List.replicate nion nexp } := by
  simp [Plasma.new, Plasma.shape]

/-! ### C4: the two values of the sign flag, by simulation -/

theorem forLoop_map {σ ε : Type} (g : σ → σ) (b1 b0 : Nat → σ → Except ε σ)
    (hb : ∀ i s, b1 i (g s) = (b0 i s).map g) :
    ∀ k i s, forLoop b1 k i (g s) = (forLoop b0 k i s).map g := by
  intro k
  induction k with
  | zero => intro i s; rfl
  | succ k ih =>
    intro i s
    simp only [forLoop, hb]
    cases h : b0 i s with
    | error e => rfl
    | ok s1 => simp only [Except.map]; exact ih _ _

theorem read_float_negated {F : Type} (ops : FloatOps F) (f : Field)
    (s1 s0 : Plasma F → F → Plasma F)
    (hs : ∀ p v, s1 (p.negated ops) v = (s0 p v).negated ops) (st : Reader F) :
    read_float ops f s1 (st.negated ops) = (read_float ops f s0 st).map (Reader.negated ops) := by
  simp only [read_float, Reader.negated]
  split
  · rfl
  · split
    · rfl
    · simp only [Except.map, hs]
      rfl

theorem read_pair_negated {F : Type} (ops : FloatOps F) (f : Field)
    (s1 s0 : Plasma F → F → Plasma F)
    (hs : ∀ p v, s1 (p.negated ops) v = (s0 p v).negated ops) (st : Reader F) :
    read_pair ops f s1 (st.negated ops) = (read_pair ops f s0 st).map (Reader.negated ops) := by
  simp only [read_pair, Reader.negated]
  split
  · rfl
  · split
    · rfl
    · simp only [Except.map, hs]
      rfl

theorem fill_species_negated {F : Type} (ops : FloatOps F) (f : Field)
    (s1 s0 : Nat → Plasma F → F → Plasma F)
    (hs : ∀ i p v, s1 i (p.negated ops) v = (s0 i p v).negated ops) (st : Reader F) :
    fill_species ops f s1 (st.negated ops)
      = (fill_species ops f s0 st).map (Reader.negated ops) :=
  forLoop_map (Reader.negated ops) _ _ (fun i s => read_float_negated ops f _ _ (hs i) s) _ _ _

theorem fill_profile_negated {F : Type} (ops : FloatOps F) (f : Field)
    (s1 s0 : Nat → Plasma F → F → Plasma F)
    (hs : ∀ i p v, s1 i (p.negated ops) v = (s0 i p v).negated ops) (st : Reader F) :
    fill_profile ops f s1 (st.negated ops)
      = (fill_profile ops f s0 st).map (Reader.negated ops) :=
  forLoop_map (Reader.negated ops) _ _ (fun i s => read_pair_negated ops f _ _ (hs i) s) _ _ _

theorem fill_matrix_negated {F : Type} (ops : FloatOps F) (f : Field)
    (s1 s0 : Nat → Nat → Plasma F → F → Plasma F)
    (hs : ∀ ion i p v, s1 ion i (p.negated ops) v = (s0 ion i p v).negated ops)
    (st : Reader F) :
    fill_matrix ops f s1 (st.negated ops)
      = (fill_matrix ops f s0 st).map (Reader.negated ops) := by
  refine forLoop_map (Reader.negated ops) _ _ ?_ _ _ _
  intro i s
  exact forLoop_map (Reader.negated ops) _ _
    (fun ion a => read_float_negated ops f _ _ (hs ion i) a) s.plasma.nion 0
    { s with tk := (s.tk.next s.fi).2.1, fi := (s.tk.next s.fi).2.2 }

theorem body_step_negated {F : Type} (ops : FloatOps F) (hone : ∀ x, ops.mul ops.one x = x)
    (line : Str) (st : Reader F) :
    body_step ops true line (st.negated ops)
      = (body_step ops false line st).map (Reader.negated ops) := by
  unfold body_step
  by_cases c1 : regex_match line re_name = true
  · rw [if_pos c1, if_pos c1]; rfl
  rw [if_neg c1, if_neg c1]
  by_cases c2 : regex_match line re_masse = true
  · rw [if_pos c2, if_pos c2]; exact read_float_negated ops _ _ _ (fun p v => rfl) st
  rw [if_neg c2, if_neg c2]
  by_cases c3 : regex_match line re_ze = true
  · rw [if_pos c3, if_pos c3]; exact read_float_negated ops _ _ _ (fun p v => rfl) st
  rw [if_neg c3, if_neg c3]
  by_cases c4 : regex_match line re_mass = true
  · rw [if_pos c4, if_pos c4]; exact fill_species_negated ops _ _ _ (fun i p v => rfl) st
  rw [if_neg c4, if_neg c4]
  by_cases c5 : regex_match line re_z = true
  · rw [if_pos c5, if_pos c5]; exact fill_species_negated ops _ _ _ (fun i p v => rfl) st
  rw [if_neg c5, if_neg c5]
  by_cases c6 : regex_match line re_polflux = true
  · rw [if_pos c6, if_pos c6]
    refine fill_profile_negated ops _ _ _ (fun i p v => ?_) st
    simp [Plasma.negated, List.map_set, hone]
  rw [if_neg c6, if_neg c6]
  by_cases c7 : regex_match line re_ne = true
  · rw [if_pos c7, if_pos c7]; exact fill_profile_negated ops _ _ _ (fun i p v => rfl) st
  rw [if_neg c7, if_neg c7]
  by_cases c8 : regex_match line re_ni = true
  · rw [if_pos c8, if_pos c8]; exact fill_matrix_negated ops _ _ _ (fun ion i p v => rfl) st
  rw [if_neg c8, if_neg c8]
  by_cases c9 : regex_match line re_te = true
  · rw [if_pos c9, if_pos c9]; exact fill_profile_negated ops _ _ _ (fun i p v => rfl) st
  rw [if_neg c9, if_neg c9]
  by_cases c10 : regex_match line re_ti = true
  · rw [if_pos c10, if_pos c10]; exact fill_matrix_negated ops _ _ _ (fun ion i p v => rfl) st
  rw [if_neg c10, if_neg c10]
  rfl

theorem body_loop_negated {F : Type} (ops : FloatOps F) (hone : ∀ x, ops.mul ops.one x = x) :
    ∀ n (st : Reader F), body_loop ops true n (st.negated ops)
      = (body_loop ops false n st).map (Reader.negated ops) := by
  intro n
  induction n with
  | zero => intro st; rfl
  | succ n ih =>
    intro st
    simp only [body_loop]
    have hfi : (st.negated ops).fi = st.fi := rfl
    rw [hfi]
    cases hst : st.fi with
    | nil => rfl
    | cons line rest =>
      simp only
      have e : ({ st.negated ops with fi := rest } : Reader F)
          = Reader.negated ops { st with fi := rest } := rfl
      rw [e, body_step_negated ops hone]
      cases hb : body_step ops false line { st with fi := rest } with
      | error e1 => rfl
      | ok s1 => simp only [Except.map]; exact ih s1

theorem negated_new {F : Type} (ops : FloatOps F) (shot : Int) (nexp nion : Nat) :
    (Plasma.new shot nexp nion : Plasma F).negated ops = Plasma.new shot nexp nion := by
  simp [Plasma.new, Plasma.negated]

theorem read_stream_negated {F : Type} (ops : FloatOps F) (hone : ∀ x, ops.mul ops.one x = x)
    (fi : IFStream) (ids : List Str) :
    read_stream ops fi ids true
      = (read_stream ops fi ids false).onPlasma (Plasma.negated ops) := by
  unfold read_stream
  cases hh : header_loop (fi.length + 1) (header_start fi) with
  | error e =>
    cases e with
    | fail f => simp only [Outcome.onPlasma, sentinel, negated_new]
    | thrown => rfl
    | rounds => rfl
  | ok hd =>
    simp only
    by_cases hc : hd.nexp = -1 ∨ hd.nion = -1
    · rw [if_pos hc, if_pos hc]; rfl
    · rw [if_neg hc, if_neg hc]
      have e : (body_start hd ids : Reader F) = Reader.negated ops (body_start hd ids) := by
        simp only [body_start, Reader.negated, negated_new]
      rw [e, body_loop_negated ops hone, ← e]
      cases hb : body_loop ops false (hd.fi.length + 1) (body_start hd ids) with
      | ok st => rfl
      | error e1 =>
        obtain ⟨a, ids2⟩ := e1
        cases a with
        | fail f => simp only [Except.map, Outcome.onPlasma, sentinel, negated_new]
        | thrown => rfl
        | rounds => rfl

theorem read_input_gacode_negated {F : Type} (ops : FloatOps F)
    (hone : ∀ x, ops.mul ops.one x = x) (file : Option Str) (ids : List Str) :
    read_input_gacode ops file ids true
      = (read_input_gacode ops file ids false).onPlasma (Plasma.negated ops) := by
  cases file with
  | none => simp only [read_input_gacode, Outcome.onPlasma, sentinel, negated_new]
  | some content => exact read_stream_negated ops hone _ _

theorem negated_negated {F : Type} (ops : FloatOps F)
    (hinv : ∀ x, ops.mul ops.negOne (ops.mul ops.negOne x) = x) (p : Plasma F) :
    (p.negated ops).negated ops = p := by
  have h : (Option.map (ops.mul ops.negOne) ∘ Option.map (ops.mul ops.negOne)) = id := by
    funext o
    cases o with
    | none => rfl
    | some v => simp [hinv]
  simp only [Plasma.negated, List.map_map, h, List.map_id]

/-! ### Matches consume input -/

theorem starLoop_progress {α : Type} (step : Str → (Str → Option α) → Option α)
    (hstep : ∀ s k x, step s k = some x → ∃ s1, k s1 = some x ∧ s1 <:+ s) :
    ∀ n s k x, starLoop step n s k = some x → ∃ s1, k s1 = some x ∧ s1 <:+ s := by
  intro n
  induction n with
  | zero => intro s k x h; exact ⟨s, h, List.suffix_refl _⟩
  | succ n ih =>
    intro s k x h
    simp only [starLoop] at h
    split at h
    · next r hr =>
      cases h
      obtain ⟨s1, h1, hs1⟩ := hstep _ _ _ hr
      split at h1
      · obtain ⟨s2, h2, hs2⟩ := ih _ _ _ h1
        exact ⟨s2, h2, hs2.trans hs1⟩
      · cases h1
    · exact ⟨s, h, List.suffix_refl _⟩

theorem Regex.run_progress {α : Type} (r : Regex) :
    ∀ (s : Str) (k : Str → Option α) (x : α), r.run s k = some x →
      ∃ s1, k s1 = some x ∧ s1 <:+ s ∧ s1.length + r.minLen ≤ s.length := by
  induction r with
  | eps => intro s k x h; exact ⟨s, h, List.suffix_refl _, Nat.le_refl _⟩
  | cls c =>
    intro s k x h
    cases s with
    | nil => simp [Regex.run] at h
    | cons a t =>
      simp only [Regex.run] at h
      split at h
      · exact ⟨t, h, List.suffix_cons _ _, by simp [Regex.minLen]⟩
      · cases h
  | seq a b iha ihb =>
    intro s k x h
    simp only [Regex.run] at h
    obtain ⟨s1, h1, hs1, hl1⟩ := iha _ _ _ h
    obtain ⟨s2, h2, hs2, hl2⟩ := ihb _ _ _ h1
    exact ⟨s2, h2, hs2.trans hs1, by simp only [Regex.minLen]; omega⟩
  | alt a b iha ihb =>
    intro s k x h
    simp only [Regex.run] at h
    split at h
    · next r hr =>
      cases h
      obtain ⟨s1, h1, hs1, hl1⟩ := iha _ _ _ hr
      exact ⟨s1, h1, hs1, by simp only [Regex.minLen]; omega⟩
    · obtain ⟨s1, h1, hs1, hl1⟩ := ihb _ _ _ h
      exact ⟨s1, h1, hs1, by simp only [Regex.minLen]; omega⟩
  | opt a iha =>
    intro s k x h
    simp only [Regex.run] at h
    split at h
    · next r hr =>
      cases h
      obtain ⟨s1, h1, hs1, _⟩ := iha _ _ _ hr
      exact ⟨s1, h1, hs1, by simp only [Regex.minLen]; exact hs1.length_le⟩
    · exact ⟨s, h, List.suffix_refl _, Nat.le_refl _⟩
  | star a iha =>
    intro s k x h
    simp only [Regex.run] at h
    obtain ⟨s1, h1, hs1⟩ := starLoop_progress _
      (fun s k x hx => by
        obtain ⟨s1, h1, hs1, _⟩ := iha s k x hx
        exact ⟨s1, h1, hs1⟩) _ _ _ _ h
    exact ⟨s1, h1, hs1, by simp only [Regex.minLen]; exact hs1.length_le⟩
  | plus a iha =>
    intro s k x h
    simp only [Regex.run] at h
    obtain ⟨s1, h1, hs1, hl1⟩ := iha _ _ _ h
    obtain ⟨s2, h2, hs2⟩ := starLoop_progress _
      (fun s k x hx => by
        obtain ⟨s1, h1, hs1, _⟩ := iha s k x hx
        exact ⟨s1, h1, hs1⟩) _ _ _ _ h1
    exact ⟨s2, h2, hs2.trans hs1, by
      simp only [Regex.minLen]
      have := hs2.length_le
      omega⟩
  | eol =>
    intro s k x h
    simp only [Regex.run] at h
    split at h
    · exact ⟨s, h, List.suffix_refl _, Nat.le_refl _⟩
    · cases h

theorem take_of_suffix {α : Type} (s rest : List α) (h : rest <:+ s) :
    s.take (s.length - rest.length) ++ rest = s := by
  obtain ⟨pre, rfl⟩ := h
  simp

/-- A match found by `regex_search` lies inside the text and leaves a shorter text. -/
theorem regex_search_some (re : Regex) :
    ∀ (s token suffix : Str), regex_search re s = some (token, suffix) →
      (∃ pre, s = pre ++ token ++ suffix) ∧ suffix.length + re.minLen ≤ s.length := by
  intro s
  induction s with
  | nil =>
    intro token suffix h
    simp only [regex_search] at h
    split at h
    · next rest hr =>
      cases h
      obtain ⟨s1, h1, hs1, hl1⟩ := Regex.run_progress re _ _ _ hr
      cases h1
      have : suffix = [] := List.eq_nil_of_suffix_nil hs1
      subst this
      exact ⟨⟨[], rfl⟩, hl1⟩
    · cases h
  | cons c t ih =>
    intro token suffix h
    simp only [regex_search] at h
    split at h
    · next rest hr =>
      cases h
      obtain ⟨s1, h1, hs1, hl1⟩ := Regex.run_progress re _ _ _ hr
      cases h1
      exact ⟨⟨[], by simpa using (take_of_suffix _ _ hs1).symm⟩, hl1⟩
    · obtain ⟨⟨pre, hpre⟩, hl⟩ := ih _ _ h
      refine ⟨⟨c :: pre, by rw [hpre]; simp⟩, ?_⟩
      simp only [List.length_cons]
      omega

theorem matches_in_fuel (re : Regex) (hre : 0 < re.minLen) :
    ∀ n m (s : Str), s.length ≤ n → s.length ≤ m → matches_in re n s = matches_in re m s := by
  intro n
  induction n with
  | zero =>
    intro m s hn hm
    have hs : s = [] := List.eq_nil_of_length_eq_zero (by omega)
    subst hs
    cases m with
    | zero => rfl
    | succ m =>
      simp only [matches_in]
      cases h : regex_search re [] with
      | none => rfl
      | some r =>
        obtain ⟨token, suffix⟩ := r
        have := (regex_search_some re _ _ _ h).2
        simp at this
        omega
  | succ n ih =>
    intro m s hn hm
    cases m with
    | zero =>
      have hs : s = [] := List.eq_nil_of_length_eq_zero (by omega)
      subst hs
      simp only [matches_in]
      cases h : regex_search re [] with
      | none => rfl
      | some r =>
        obtain ⟨token, suffix⟩ := r
        have := (regex_search_some re _ _ _ h).2
        simp at this
        omega
    | succ m =>
      simp only [matches_in]
      cases h : regex_search re s with
      | none => rfl
      | some r =>
        obtain ⟨token, suffix⟩ := r
        have := (regex_search_some re _ _ _ h).2
        simp only
        rw [ih m suffix (by omega) (by omega)]

theorem tokens_of_none (re : Regex) (s : Str) (h : regex_search re s = none) :
    tokens_of re s = [] := by
  unfold tokens_of
  cases hs : s.length with
  | zero => rfl
  | succ n => simp only [matches_in, h]

theorem tokens_of_some (re : Regex) (hre : 0 < re.minLen) (s token suffix : Str)
    (h : regex_search re s = some (token, suffix)) :
    tokens_of re s = token :: tokens_of re suffix := by
  unfold tokens_of
  have hl := (regex_search_some re _ _ _ h).2
  cases hs : s.length with
  | zero => omega
  | succ n =>
    simp only [matches_in, h]
    rw [matches_in_fuel re hre n suffix.length suffix (by omega) (Nat.le_refl _)]

/-- `Tokenizer::next` delivers the first of the remaining tokens and leaves the others;
it fails exactly when no token remains. -/
theorem Tokenizer.next_spec (tk : Tokenizer) (hre : 0 < tk.re.minLen) :
    ∀ (fi : IFStream),
      match tk.next fi with
      | (none, _, _) => stream_tokens tk fi = []
      | (some token, tk1, fi1) => stream_tokens tk fi = token :: stream_tokens tk1 fi1 := by
  intro fi
  induction fi generalizing tk with
  | nil =>
    unfold Tokenizer.next
    cases h : regex_search tk.re tk.line with
    | none => simp [stream_tokens, tokens_of_none _ _ h]
    | some r =>
      obtain ⟨token, suffix⟩ := r
      simp [stream_tokens, tokens_of_some _ hre _ _ _ h]
  | cons l ls ih =>
    unfold Tokenizer.next
    cases h : regex_search tk.re tk.line with
    | none =>
      simp only
      have := ih { tk with line := l } hre
      have e : stream_tokens tk (l :: ls) = stream_tokens { tk with line := l } ls := by
        simp [stream_tokens, tokens_of_none _ _ h]
      rw [e]
      exact this
    | some r =>
      obtain ⟨token, suffix⟩ := r
      simp [stream_tokens, tokens_of_some _ hre _ _ _ h]

/-! ### Rounds of the BODY loop -/

theorem body_loop_fuel {F : Type} (ops : FloatOps F) (negative_psi : Bool) :
    ∀ n m (st : Reader F), st.fi.length < n → st.fi.length < m →
      body_loop ops negative_psi n st = body_loop ops negative_psi m st := by
  intro n
  induction n with
  | zero => intro m st hn; omega
  | succ n ih =>
    intro m st hn hm
    cases m with
    | zero => omega
    | succ m =>
      simp only [body_loop]
      cases hfi : st.fi with
      | nil => rfl
      | cons line rest =>
        simp only
        cases hs : body_step ops negative_psi line { st with fi := rest } with
        | error e => rfl
        | ok st1 =>
          simp only
          have hl := (body_step_follows _ _ _ _ _ hs).2.2.1.length_le
          rw [hfi] at hn hm
          simp only [List.length_cons] at hn hm hl
          exact ih m st1 (by omega) (by omega)

theorem body_loop_of_reaches {F : Type} (ops : FloatOps F) (negative_psi : Bool)
    (st st1 : Reader F) (hr : Reaches ops negative_psi st st1) :
    ∀ n, st.fi.length < n →
      body_loop ops negative_psi n st = body_loop ops negative_psi (st1.fi.length + 1) st1 := by
  induction hr with
  | start st => intro n hn; exact body_loop_fuel ops negative_psi _ _ _ hn (Nat.lt_succ_self _)
  | round st st1 st2 line rest hfi hstep _ ih =>
    intro n hn
    cases n with
    | zero => omega
    | succ n =>
      simp only [body_loop, hfi, hstep]
      have hl := (body_step_follows _ _ _ _ _ hstep).2.2.1.length_le
      rw [hfi] at hn
      simp only [List.length_cons] at hn hl
      exact ih n (by omega)

theorem reaches_follows {F : Type} (ops : FloatOps F) (negative_psi : Bool)
    (st st1 : Reader F) (hr : Reaches ops negative_psi st st1) : Follows st st1 := by
  induction hr with
  | start st => exact Follows.refl st
  | round st st1 st2 line rest hfi hstep _ ih =>
    have h1 := body_step_follows _ _ _ _ _ hstep
    refine Follows.trans _ _ _ ⟨h1.1, h1.2.1, ?_, h1.2.2.2⟩ ih
    rw [hfi]
    exact h1.2.2.1.trans (List.suffix_cons _ _)

/-- The result of a call in terms of a state that its BODY loop reaches. -/
theorem read_of_reached {F : Type} (ops : FloatOps F) (negative_psi : Bool) (content : Str)
    (ids : List Str) (st : Reader F) (hr : ReachedBy ops negative_psi content ids st) :
    st.tk.re = number_re ∧
    read_input_gacode ops (some content) ids negative_psi =
      match body_loop ops negative_psi (st.fi.length + 1) st with
      | .ok st1 => .returned st1.plasma st1.species_identifiers []
      | .error (.fail f, ids1) => .returned sentinel ids1 [.invalid_line f]
      | .error (.thrown, ids1) => .thrown ids1 []
      | .error (.rounds, _) => .hang := by
  obtain ⟨hd, hh, h1, h2, hreach⟩ := hr
  constructor
  · rw [(reaches_follows _ _ _ _ hreach).2.1]
    exact (header_loop_ok _ _ _ hh).1
  · have hc : ¬(hd.nexp = -1 ∨ hd.nion = -1) := fun h => h.elim h1 h2
    simp only [read_input_gacode, read_stream, hh, if_neg hc]
    rw [body_loop_of_reaches ops negative_psi _ _ hreach (hd.fi.length + 1)
      (Nat.lt_succ_self _)]

/-! ### C7: a `z` directive without enough tokens -/

theorem fill_loop_short {F : Type} (ops : FloatOps F) (f : Field)
    (store : Nat → Plasma F → F → Plasma F) :
    ∀ k i (st : Reader F), 0 < st.tk.re.minLen →
      (stream_tokens st.tk st.fi).length < k →
      (∀ t ∈ stream_tokens st.tk st.fi, (ops.stod t).isSome) →
      forLoop (fun i s => read_float ops f (store i) s) k i st = .error (.fail f) := by
  intro k
  induction k with
  | zero => intro i st _ h; omega
  | succ k ih =>
    intro i st hre hlen hstod
    have spec := Tokenizer.next_spec st.tk hre st.fi
    have hre1 := Tokenizer.next_re st.tk st.fi
    simp only [forLoop, read_float]
    cases hn : st.tk.next st.fi with
    | mk r rest =>
      obtain ⟨tk1, fi1⟩ := rest
      rw [hn] at spec hre1
      cases r with
      | none => rfl
      | some t =>
        simp only at spec hre1
        have ht : (ops.stod t).isSome := hstod t (by rw [spec]; exact List.mem_cons_self _ _)
        obtain ⟨v, hv⟩ := Option.isSome_iff_exists.mp ht
        simp only [hv]
        apply ih
        · simp only; rw [hre1]; exact hre
        · simp only
          rw [spec] at hlen
          simp only [List.length_cons] at hlen
          omega
        · intro t1 ht1
          exact hstod t1 (by rw [spec]; exact List.mem_cons_of_mem _ ht1)

theorem body_step_selects_z {F : Type} (ops : FloatOps F) (negative_psi : Bool) (line : Str)
    (st : Reader F) (hz : selects_z line = true) :
    body_step ops negative_psi line st
      = fill_species ops .z (fun i p v => { p with z := p.z.set i (some v) }) st := by
  simp only [selects_z, Bool.and_eq_true, Bool.not_eq_true'] at hz
  obtain ⟨⟨⟨⟨h1, h2⟩, h3⟩, h4⟩, h5⟩ := hz
  simp only [body_step, h1, h2, h3, h4, h5, Bool.false_eq_true, if_false, if_true]

/-- C7, counterexample: the `z` directive is followed by one token where `nion = 2`;
the call writes the diagnostic for `z` and returns (the sentinel container): the process
is not terminated. -/
theorem z_shortage_returns :
    read_input_gacode decimalOps (some "# nion\n2\n# nexp\n1\n# z\n1\n".toList) [] true
      = .returned sentinel [] [.invalid_line .z] := by
  decide

/-- C7, amended: when the BODY loop, with `nion = M`, reads a line that selects the `z`
handler and fewer than `M` numeric tokens remain (in the rest of the tokenizer's line
and in the lines after the directive line), all of them converted by `std::stod`, the
call writes the diagnostic naming `z` and returns the sentinel container, with the
species names read so far; the populated container is not returned and the process is
not terminated. -/
theorem z_shortage_returns_sentinel {F : Type} (ops : FloatOps F) (negative_psi : Bool)
    (content : Str) (ids : List Str) (st : Reader F) (line : Str) (rest : IFStream)
    (hr : ReachedBy ops negative_psi content ids st)
    (hfi : st.fi = line :: rest) (hz : selects_z line = true)
    (hshort : (stream_tokens st.tk rest).length < st.plasma.nion)
    (hstod : ∀ t ∈ stream_tokens st.tk rest, (ops.stod t).isSome) :
    read_input_gacode ops (some content) ids negative_psi
      = .returned sentinel st.species_identifiers [.invalid_line .z] := by
  obtain ⟨hre, hread⟩ := read_of_reached ops negative_psi content ids st hr
  rw [hread]
  have hstep : body_step ops negative_psi line { st with fi := rest } = .error (.fail .z) := by
    rw [body_step_selects_z ops negative_psi line _ hz]
    exact fill_loop_short ops .z _ _ _ _ (by simp only; rw [hre]; decide) hshort hstod
  simp only [body_loop, hfi, hstep]

/-- C7, amended, at an input with `nion = 3` whose `z` directive is followed by two
tokens. -/
theorem z_shortage_returns_sentinel_witness :
    ReachedBy decimalOps true "# nexp\n1\n# nion\n3\n# z\n1 6\n".toList []
      (body_start ⟨-1, 1, 3, ⟨number_re, []⟩, ["# z".toList, "1 6".toList, []]⟩ []) ∧
    selects_z "# z".toList = true ∧
    (stream_tokens { re := number_re, line := [] } ["1 6".toList, []]).length < 3 ∧
    read_input_gacode decimalOps (some "# nexp\n1\n# nion\n3\n# z\n1 6\n".toList) [] true
      = .returned sentinel [] [.invalid_line .z] :=
  have hr : ReachedBy decimalOps true "# nexp\n1\n# nion\n3\n# z\n1 6\n".toList []
      (body_start ⟨-1, 1, 3, ⟨number_re, []⟩, ["# z".toList, "1 6".toList, []]⟩ []) :=
    ⟨_, by rfl, by decide, by decide, Reaches.start _⟩
  ⟨hr, by decide, by decide,
    z_shortage_returns_sentinel decimalOps true "# nexp\n1\n# nion\n3\n# z\n1 6\n".toList []
      (body_start ⟨-1, 1, 3, ⟨number_re, []⟩, ["# z".toList, "1 6".toList, []]⟩ [])
      "# z".toList ["1 6".toList, []] hr rfl (by decide) (by decide) (by decide)⟩

/-! ### Greedy iteration over a character class -/

theorem starLoop_cls {α : Type} (c : CharClass) (k : Str → Option α) (x : Str)
    (hx : ∀ y t, x = y :: t → c.test y = false) :
    ∀ (ds : Str) (n : Nat), (∀ d ∈ ds, c.test d = true) → ds.length ≤ n →
      starLoop (fun s1 k1 => (Regex.cls c).run s1 k1) n (ds ++ x) k = backoff k ds x := by
  intro ds
  induction ds with
  | nil =>
    intro n _ _
    cases n with
    | zero => rfl
    | succ n =>
      simp only [starLoop, List.nil_append, backoff]
      cases x with
      | nil => rfl
      | cons y t => simp only [Regex.run, hx y t rfl, Bool.false_eq_true, if_false]
  | cons d ds ih =>
    intro n hds hn
    cases n with
    | zero => simp at hn
    | succ n =>
      have hd : c.test d = true := hds d (List.mem_cons_self _ _)
      have hrec := ih n (fun e he => hds e (List.mem_cons_of_mem _ he))
        (by simpa using hn)
      simp only [Regex.run] at hrec
      simp only [starLoop, List.cons_append, Regex.run, hd, if_true, List.length_cons,
        Nat.lt_succ_self, hrec, backoff]

theorem star_cls_run {α : Type} (c : CharClass) (k : Str → Option α) (ds x : Str)
    (hds : ∀ d ∈ ds, c.test d = true) (hx : ∀ y t, x = y :: t → c.test y = false) :
    (Regex.star (.cls c)).run (ds ++ x) k = backoff k ds x := by
  simp only [Regex.run]
  exact starLoop_cls c k x hx ds _ hds (by simp)

theorem plus_cls_run {α : Type} (c : CharClass) (k : Str → Option α) (d : Char) (ds x : Str)
    (hd : c.test d = true)
    (hds : ∀ e ∈ ds, c.test e = true) (hx : ∀ y t, x = y :: t → c.test y = false) :
    (Regex.plus (.cls c)).run (d :: (ds ++ x)) k = backoff k ds x := by
  simp only [Regex.run, hd, if_true]
  exact starLoop_cls c k x hx ds _ hds (by simp)

theorem plus_cls_run_none {α : Type} (c : CharClass) (k : Str → Option α) (x : Str)
    (hx : ∀ y t, x = y :: t → c.test y = false) :
    (Regex.plus (.cls c)).run x k = none := by
  cases x with
  | nil => rfl
  | cons y t => simp only [Regex.run, hx y t rfl, Bool.false_eq_true, if_false]

theorem backoff_first {α : Type} (k : Str → Option α) (x : Str) (r : α) (hk : k x = some r) :
    ∀ ds, backoff k ds x = some r := by
  intro ds
  induction ds with
  | nil => exact hk
  | cons d ds ih => simp only [backoff, ih]

theorem backoff_last {α : Type} (k : Str → Option α) (x : Str) (r : α) (hk : k x = none)
    (p : Char → Prop) (hk1 : ∀ d, p d → k (d :: x) = some r) :
    ∀ ds, ds ≠ [] → (∀ d ∈ ds, p d) → backoff k ds x = some r := by
  intro ds
  induction ds with
  | nil => intro h; exact absurd rfl h
  | cons d ds ih =>
    intro _ hp
    cases ds with
    | nil =>
      simp only [backoff, hk, List.nil_append]
      exact hk1 d (hp d (List.mem_cons_self _ _))
    | cons e es =>
      have := ih (by simp) (fun a ha => hp a (List.mem_cons_of_mem _ ha))
      simp only [backoff] at this ⊢
      simp only [this]

/-! ### The pattern of numbers on a numeral -/

theorem number_run_eq {α : Type} (s : Str) (k : Str → Option α) :
    number_re.run s k = (Regex.opt (.cls (.set ['+', '-']))).run s (numK1 k) := rfl

theorem run_opt_eq {α : Type} (a : Regex) (s : Str) (k : Str → Option α) :
    (Regex.opt a).run s k = match a.run s k with
      | some r => some r
      | none => k s := rfl

theorem run_seq_eq {α : Type} (a b : Regex) (s : Str) (k : Str → Option α) :
    (Regex.seq a b).run s k = a.run s (fun s1 => b.run s1 k) := rfl

theorem run_cls_cons {α : Type} (c : CharClass) (x : Char) (t : Str) (k : Str → Option α) :
    (Regex.cls c).run (x :: t) k = if c.test x = true then k t else none := rfl

theorem run_cls_nil {α : Type} (c : CharClass) (k : Str → Option α) :
    (Regex.cls c).run [] k = none := rfl

theorem run_cls_out {α : Type} (c : CharClass) (y : Str) (k : Str → Option α)
    (h : StartsOut c y) : (Regex.cls c).run y k = none := by
  cases y with
  | nil => rfl
  | cons a t => rw [run_cls_cons, h a t rfl]; rfl

theorem space_chars (c : Char) (h : isspace c = true) :
    isdigit c = false ∧ c ≠ '+' ∧ c ≠ '-' ∧ c ≠ '.' ∧ c ≠ 'E' ∧ c ≠ 'e' := by
  refine ⟨?_, ?_, ?_, ?_, ?_, ?_⟩
  · simp only [isspace, isdigit, Bool.or_eq_true, Bool.and_eq_true, decide_eq_true_eq] at h ⊢
    simp only [Bool.and_eq_false_imp, decide_eq_true_eq, decide_eq_false_iff_not]
    omega
  all_goals
    intro e
    subst e
    exact absurd h (by decide)

theorem digit_chars (c : Char) (h : isdigit c = true) :
    isspace c = false ∧ c ≠ '+' ∧ c ≠ '-' ∧ c ≠ '.' ∧ c ≠ 'E' ∧ c ≠ 'e' := by
  refine ⟨?_, ?_, ?_, ?_, ?_, ?_⟩
  · simp only [isspace, isdigit, Bool.or_eq_true, Bool.and_eq_true, decide_eq_true_eq] at h ⊢
    simp only [Bool.or_eq_false_iff, Bool.and_eq_false_imp, decide_eq_true_eq,
      decide_eq_false_iff_not]
    omega
  all_goals
    intro e
    subst e
    exact absurd h (by decide)

theorem set_test_eq (cs : List Char) (c : Char) :
    (CharClass.set cs).test c = true ↔ c ∈ cs := by
  simp [CharClass.test]

theorem sep_startsOut (x : Str) (hx : Sep x) :
    StartsOut .digit x ∧ StartsOut (.set ['+', '-']) x ∧ StartsOut (.set ['.']) x ∧
      StartsOut (.set ['E', 'e']) x := by
  rcases hx with rfl | ⟨c, t, rfl, hc⟩
  · refine ⟨?_, ?_, ?_, ?_⟩ <;> intro a t h <;> cases h
  · obtain ⟨h1, h2, h3, h4, h5, h6⟩ := space_chars c hc
    refine ⟨?_, ?_, ?_, ?_⟩ <;> intro a t h <;> cases h
    · exact h1
    · simp [CharClass.test, h2, h3]
    · simp [CharClass.test, h4]
    · simp [CharClass.test, h5, h6]

theorem isSign_cases (s : Str) (h : isSign s = true) : s = [] ∨ s = ['+'] ∨ s = ['-'] := by
  simpa [isSign, or_assoc] using h

theorem isDigits_cases (d : Str) (h : isDigits d = true) :
    ∃ d0 ds, d = d0 :: ds ∧ isdigit d0 = true ∧ ∀ e ∈ ds, isdigit e = true := by
  cases d with
  | nil => simp [isDigits] at h
  | cons d0 ds =>
    simp only [isDigits, List.isEmpty_cons, Bool.not_false, Bool.true_and, List.all_cons,
      Bool.and_eq_true, List.all_eq_true] at h
    exact ⟨d0, ds, rfl, h.1, h.2⟩

theorem startsOut_digit_cons (c : CharClass) (d : Char) (y : Str) (h : c.test d = false) :
    StartsOut c (d :: y) := by
  intro a t e
  cases e
  exact h

theorem numK4_out {α : Type} (k : Str → Option α) (y : Str)
    (h : StartsOut (.set ['E', 'e']) y) : numK4 k y = k y := by
  unfold numK4
  rw [run_opt_eq, run_seq_eq, run_cls_out _ _ _ h]

theorem numK4_exp {α : Type} (k : Str → Option α) (c : Char) (s d x : Str) (r : α)
    (hc : c = 'e' ∨ c = 'E') (hs : isSign s = true) (hd : isDigits d = true)
    (hx : StartsOut .digit x) (hk : k x = some r) :
    numK4 k (c :: (s ++ (d ++ x))) = some r := by
  obtain ⟨d0, ds, rfl, hd0, hds⟩ := isDigits_cases d hd
  have hc1 : (CharClass.set ['E', 'e']).test c = true := by
    rcases hc with rfl | rfl <;> decide
  have hplus : (Regex.plus (.cls .digit)).run (d0 :: (ds ++ x)) k = some r := by
    rw [plus_cls_run .digit k d0 ds x hd0 hds hx]
    exact backoff_first k x r hk ds
  unfold numK4
  rw [run_opt_eq, run_seq_eq, run_cls_cons, if_pos hc1, run_seq_eq, run_opt_eq]
  rcases isSign_cases s hs with rfl | rfl | rfl
  · have hout : StartsOut (.set ['+', '-']) (d0 :: (ds ++ x)) := by
      obtain ⟨_, h2, h3, _⟩ := digit_chars d0 hd0
      exact startsOut_digit_cons _ d0 _ (by simp [CharClass.test, h2, h3])
    simp only [List.nil_append, List.cons_append]
    rw [run_cls_out _ _ _ hout]
    simp only [hplus]
  · simp only [List.cons_append, List.nil_append]
    rw [run_cls_cons, if_pos (by decide)]
    simp only [hplus]
  · simp only [List.cons_append, List.nil_append]
    rw [run_cls_cons, if_pos (by decide)]
    simp only [hplus]

theorem expText_spec {α : Type} (t : Numeral) (hwf : t.wf = true) (x : Str) (hx : Ends x)
    (k : Str → Option α) (r : α) (hk : k x = some r) :
    numK4 k (t.expText ++ x) = some r ∧ StartsOut .digit (t.expText ++ x) ∧
      StartsOut (.set ['.']) (t.expText ++ x) := by
  obtain ⟨s1, s2, s3, s4⟩ := hx
  unfold Numeral.wf at hwf
  unfold Numeral.expText
  cases he : t.exp with
  | none =>
    simp only [List.nil_append]
    exact ⟨by rw [numK4_out k x s4]; exact hk, s1, s3⟩
  | some e =>
    obtain ⟨c, s, d⟩ := e
    rw [he] at hwf
    simp only [Bool.and_eq_true, Bool.or_eq_true, beq_iff_eq] at hwf
    obtain ⟨_, ⟨hc, hs⟩, hd⟩ := hwf
    refine ⟨?_, ?_, ?_⟩
    · simp only [List.cons_append, List.append_assoc]
      exact numK4_exp k c s d x r hc hs hd s1 hk
    · intro a u h
      simp only [List.cons_append] at h
      cases h
      rcases hc with rfl | rfl <;> decide
    · intro a u h
      simp only [List.cons_append] at h
      cases h
      rcases hc with rfl | rfl <;> decide

theorem numK3_digits {α : Type} (k : Str → Option α) (d y : Str) (r : α)
    (hd : isDigits d = true) (hy : StartsOut .digit y) (hk : numK4 k y = some r) :
    numK3 k (d ++ y) = some r := by
  obtain ⟨d0, ds, rfl, hd0, hds⟩ := isDigits_cases d hd
  unfold numK3
  simp only [List.cons_append]
  rw [plus_cls_run .digit _ d0 ds y hd0 hds hy]
  exact backoff_first _ y r hk ds

theorem numK3_out {α : Type} (k : Str → Option α) (y : Str) (hy : StartsOut .digit y) :
    numK3 k y = none := by
  unfold numK3
  exact plus_cls_run_none .digit _ y hy

theorem numK2_dot {α : Type} (k : Str → Option α) (y : Str) (r : α)
    (hk : numK3 k y = some r) : numK2 k ('.' :: y) = some r := by
  unfold numK2
  rw [run_opt_eq, run_cls_cons, if_pos (by decide)]
  simp only [hk]

theorem numK2_out {α : Type} (k : Str → Option α) (y : Str) (hy : StartsOut (.set ['.']) y) :
    numK2 k y = numK3 k y := by
  unfold numK2
  rw [run_opt_eq, run_cls_out _ _ _ hy]

theorem all_digits_mem (ds : Str) (h : ds.all isdigit = true) : ∀ d ∈ ds, isdigit d = true := by
  simpa [List.all_eq_true] using h

theorem startsOut_dot_cons (y : Str) : StartsOut .digit ('.' :: y) := by
  intro a t h
  cases h
  decide

/-- On a well-formed numeral followed by a separator, the part of `number_re` after
the sign matches the whole numeral. -/
theorem numK1_body {α : Type} (t : Numeral) (hwf : t.wf = true) (x : Str) (hx : Ends x)
    (k : Str → Option α) (r : α) (hk : k x = some r) :
    numK1 k (t.int ++ (t.fracText ++ (t.expText ++ x))) = some r := by
  obtain ⟨h4, hdig, hdot⟩ := expText_spec t hwf x hx k r hk
  have hwf0 := hwf
  unfold Numeral.wf at hwf
  simp only [Bool.and_eq_true] at hwf
  obtain ⟨⟨⟨_, hint⟩, hfrac⟩, _⟩ := hwf
  have hint1 := all_digits_mem _ hint
  unfold numK1
  unfold Numeral.fracText
  cases hf : t.frac with
  | some f =>
    rw [hf] at hfrac
    simp only at hfrac
    simp only [List.cons_append]
    rw [star_cls_run .digit _ t.int _ hint1 (startsOut_dot_cons _)]
    exact backoff_first _ _ r (numK2_dot k _ r (numK3_digits k f _ r hfrac hdig h4)) _
  | none =>
    rw [hf] at hfrac
    simp only [Bool.not_eq_true', List.isEmpty_eq_false] at hfrac
    simp only [List.nil_append]
    rw [star_cls_run .digit _ t.int _ hint1 hdig]
    refine backoff_last _ _ r ?_ (fun d => isdigit d = true) ?_ _ ?_ hint1
    · rw [numK2_out k _ hdot]
      exact numK3_out k _ hdig
    · intro d hd
      have hd1 := digit_chars d hd
      rw [numK2_out k _ (startsOut_digit_cons _ d _ (by simp [CharClass.test, hd1.2.2.2.1]))]
      exact numK3_digits k [d] _ r (by simp [isDigits, hd]) hdig h4
    · intro e
      rw [e] at hfrac
      exact hfrac rfl

theorem numeral_body_startsOut (t : Numeral) (hwf : t.wf = true) (y : Str) :
    StartsOut (.set ['+', '-']) (t.int ++ (t.fracText ++ y)) ∧
      (t.int ++ (t.fracText ++ y)) ≠ [] := by
  unfold Numeral.wf at hwf
  simp only [Bool.and_eq_true] at hwf
  obtain ⟨⟨⟨_, hint⟩, hfrac⟩, _⟩ := hwf
  cases hi : t.int with
  | cons d ds =>
    rw [hi] at hint
    have hd : isdigit d = true := all_digits_mem _ hint d (List.mem_cons_self _ _)
    obtain ⟨_, h2, h3, _⟩ := digit_chars d hd
    exact ⟨startsOut_digit_cons _ d _ (by simp [CharClass.test, h2, h3]), by simp⟩
  | nil =>
    unfold Numeral.fracText
    cases hf : t.frac with
    | none => rw [hi, hf] at hfrac; simp at hfrac
    | some f =>
      exact ⟨startsOut_digit_cons _ '.' _ (by decide), by simp⟩

/-- The pattern of numbers, run on a well-formed numeral followed by a separator,
matches the whole numeral. -/
theorem number_run_numeral {α : Type} (t : Numeral) (hwf : t.wf = true) (x : Str) (hx : Ends x)
    (k : Str → Option α) (r : α) (hk : k x = some r) :
    number_re.run (t.text ++ x) k = some r := by
  have hbody := numK1_body t hwf x hx k r hk
  have hout := (numeral_body_startsOut t hwf (t.expText ++ x)).1
  have hs : isSign t.sign = true := by
    unfold Numeral.wf at hwf
    simp only [Bool.and_eq_true] at hwf
    exact hwf.1.1.1
  rw [number_run_eq, run_opt_eq]
  unfold Numeral.text
  simp only [List.append_assoc]
  rcases isSign_cases _ hs with h | h | h <;> rw [h]
  · simp only [List.nil_append]
    rw [run_cls_out _ _ _ hout]
    exact hbody
  · simp only [List.cons_append, List.nil_append]
    rw [run_cls_cons, if_pos (by decide)]
    simp only [hbody]
  · simp only [List.cons_append, List.nil_append]
    rw [run_cls_cons, if_pos (by decide)]
    simp only [hbody]

theorem numeral_text_ne_nil (t : Numeral) (hwf : t.wf = true) : t.text ≠ [] := by
  have h := (numeral_body_startsOut t hwf t.expText).2
  unfold Numeral.text
  intro e
  rw [List.append_eq_nil] at e
  exact h e.2

/-- `regex_search` finds a well-formed numeral at the start of a text when a separator
follows it. -/
theorem search_numeral (t : Numeral) (hwf : t.wf = true) (x : Str) (hx : Ends x) :
    regex_search number_re (t.text ++ x) = some (t.text, x) := by
  have hrun := number_run_numeral t hwf x hx some x rfl
  cases ht : t.text with
  | nil => exact absurd ht (numeral_text_ne_nil t hwf)
  | cons c u =>
    rw [ht] at hrun
    simp only [List.cons_append] at hrun ⊢
    simp only [regex_search, hrun]
    have : ((c :: (u ++ x)).length - x.length) = (c :: u).length := by
      simp only [List.length_cons, List.length_append]
      omega
    rw [this]
    have e : c :: (u ++ x) = (c :: u) ++ x := rfl
    rw [e, List.take_left']
    rfl

theorem number_run_space {α : Type} (c : Char) (s : Str) (hc : isspace c = true)
    (k : Str → Option α) : number_re.run (c :: s) k = none := by
  obtain ⟨s1, s2, s3, _⟩ := sep_startsOut (c :: s) (Or.inr ⟨c, s, rfl, hc⟩)
  rw [number_run_eq, run_opt_eq, run_cls_out _ _ _ s2]
  simp only [numK1]
  have := star_cls_run .digit (numK2 k) [] (c :: s) (by simp) s1
  simp only [List.nil_append] at this
  rw [this]
  simp only [backoff]
  rw [numK2_out k _ s3]
  exact numK3_out k _ s1

theorem search_space (c : Char) (s : Str) (hc : isspace c = true) :
    regex_search number_re (c :: s) = regex_search number_re s := by
  simp only [regex_search, number_run_space c s hc]

theorem tailText_cons (t : Str) (ts : List Str) :
    tailText (t :: ts) = ' ' :: (t ++ tailText ts) := by
  simp [tailText]

theorem spaced_cons (t : Str) (ts : List Str) : spaced (t :: ts) = t ++ tailText ts := by
  simp [spaced, tailText]

/-! ### Handlers on the tokens they are delivered -/

theorem read_floats_delivered {F : Type} (ops : FloatOps F) (f : Field)
    (store : Nat → Plasma F → F → Plasma F) :
    ∀ (ts : List Str) (vs : List F) (i : Nat) (st : Reader F) (tk2 : Tokenizer)
      (fi2 : IFStream), Delivers st.tk st.fi ts tk2 fi2 → Converts ops ts vs →
      forLoop (fun i s => read_float ops f (store i) s) ts.length i st
        = .ok { st with plasma := storeAll store i vs st.plasma, tk := tk2, fi := fi2 } := by
  intro ts
  induction ts with
  | nil =>
    intro vs i st tk2 fi2 hd hc
    cases hc
    cases hd
    rfl
  | cons t ts ih =>
    intro vs i st tk2 fi2 hd hc
    cases hc with
    | cons hv hrest =>
      cases hd with
      | step _ _ _ tk1 fi1 _ _ _ hnext hdel =>
        simp only [List.length_cons, forLoop, read_float, hnext, hv]
        exact ih _ (i + 1) { st with plasma := _, tk := tk1, fi := fi1 } tk2 fi2 hdel hrest

theorem read_pairs_delivered {F : Type} (ops : FloatOps F) (f : Field)
    (store : Nat → Plasma F → F → Plasma F) :
    ∀ (ps : List (Str × Str)) (vs : List F) (i : Nat) (st : Reader F) (tk2 : Tokenizer)
      (fi2 : IFStream),
      Delivers st.tk st.fi (ps.map (fun q => [q.1, q.2])).flatten tk2 fi2 →
      Converts ops (ps.map Prod.snd) vs →
      forLoop (fun i s => read_pair ops f (store i) s) ps.length i st
        = .ok { st with plasma := storeAll store i vs st.plasma, tk := tk2, fi := fi2 } := by
  intro ps
  induction ps with
  | nil =>
    intro vs i st tk2 fi2 hd hc
    cases hc
    cases hd
    rfl
  | cons q ps ih =>
    intro vs i st tk2 fi2 hd hc
    simp only [List.map_cons, List.flatten_cons, List.cons_append, List.nil_append] at hd
    cases hc with
    | cons hv hrest =>
      cases hd with
      | step _ _ _ tk1 fi1 _ _ _ hnext hdel =>
        cases hdel with
        | step _ _ _ tk3 fi3 _ _ _ hnext2 hdel2 =>
          simp only [List.length_cons, forLoop, read_pair, next2, hnext, hnext2, hv]
          exact ih _ (i + 1) { st with plasma := _, tk := tk3, fi := fi3 } tk2 fi2 hdel2 hrest

theorem writeFrom_append {F : Type} (vs : List F) :
    ∀ (pre : List (Option F)),
      writeFrom (pre ++ List.replicate vs.length none) pre.length vs = pre ++ vs.map some := by
  induction vs with
  | nil => intro pre; simp [writeFrom]
  | cons v vs ih =>
    intro pre
    have h := ih (pre ++ [some v])
    simp only [List.length_append, List.length_singleton, List.append_assoc,
      List.singleton_append] at h
    simp only [writeFrom, List.length_cons, List.replicate_succ, List.map_cons]
    rw [← h]
    congr 1
    simp [List.set_append]

theorem writeFrom_replicate {F : Type} (vs : List F) :
    writeFrom (List.replicate vs.length none) 0 vs = vs.map some := by
  simpa using writeFrom_append vs []

theorem storeAll_z {F : Type} (vs : List F) :
    ∀ (i : Nat) (p : Plasma F),
      storeAll (fun i p v => { p with z := p.z.set i (some v) }) i vs p
        = { p with z := writeFrom p.z i vs } := by
  induction vs with
  | nil => intro i p; rfl
  | cons v vs ih => intro i p; simp only [storeAll, ih, writeFrom]

theorem storeAll_ne {F : Type} (vs : List F) :
    ∀ (i : Nat) (p : Plasma F),
      storeAll (fun i p v => { p with ne := p.ne.set i (some v) }) i vs p
        = { p with ne := writeFrom p.ne i vs } := by
  induction vs with
  | nil => intro i p; rfl
  | cons v vs ih => intro i p; simp only [storeAll, ih, writeFrom]

/-! ### Rounds that follow one another -/

theorem next_single (t : Numeral) (hwf : t.wf = true) (fi : IFStream) :
    Tokenizer.next { re := number_re, line := [] } (t.text :: fi)
      = (some t.text, { re := number_re, line := [] }, fi) := by
  have hs := search_numeral t hwf [] (sep_startsOut _ (Or.inl rfl))
  rw [List.append_nil] at hs
  have h0 : regex_search number_re [] = none := by decide
  simp only [Tokenizer.next, h0]
  cases fi with
  | nil => simp only [Tokenizer.next, hs]
  | cons l ls => simp only [Tokenizer.next, hs]

theorem natCast_ne_neg_one (n : Nat) : (n : Int) ≠ -1 := by omega

theorem reaches_trans {F : Type} (ops : FloatOps F) (negative_psi : Bool) (a b c : Reader F)
    (h1 : Reaches ops negative_psi a b) (h2 : Reaches ops negative_psi b c) :
    Reaches ops negative_psi a c := by
  induction h1 with
  | start st => exact h2
  | round st st1 st2 line rest hfi hstep _ ih =>
    exact Reaches.round st st1 c line rest hfi hstep (ih h2)

theorem reaches_one {F : Type} (ops : FloatOps F) (negative_psi : Bool) (st st1 : Reader F)
    (line : Str) (rest : IFStream) (hfi : st.fi = line :: rest)
    (hstep : body_step ops negative_psi line { st with fi := rest } = .ok st1) :
    Reaches ops negative_psi st st1 :=
  Reaches.round st st1 st1 line rest hfi hstep (Reaches.start st1)

/-! ### C1: a declaration that does not fit the `int` -/

theorem getlines_append (l : Str) (hl : '\n' ∉ l) (rest acc : Str) :
    getlines (l ++ '\n' :: rest) acc = (acc.reverse ++ l) :: getlines rest [] := by
  induction l generalizing acc with
  | nil => simp [getlines]
  | cons c l ih =>
    have hc : c ≠ '\n' := fun e => hl (by simp [e])
    have hl1 : '\n' ∉ l := fun h => hl (List.mem_cons_of_mem _ h)
    show getlines (c :: (l ++ '\n' :: rest)) acc = _
    rw [getlines, if_neg hc, ih hl1]
    simp

theorem getlines_unlines (ls : List Str) (h : ∀ l ∈ ls, '\n' ∉ l) :
    getlines (unlines ls) [] = ls ++ [[]] := by
  induction ls with
  | nil => rfl
  | cons l ls ih =>
    simp only [unlines]
    rw [getlines_append l (h l (List.mem_cons_self _ _)),
      ih (fun a ha => h a (List.mem_cons_of_mem _ ha))]
    simp

theorem mem_tailText (ts : List Str) (c : Char) (h : c ∈ tailText ts) :
    c = ' ' ∨ ∃ t ∈ ts, c ∈ t := by
  induction ts with
  | nil => simp [tailText] at h
  | cons t ts ih =>
    rw [tailText_cons] at h
    simp only [List.mem_cons, List.mem_append] at h
    rcases h with h | h | h
    · exact Or.inl h
    · exact Or.inr ⟨t, List.mem_cons_self _ _, h⟩
    · rcases ih h with h1 | ⟨u, hu, hc⟩
      · exact Or.inl h1
      · exact Or.inr ⟨u, List.mem_cons_of_mem _ hu, hc⟩

theorem mem_spaced (ts : List Str) (c : Char) (h : c ∈ spaced ts) :
    c = ' ' ∨ ∃ t ∈ ts, c ∈ t :=
  mem_tailText ts c (List.mem_of_mem_drop h)

theorem header_skip (n : Nat) (h : Header) (line : Str) (rest : IFStream)
    (hfi : h.fi = line :: rest) (hc : h.nexp = -1 ∨ h.nion = -1)
    (h1 : regex_match line re_shot = false) (h2 : regex_match line re_nion = false)
    (h3 : regex_match line re_nexp = false) :
    header_loop (n + 1) h = header_loop n { h with fi := rest } := by
  simp only [header_loop, hc, if_true, hfi, h1, h2, h3, Bool.false_eq_true, if_false]

theorem no_hash_no_size (c : Char) (s : Str) (hc : c ≠ '#') :
    regex_match (c :: s) re_shot = false ∧ regex_match (c :: s) re_nion = false ∧
      regex_match (c :: s) re_nexp = false := by
  have ht : (CharClass.chr '#').test c = false := by simp [CharClass.test, hc]
  refine ⟨?_, ?_, ?_⟩ <;>
    simp only [regex_match, re_shot, re_nion, re_nexp, Regex.cat, run_seq_eq, run_cls_cons, ht,
      Bool.false_eq_true, if_false, Option.isSome_none]

theorem header_round_nion (n : Nat) (h : Header) (line : Str) (t : Numeral) (v : Nat)
    (rest : IFStream) (hfi : h.fi = line :: t.text :: rest)
    (htk : h.tk = { re := number_re, line := [] }) (hc : h.nexp = -1 ∨ h.nion = -1)
    (h1 : regex_match line re_shot = false) (h2 : regex_match line re_nion = true)
    (hwf : t.wf = true) (hv : stoul t.text = some v) :
    header_loop (n + 1) h
      = header_loop n { h with nion := toInt32 v, tk := { re := number_re, line := [] },
                               fi := rest } := by
  simp only [header_loop, hc, if_true, hfi, h1, h2, Bool.false_eq_true, if_false, htk,
    next_single t hwf, hv]

theorem header_round_nexp (n : Nat) (h : Header) (line : Str) (t : Numeral) (v : Nat)
    (rest : IFStream) (hfi : h.fi = line :: t.text :: rest)
    (htk : h.tk = { re := number_re, line := [] }) (hc : h.nexp = -1 ∨ h.nion = -1)
    (h1 : regex_match line re_shot = false) (h2 : regex_match line re_nion = false)
    (h3 : regex_match line re_nexp = true)
    (hwf : t.wf = true) (hv : stoul t.text = some v) :
    header_loop (n + 1) h
      = header_loop n { h with nexp := toInt32 v, tk := { re := number_re, line := [] },
                               fi := rest } := by
  simp only [header_loop, hc, if_true, hfi, h1, h2, h3, Bool.false_eq_true, if_false, htk,
    next_single t hwf, hv]

theorem header_end (n : Nat) (h : Header) (hfi : h.fi = []) :
    header_loop (n + 1) h = .ok h := by
  simp only [header_loop, hfi]
  split <;> rfl

theorem exits_of_header {F : Type} (ops : FloatOps F) (content : Str) (ids : List Str)
    (negative_psi : Bool) (hd : Header)
    (hh : header_loop ((getlines content []).length + 1) (header_start (getlines content []))
      = .ok hd)
    (hmiss : hd.nexp = -1 ∨ hd.nion = -1) :
    read_input_gacode ops (some content) ids negative_psi = .exited (-1) (missing_diags hd) := by
  simp only [read_input_gacode, read_stream, hh, if_pos hmiss]

/-- An input that declares `nion = 4294967295` and `nexp = 0`, and gives the `name` line
with 4294967295 words, `masse`, the `z` line with 4294967295 numerals and the empty `ne`
body: the `int` local `nion` holds `-1`, the HEADER loop runs to the end of the stream and
the process exits. -/
theorem exit_on_oversized_nion :
    read_input_gacode decimalOps
        (some (unlines ["# nion".toList, "4294967295".toList, "# nexp".toList, "0".toList,
          "# name".toList, spaced (List.replicate 4294967295 "D".toList),
          "# masse".toList, "1".toList,
          "# z".toList, spaced (List.replicate 4294967295 "1".toList),
          "# ne".toList, []]))
        [] true
      = .exited (-1) [.no_specification .nion] := by
  have hrep : ∀ (w : Str), '\n' ∉ w → '\n' ∉ spaced (List.replicate 4294967295 w) := by
    intro w hw hmem
    rcases mem_spaced _ _ hmem with h | ⟨t, ht, hc⟩
    · exact absurd h (by decide)
    · rw [List.eq_of_mem_replicate ht] at hc
      exact hw hc
  have hlines := getlines_unlines ["# nion".toList, "4294967295".toList, "# nexp".toList,
      "0".toList, "# name".toList, spaced (List.replicate 4294967295 "D".toList),
      "# masse".toList, "1".toList, "# z".toList,
      spaced (List.replicate 4294967295 "1".toList), "# ne".toList, []] (by
    intro l hl
    simp only [List.mem_cons, List.mem_singleton, List.not_mem_nil, or_false] at hl
    rcases hl with h | h | h | h | h | h | h | h | h | h | h | h <;> rw [h]
    · decide
    · decide
    · decide
    · decide
    · decide
    · exact hrep "D".toList (by decide)
    · decide
    · decide
    · decide
    · exact hrep "1".toList (by decide)
    · decide
    · decide)
  have hD : spaced (List.replicate 4294967295 "D".toList)
      = 'D' :: tailText (List.replicate 4294967294 "D".toList) := by
    rw [show (4294967295 : Nat) = 4294967294 + 1 from rfl, List.replicate_succ, spaced_cons]
    rfl
  have h1 : spaced (List.replicate 4294967295 "1".toList)
      = '1' :: tailText (List.replicate 4294967294 "1".toList) := by
    rw [show (4294967295 : Nat) = 4294967294 + 1 from rfl, List.replicate_succ, spaced_cons]
    rfl
  have nD := no_hash_no_size 'D' (tailText (List.replicate 4294967294 "D".toList)) (by decide)
  have n1 := no_hash_no_size '1' (tailText (List.replicate 4294967294 "1".toList)) (by decide)
  rw [← hD] at nD
  rw [← h1] at n1
  have hh : header_loop ((getlines (unlines ["# nion".toList, "4294967295".toList,
      "# nexp".toList, "0".toList, "# name".toList,
      spaced (List.replicate 4294967295 "D".toList), "# masse".toList, "1".toList,
      "# z".toList, spaced (List.replicate 4294967295 "1".toList), "# ne".toList, []])
        []).length + 1)
      (header_start (getlines (unlines ["# nion".toList, "4294967295".toList,
      "# nexp".toList, "0".toList, "# name".toList,
      spaced (List.replicate 4294967295 "D".toList), "# masse".toList, "1".toList,
      "# z".toList, spaced (List.replicate 4294967295 "1".toList), "# ne".toList, []]) []))
      = .ok ⟨-1, 0, -1, ⟨number_re, []⟩, []⟩ := by
    rw [hlines]
    exact (header_round_nion 13 _ "# nion".toList ⟨[], "4294967295".toList, none, none⟩
        4294967295 _ rfl rfl (Or.inl rfl) (by decide) (by decide) (by decide) (by decide)).trans
      ((header_round_nexp 12 _ "# nexp".toList ⟨[], "0".toList, none, none⟩ 0 _ rfl rfl
        (Or.inl rfl) (by decide) (by decide) (by decide) (by decide) (by decide)).trans
      ((header_skip 11 _ "# name".toList _ rfl (Or.inr (by decide)) (by decide) (by decide)
        (by decide)).trans
      ((header_skip 10 _ _ _ rfl (Or.inr (by decide)) nD.1 nD.2.1 nD.2.2).trans
      ((header_skip 9 _ "# masse".toList _ rfl (Or.inr (by decide)) (by decide) (by decide)
        (by decide)).trans
      ((header_skip 8 _ "1".toList _ rfl (Or.inr (by decide)) (by decide) (by decide)
        (by decide)).trans
      ((header_skip 7 _ "# z".toList _ rfl (Or.inr (by decide)) (by decide) (by decide)
        (by decide)).trans
      ((header_skip 6 _ _ _ rfl (Or.inr (by decide)) n1.1 n1.2.1 n1.2.2).trans
      ((header_skip 5 _ "# ne".toList _ rfl (Or.inr (by decide)) (by decide) (by decide)
        (by decide)).trans
      ((header_skip 4 _ [] _ rfl (Or.inr (by decide)) (by decide) (by decide)
        (by decide)).trans
      ((header_skip 3 _ [] _ rfl (Or.inr (by decide)) (by decide) (by decide)
        (by decide)).trans
      (header_end 2 _ rfl)))))))))))
  exact exits_of_header decimalOps _ [] true _ hh (Or.inr rfl)

/-! ### Steps do not look beyond the lines they consume -/

theorem Tokenizer.next_frame : ∀ (fi : IFStream) (tk : Tokenizer) (r : Option Str)
    (tk1 : Tokenizer) (fi1 : IFStream), tk.next fi = (r, tk1, fi1) → fi1 ≠ [] →
    ∃ pre, fi = pre ++ fi1 ∧ ∀ Y, tk.next (pre ++ Y) = (r, tk1, Y) := by
  intro fi
  induction fi with
  | nil =>
    intro tk r tk1 fi1 h hne
    unfold Tokenizer.next at h
    split at h <;> (cases h; exact absurd rfl hne)
  | cons l ls ih =>
    intro tk r tk1 fi1 h hne
    unfold Tokenizer.next at h
    split at h
    · next token suffix hs =>
      cases h
      refine ⟨[], rfl, fun Y => ?_⟩
      cases Y with
      | nil => simp only [List.nil_append, Tokenizer.next, hs]
      | cons y ys => simp only [List.nil_append, Tokenizer.next, hs]
    · next hs =>
      obtain ⟨pre, hpre, hY⟩ := ih _ _ _ _ h hne
      refine ⟨l :: pre, by rw [hpre]; rfl, fun Y => ?_⟩
      simp only [List.cons_append, Tokenizer.next, hs]
      exact hY Y

theorem next2_frame (fi : IFStream) (tk : Tokenizer) (r : Option Str)
    (tk1 : Tokenizer) (fi1 : IFStream) (h : next2 tk fi = (r, tk1, fi1)) (hne : fi1 ≠ []) :
    ∃ pre, fi = pre ++ fi1 ∧ ∀ Y, next2 tk (pre ++ Y) = (r, tk1, Y) := by
  unfold next2 at h
  cases hn : tk.next fi with
  | mk r0 rest =>
    obtain ⟨tk0, fi0⟩ := rest
    rw [hn] at h
    cases r0 with
    | none =>
      simp only at h
      cases h
      obtain ⟨pre, hpre, hY⟩ := Tokenizer.next_frame _ _ _ _ _ hn hne
      exact ⟨pre, hpre, fun Y => by simp only [next2, hY Y]⟩
    | some t =>
      simp only at h
      obtain ⟨p2, hp2, hY2⟩ := Tokenizer.next_frame _ _ _ _ _ h hne
      have hne0 : fi0 ≠ [] := by
        rw [hp2]
        intro e
        exact hne (List.append_eq_nil.mp e).2
      obtain ⟨p1, hp1, hY1⟩ := Tokenizer.next_frame _ _ _ _ _ hn hne0
      refine ⟨p1 ++ p2, by rw [hp1, hp2, List.append_assoc], fun Y => ?_⟩
      simp only [next2, List.append_assoc, hY1 (p2 ++ Y), hY2 Y]

theorem read_float_framed {F : Type} (ops : FloatOps F) (f : Field)
    (store : Plasma F → F → Plasma F) : Framed (read_float ops f store) := by
  intro st st1 h hne
  unfold read_float at h
  cases hn : st.tk.next st.fi with
  | mk r rest =>
    obtain ⟨tk1, fi1⟩ := rest
    rw [hn] at h
    cases r with
    | none => cases h
    | some t =>
      simp only at h
      cases hv : ops.stod t with
      | none => rw [hv] at h; cases h
      | some v =>
        rw [hv] at h
        cases h
        obtain ⟨pre, hpre, hY⟩ := Tokenizer.next_frame _ _ _ _ _ hn hne
        exact ⟨pre, hpre, fun Y => by simp only [read_float, hY Y, hv]⟩

theorem read_pair_framed {F : Type} (ops : FloatOps F) (f : Field)
    (store : Plasma F → F → Plasma F) : Framed (read_pair ops f store) := by
  intro st st1 h hne
  unfold read_pair at h
  cases hn : next2 st.tk st.fi with
  | mk r rest =>
    obtain ⟨tk1, fi1⟩ := rest
    rw [hn] at h
    cases r with
    | none => cases h
    | some t =>
      simp only at h
      cases hv : ops.stod t with
      | none => rw [hv] at h; cases h
      | some v =>
        rw [hv] at h
        cases h
        obtain ⟨pre, hpre, hY⟩ := next2_frame _ _ _ _ _ hn hne
        exact ⟨pre, hpre, fun Y => by simp only [read_pair, hY Y, hv]⟩

theorem forLoop_framed {F : Type} (body : Nat → Reader F → Except Abort (Reader F))
    (hbody : ∀ i, Framed (body i)) : ∀ k i, Framed (fun s => forLoop body k i s) := by
  intro k
  induction k with
  | zero =>
    intro i st st1 h _
    simp only [forLoop] at h
    cases h
    exact ⟨[], rfl, fun Y => rfl⟩
  | succ k ih =>
    intro i st st1 h hne
    simp only [forLoop] at h
    cases hb : body i st with
    | error e => rw [hb] at h; cases h
    | ok s1 =>
      rw [hb] at h
      simp only at h
      obtain ⟨p2, hp2, hY2⟩ := ih (i + 1) s1 st1 h hne
      have hne1 : s1.fi ≠ [] := by
        rw [hp2]
        intro e
        exact hne (List.append_eq_nil.mp e).2
      obtain ⟨p1, hp1, hY1⟩ := hbody i st s1 hb hne1
      refine ⟨p1 ++ p2, by rw [hp1, hp2, List.append_assoc], fun Y => ?_⟩
      simp only [forLoop, List.append_assoc, hY1 (p2 ++ Y)]
      exact hY2 Y

theorem fill_species_framed {F : Type} (ops : FloatOps F) (f : Field)
    (store : Nat → Plasma F → F → Plasma F) : Framed (fill_species ops f store) := by
  intro st st1 h hne
  exact forLoop_framed _ (fun i => read_float_framed ops f (store i)) st.plasma.nion 0 st st1 h hne

theorem fill_profile_framed {F : Type} (ops : FloatOps F) (f : Field)
    (store : Nat → Plasma F → F → Plasma F) : Framed (fill_profile ops f store) := by
  intro st st1 h hne
  exact forLoop_framed _ (fun i => read_pair_framed ops f (store i)) st.plasma.nexp 0 st st1 h hne

theorem fill_matrix_framed {F : Type} (ops : FloatOps F) (f : Field)
    (store : Nat → Nat → Plasma F → F → Plasma F) : Framed (fill_matrix ops f store) := by
  intro st st1 h hne
  refine forLoop_framed _ (fun i => ?_) st.plasma.nexp 0 st st1 h hne
  intro s s1 hs hne1
  obtain ⟨p2, hp2, hY2⟩ := forLoop_framed _
    (fun ion => read_float_framed ops f (store ion i)) s.plasma.nion 0 _ s1 hs hne1
  simp only at hp2
  have hne0 : (s.tk.next s.fi).2.2 ≠ [] := by
    rw [hp2]
    intro e
    exact hne1 (List.append_eq_nil.mp e).2
  obtain ⟨p1, hp1, hY1⟩ := Tokenizer.next_frame s.fi s.tk _ _ _ rfl hne0
  refine ⟨p1 ++ p2, by rw [hp1, hp2, List.append_assoc], fun Y => ?_⟩
  have := hY2 Y
  simp only [List.append_assoc, hY1 (p2 ++ Y)]
  exact this

theorem handle_name_framed {F : Type} (line : Str) :
    Framed (fun st : Reader F =>
      (Except.ok (handle_name line st) : Except Abort (Reader F))) := by
  intro st st1 h hne
  simp only [Except.ok.injEq] at h
  subst h
  cases hfi : st.fi with
  | nil => simp [handle_name, hfi] at hne
  | cons l ls =>
    refine ⟨[l], by simp [handle_name, hfi], fun Y => ?_⟩
    simp [handle_name, hfi]

theorem body_step_framed {F : Type} (ops : FloatOps F) (negative_psi : Bool) (line : Str) :
    Framed (body_step ops negative_psi line) := by
  intro st st1 h hne
  unfold body_step at h
  by_cases c1 : regex_match line re_name = true
  · rw [if_pos c1] at h
    obtain ⟨pre, hpre, hY⟩ := handle_name_framed line st st1 h hne
    exact ⟨pre, hpre, fun Y => by simp only [body_step, if_pos c1]; exact hY Y⟩
  rw [if_neg c1] at h
  by_cases c2 : regex_match line re_masse = true
  · rw [if_pos c2] at h
    obtain ⟨pre, hpre, hY⟩ := read_float_framed _ _ _ st st1 h hne
    exact ⟨pre, hpre, fun Y => by simp only [body_step, if_neg c1, if_pos c2]; exact hY Y⟩
  rw [if_neg c2] at h
  by_cases c3 : regex_match line re_ze = true
  · rw [if_pos c3] at h
    obtain ⟨pre, hpre, hY⟩ := read_float_framed _ _ _ st st1 h hne
    exact ⟨pre, hpre, fun Y => by
      simp only [body_step, if_neg c1, if_neg c2, if_pos c3]; exact hY Y⟩
  rw [if_neg c3] at h
  by_cases c4 : regex_match line re_mass = true
  · rw [if_pos c4] at h
    obtain ⟨pre, hpre, hY⟩ := fill_species_framed _ _ _ st st1 h hne
    exact ⟨pre, hpre, fun Y => by
      simp only [body_step, if_neg c1, if_neg c2, if_neg c3, if_pos c4]; exact hY Y⟩
  rw [if_neg c4] at h
  by_cases c5 : regex_match line re_z = true
  · rw [if_pos c5] at h
    obtain ⟨pre, hpre, hY⟩ := fill_species_framed _ _ _ st st1 h hne
    exact ⟨pre, hpre, fun Y => by
      simp only [body_step, if_neg c1, if_neg c2, if_neg c3, if_neg c4, if_pos c5]; exact hY Y⟩
  rw [if_neg c5] at h
  by_cases c6 : regex_match line re_polflux = true
  · rw [if_pos c6] at h
    obtain ⟨pre, hpre, hY⟩ := fill_profile_framed _ _ _ st st1 h hne
    exact ⟨pre, hpre, fun Y => by
      simp only [body_step, if_neg c1, if_neg c2, if_neg c3, if_neg c4, if_neg c5, if_pos c6]
      exact hY Y⟩
  rw [if_neg c6] at h
  by_cases c7 : regex_match line re_ne = true
  · rw [if_pos c7] at h
    obtain ⟨pre, hpre, hY⟩ := fill_profile_framed _ _ _ st st1 h hne
    exact ⟨pre, hpre, fun Y => by
      simp only [body_step, if_neg c1, if_neg c2, if_neg c3, if_neg c4, if_neg c5, if_neg c6,
        if_pos c7]
      exact hY Y⟩
  rw [if_neg c7] at h
  by_cases c8 : regex_match line re_ni = true
  · rw [if_pos c8] at h
    obtain ⟨pre, hpre, hY⟩ := fill_matrix_framed _ _ _ st st1 h hne
    exact ⟨pre, hpre, fun Y => by
      simp only [body_step, if_neg c1, if_neg c2, if_neg c3, if_neg c4, if_neg c5, if_neg c6,
        if_neg c7, if_pos c8]
      exact hY Y⟩
  rw [if_neg c8] at h
  by_cases c9 : regex_match line re_te = true
  · rw [if_pos c9] at h
    obtain ⟨pre, hpre, hY⟩ := fill_profile_framed _ _ _ st st1 h hne
    exact ⟨pre, hpre, fun Y => by
      simp only [body_step, if_neg c1, if_neg c2, if_neg c3, if_neg c4, if_neg c5, if_neg c6,
        if_neg c7, if_neg c8, if_pos c9]
      exact hY Y⟩
  rw [if_neg c9] at h
  by_cases c10 : regex_match line re_ti = true
  · rw [if_pos c10] at h
    obtain ⟨pre, hpre, hY⟩ := fill_matrix_framed _ _ _ st st1 h hne
    exact ⟨pre, hpre, fun Y => by
      simp only [body_step, if_neg c1, if_neg c2, if_neg c3, if_neg c4, if_neg c5, if_neg c6,
        if_neg c7, if_neg c8, if_neg c9, if_pos c10]
      exact hY Y⟩
  rw [if_neg c10] at h
  cases h
  exact ⟨[], rfl, fun Y => by
    simp only [body_step, if_neg c1, if_neg c2, if_neg c3, if_neg c4, if_neg c5, if_neg c6,
      if_neg c7, if_neg c8, if_neg c9, if_neg c10, List.nil_append]⟩

theorem reaches_frame {F : Type} (ops : FloatOps F) (negative_psi : Bool) (st st2 : Reader F)
    (hr : Reaches ops negative_psi st st2) (hne : st2.fi ≠ []) :
    ∃ pre, st.fi = pre ++ st2.fi ∧
      ∀ Y, Reaches ops negative_psi { st with fi := pre ++ Y } { st2 with fi := Y } := by
  induction hr with
  | start st => exact ⟨[], rfl, fun Y => Reaches.start _⟩
  | round st st1 st2 line rest hfi hstep _ ih =>
    obtain ⟨p2, hp2, hY2⟩ := ih hne
    have hne1 : st1.fi ≠ [] := by
      rw [hp2]
      intro e
      exact hne (List.append_eq_nil.mp e).2
    obtain ⟨p1, hp1, hY1⟩ := body_step_framed ops negative_psi line _ st1 hstep hne1
    simp only at hp1
    refine ⟨line :: (p1 ++ p2), by rw [hfi, hp1, hp2]; simp, fun Y => ?_⟩
    refine Reaches.round _ { st1 with fi := p2 ++ Y } _ line (p1 ++ (p2 ++ Y))
      (by simp) ?_ (hY2 Y)
    exact hY1 (p2 ++ Y)

theorem header_loop_frame : ∀ n (h h1 : Header), header_loop n h = .ok h1 → h1.fi ≠ [] →
    ∃ pre, h.fi = pre ++ h1.fi ∧
      ∀ Y, header_loop n { h with fi := pre ++ Y } = .ok { h1 with fi := Y } := by
  intro n
  induction n with
  | zero => intro h h1 hh; simp [header_loop] at hh
  | succ n ih =>
    intro h h1 hh hne
    simp only [header_loop] at hh
    by_cases hc : h.nexp = -1 ∨ h.nion = -1
    · rw [if_pos hc] at hh
      cases hfi : h.fi with
      | nil =>
        rw [hfi] at hh
        cases hh
        exact absurd hfi hne
      | cons line rest =>
        rw [hfi] at hh
        simp only at hh
        by_cases c1 : regex_match line re_shot = true
        · rw [if_pos c1] at hh
          cases hn : h.tk.next rest with
          | mk r rr =>
            obtain ⟨tk1, fi1⟩ := rr
            rw [hn] at hh
            cases r with
            | none => cases hh
            | some token =>
              simp only at hh
              cases hv : stoi token with
              | none => rw [hv] at hh; cases hh
              | some v =>
                rw [hv] at hh
                obtain ⟨p2, hp2, hY2⟩ := ih _ _ hh hne
                simp only at hp2
                have hne1 : fi1 ≠ [] := by
                  rw [hp2]
                  intro e
                  exact hne (List.append_eq_nil.mp e).2
                obtain ⟨p1, hp1, hY1⟩ := Tokenizer.next_frame _ _ _ _ _ hn hne1
                refine ⟨line :: (p1 ++ p2), by rw [hp1, hp2]; simp, fun Y => ?_⟩
                simp only [header_loop, if_pos hc, List.cons_append, if_pos c1,
                  List.append_assoc, hY1 (p2 ++ Y), hv]
                exact hY2 Y
        rw [if_neg c1] at hh
        by_cases c2 : regex_match line re_nion = true
        · rw [if_pos c2] at hh
          cases hn : h.tk.next rest with
          | mk r rr =>
            obtain ⟨tk1, fi1⟩ := rr
            rw [hn] at hh
            cases r with
            | none => cases hh
            | some token =>
              simp only at hh
              cases hv : stoul token with
              | none => rw [hv] at hh; cases hh
              | some v =>
                rw [hv] at hh
                obtain ⟨p2, hp2, hY2⟩ := ih _ _ hh hne
                simp only at hp2
                have hne1 : fi1 ≠ [] := by
                  rw [hp2]
                  intro e
                  exact hne (List.append_eq_nil.mp e).2
                obtain ⟨p1, hp1, hY1⟩ := Tokenizer.next_frame _ _ _ _ _ hn hne1
                refine ⟨line :: (p1 ++ p2), by rw [hp1, hp2]; simp, fun Y => ?_⟩
                simp only [header_loop, if_pos hc, List.cons_append, if_neg c1, if_pos c2,
                  List.append_assoc, hY1 (p2 ++ Y), hv]
                exact hY2 Y
        rw [if_neg c2] at hh
        by_cases c3 : regex_match line re_nexp = true
        · rw [if_pos c3] at hh
          cases hn : h.tk.next rest with
          | mk r rr =>
            obtain ⟨tk1, fi1⟩ := rr
            rw [hn] at hh
            cases r with
            | none => cases hh
            | some token =>
              simp only at hh
              cases hv : stoul token with
              | none => rw [hv] at hh; cases hh
              | some v =>
                rw [hv] at hh
                obtain ⟨p2, hp2, hY2⟩ := ih _ _ hh hne
                simp only at hp2
                have hne1 : fi1 ≠ [] := by
                  rw [hp2]
                  intro e
                  exact hne (List.append_eq_nil.mp e).2
                obtain ⟨p1, hp1, hY1⟩ := Tokenizer.next_frame _ _ _ _ _ hn hne1
                refine ⟨line :: (p1 ++ p2), by rw [hp1, hp2]; simp, fun Y => ?_⟩
                simp only [header_loop, if_pos hc, List.cons_append, if_neg c1, if_neg c2,
                  if_pos c3, List.append_assoc, hY1 (p2 ++ Y), hv]
                exact hY2 Y
        rw [if_neg c3] at hh
        obtain ⟨p2, hp2, hY2⟩ := ih _ _ hh hne
        simp only at hp2
        refine ⟨line :: p2, by rw [hp2]; simp, fun Y => ?_⟩
        simp only [header_loop, if_pos hc, List.cons_append, if_neg c1, if_neg c2, if_neg c3]
        exact hY2 Y
    · rw [if_neg hc] at hh
      cases hh
      exact ⟨[], rfl, fun Y => by simp only [header_loop, if_neg hc, List.nil_append]⟩

theorem header_loop_more : ∀ n (h h1 : Header), header_loop n h = .ok h1 →
    ∀ m, h.fi.length < m → header_loop m h = .ok h1 := by
  intro n
  induction n with
  | zero => intro h h1 hh; simp [header_loop] at hh
  | succ n ih =>
    intro h h1 hh m hm
    cases m with
    | zero => omega
    | succ m =>
      simp only [header_loop] at hh ⊢
      by_cases hc : h.nexp = -1 ∨ h.nion = -1
      · rw [if_pos hc] at hh ⊢
        cases hfi : h.fi with
        | nil => rw [hfi] at hh; exact hh
        | cons line rest =>
          rw [hfi] at hh hm
          simp only [List.length_cons] at hm
          simp only at hh ⊢
          have hsuf := (Tokenizer.next_suffix h.tk rest).length_le
          by_cases c1 : regex_match line re_shot = true
          · rw [if_pos c1] at hh ⊢
            cases hn : h.tk.next rest with
            | mk r rr =>
              obtain ⟨tk1, fi1⟩ := rr
              rw [hn] at hh hsuf
              cases r with
              | none => cases hh
              | some token =>
                simp only at hh hsuf ⊢
                cases hv : stoi token with
                | none => rw [hv] at hh; cases hh
                | some v =>
                  rw [hv] at hh
                  exact ih _ _ hh m (by simp only; omega)
          rw [if_neg c1] at hh ⊢
          by_cases c2 : regex_match line re_nion = true
          · rw [if_pos c2] at hh ⊢
            cases hn : h.tk.next rest with
            | mk r rr =>
              obtain ⟨tk1, fi1⟩ := rr
              rw [hn] at hh hsuf
              cases r with
              | none => cases hh
              | some token =>
                simp only at hh hsuf ⊢
                cases hv : stoul token with
                | none => rw [hv] at hh; cases hh
                | some v =>
                  rw [hv] at hh
                  exact ih _ _ hh m (by simp only; omega)
          rw [if_neg c2] at hh ⊢
          by_cases c3 : regex_match line re_nexp = true
          · rw [if_pos c3] at hh ⊢
            cases hn : h.tk.next rest with
            | mk r rr =>
              obtain ⟨tk1, fi1⟩ := rr
              rw [hn] at hh hsuf
              cases r with
              | none => cases hh
              | some token =>
                simp only at hh hsuf ⊢
                cases hv : stoul token with
                | none => rw [hv] at hh; cases hh
                | some v =>
                  rw [hv] at hh
                  exact ih _ _ hh m (by simp only; omega)
          rw [if_neg c3] at hh ⊢
          exact ih _ _ hh m (by simp only; omega)
      · rw [if_neg hc] at hh ⊢
        exact hh

/-- A state that the BODY loop reaches with lines still to read is reached in the same
way on every file that starts with the lines consumed so far. -/
theorem reachedBy_frame {F : Type} (ops : FloatOps F) (negative_psi : Bool) (content : Str)
    (ids : List Str) (st : Reader F) (hr : ReachedBy ops negative_psi content ids st)
    (hne : st.fi ≠ []) :
    ∃ pre, getlines content [] = pre ++ st.fi ∧
      ∀ content1 Y, getlines content1 [] = pre ++ Y →
        ReachedBy ops negative_psi content1 ids { st with fi := Y } := by
  obtain ⟨hd, hh, h1, h2, hreach⟩ := hr
  obtain ⟨p2, hp2, hY2⟩ := reaches_frame ops negative_psi _ _ hreach hne
  have hne1 : hd.fi ≠ [] := by
    simp only [body_start] at hp2
    rw [hp2]
    intro e
    exact hne (List.append_eq_nil.mp e).2
  obtain ⟨p1, hp1, hY1⟩ := header_loop_frame _ _ _ hh hne1
  simp only [header_start] at hp1
  simp only [body_start] at hp2
  refine ⟨p1 ++ p2, by rw [hp1, hp2, List.append_assoc], fun content1 Y hc => ?_⟩
  refine ⟨{ hd with fi := p2 ++ Y }, ?_, h1, h2, hY2 Y⟩
  have := hY1 (p2 ++ Y)
  rw [hc]
  refine header_loop_more ((getlines content []).length + 1) _ _ ?_ _ (Nat.lt_succ_self _)
  simpa [header_start, List.append_assoc] using this

/-! ### C5: handlers on sources that differ in index tokens only -/

theorem find_hit {α : Type} (p : α → Bool) (a : α) (l : List α) (h : p a = true) :
    (a :: l).find? p = some a := by simp [List.find?, h]

theorem find_miss {α : Type} (p : α → Bool) (a : α) (l : List α) (h : ¬ p a = true) :
    (a :: l).find? p = l.find? p := by simp [List.find?, h]

/-- What `List.find?` gives satisfies the test, and nothing before it in the list does. -/
theorem find_first {α : Type} [DecidableEq α] (p : α → Bool) :
    ∀ (l : List α) (d : α), l.find? p = some d →
      p d = true ∧ ∀ e ∈ l.takeWhile (fun x => decide (x ≠ d)), p e = false := by
  intro l
  induction l with
  | nil => intro d h; simp at h
  | cons a l ih =>
    intro d h
    by_cases c : p a = true
    · rw [find_hit p a l c] at h
      cases h
      exact ⟨c, by simp [List.takeWhile]⟩
    · rw [find_miss p a l c] at h
      refine ⟨(ih d h).1, ?_⟩
      intro e he
      by_cases hd : a = d
      · subst hd
        simp [List.takeWhile] at he
      · have : (a :: l).takeWhile (fun x => decide (x ≠ d))
            = a :: l.takeWhile (fun x => decide (x ≠ d)) := by
          simp [List.takeWhile, hd]
        rw [this] at he
        rcases List.mem_cons.mp he with rfl | he1
        · simpa using c
        · exact (ih d h).2 e he1

/-- A round of the BODY loop runs the handler of the directive that the line selects, and
nothing else. -/
theorem body_step_classify {F : Type} (ops : FloatOps F) (negative_psi : Bool) (line : Str)
    (st : Reader F) :
    body_step ops negative_psi line st =
      match classify line with
      | none => .ok st
      | some d => d.handler ops negative_psi line st := by
  unfold body_step classify body_directives
  by_cases c1 : regex_match line re_name = true
  · rw [if_pos c1, find_hit (fun d : Directive => regex_match line d.pattern) (Directive.name) _ c1]; rfl
  rw [if_neg c1, find_miss (fun d : Directive => regex_match line d.pattern) (Directive.name) _ c1]
  by_cases c2 : regex_match line re_masse = true
  · rw [if_pos c2, find_hit (fun d : Directive => regex_match line d.pattern) (Directive.masse) _ c2]; rfl
  rw [if_neg c2, find_miss (fun d : Directive => regex_match line d.pattern) (Directive.masse) _ c2]
  by_cases c3 : regex_match line re_ze = true
  · rw [if_pos c3, find_hit (fun d : Directive => regex_match line d.pattern) (Directive.ze) _ c3]; rfl
  rw [if_neg c3, find_miss (fun d : Directive => regex_match line d.pattern) (Directive.ze) _ c3]
  by_cases c4 : regex_match line re_mass = true
  · rw [if_pos c4, find_hit (fun d : Directive => regex_match line d.pattern) (Directive.mass) _ c4]; rfl
  rw [if_neg c4, find_miss (fun d : Directive => regex_match line d.pattern) (Directive.mass) _ c4]
  by_cases c5 : regex_match line re_z = true
  · rw [if_pos c5, find_hit (fun d : Directive => regex_match line d.pattern) (Directive.z) _ c5]; rfl
  rw [if_neg c5, find_miss (fun d : Directive => regex_match line d.pattern) (Directive.z) _ c5]
  by_cases c6 : regex_match line re_polflux = true
  · rw [if_pos c6, find_hit (fun d : Directive => regex_match line d.pattern) (Directive.polflux) _ c6]; rfl
  rw [if_neg c6, find_miss (fun d : Directive => regex_match line d.pattern) (Directive.polflux) _ c6]
  by_cases c7 : regex_match line re_ne = true
  · rw [if_pos c7, find_hit (fun d : Directive => regex_match line d.pattern) (Directive.ne) _ c7]; rfl
  rw [if_neg c7, find_miss (fun d : Directive => regex_match line d.pattern) (Directive.ne) _ c7]
  by_cases c8 : regex_match line re_ni = true
  · rw [if_pos c8, find_hit (fun d : Directive => regex_match line d.pattern) (Directive.ni) _ c8]; rfl
  rw [if_neg c8, find_miss (fun d : Directive => regex_match line d.pattern) (Directive.ni) _ c8]
  by_cases c9 : regex_match line re_te = true
  · rw [if_pos c9, find_hit (fun d : Directive => regex_match line d.pattern) (Directive.te) _ c9]; rfl
  rw [if_neg c9, find_miss (fun d : Directive => regex_match line d.pattern) (Directive.te) _ c9]
  by_cases c10 : regex_match line re_ti = true
  · rw [if_pos c10, find_hit (fun d : Directive => regex_match line d.pattern) (Directive.ti) _ c10]; rfl
  rw [if_neg c10, find_miss (fun d : Directive => regex_match line d.pattern) (Directive.ti) _ c10]
  rfl

/-- C11: a round of the BODY loop on a line runs the handler of at most one directive,
the first one in the order name, masse, ze, mass, z, polflux, ne, ni, te, ti whose pattern
the line matches (no pattern before it matches), and leaves the state alone when there
is none. A line that selects `masse` runs the one checked read of `masse` and not the
loop of `mass`, also when it matches the pattern of `mass`, as `# masse` does; a line
that selects `ze` runs the one checked read of `ze` and not the loop of `z`, also when it
matches the pattern of `z`, as `# z ze` does. -/
theorem one_handler_per_line {F : Type} (ops : FloatOps F) (negative_psi : Bool) :
    (∀ (line : Str) (st : Reader F),
      body_step ops negative_psi line st =
        match classify line with
        | none => .ok st
        | some d => d.handler ops negative_psi line st) ∧
    (∀ (line : Str) (d : Directive), classify line = some d →
      regex_match line d.pattern = true ∧
      ∀ e ∈ body_directives.takeWhile (fun x => decide (x ≠ d)),
        regex_match line e.pattern = false) ∧
    (∀ (line : Str) (st : Reader F), classify line = some .masse →
      body_step ops negative_psi line st
        = read_float ops .masse (fun p v => { p with masse := some v }) st ∧
      ∀ st1, body_step ops negative_psi line st = .ok st1 →
        st1.plasma.mass = st.plasma.mass) ∧
    (∀ (line : Str) (st : Reader F), classify line = some .ze →
      body_step ops negative_psi line st
        = read_float ops .ze (fun p v => { p with ze := some v }) st ∧
      ∀ st1, body_step ops negative_psi line st = .ok st1 → st1.plasma.z = st.plasma.z) ∧
    (regex_match "# masse".toList re_mass = true ∧ classify "# masse".toList = some .masse) ∧
    (regex_match "# z ze".toList re_z = true ∧ classify "# z ze".toList = some .ze) := by
  have hm : ∀ (line : Str) (st : Reader F), classify line = some .masse →
      body_step ops negative_psi line st
        = read_float ops .masse (fun p v => { p with masse := some v }) st := by
    intro line st h
    rw [body_step_classify, h]; rfl
  have hz : ∀ (line : Str) (st : Reader F), classify line = some .ze →
      body_step ops negative_psi line st
        = read_float ops .ze (fun p v => { p with ze := some v }) st := by
    intro line st h
    rw [body_step_classify, h]; rfl
  refine ⟨body_step_classify ops negative_psi, ?_, ?_, ?_, ⟨by decide, by decide⟩,
    ⟨by decide, by decide⟩⟩
  · intro line d h
    exact find_first (fun d : Directive => regex_match line d.pattern) body_directives d h
  · intro line st h
    refine ⟨hm line st h, ?_⟩
    intro st1 h1
    rw [hm line st h] at h1
    unfold read_float at h1
    rcases hn : st.tk.next st.fi with ⟨_ | token, tk1, fi1⟩
    · rw [hn] at h1; cases h1
    · rw [hn] at h1
      cases hv : ops.stod token with
      | none => simp only [hv] at h1; cases h1
      | some v => simp only [hv] at h1; cases h1; rfl
  · intro line st h
    refine ⟨hz line st h, ?_⟩
    intro st1 h1
    rw [hz line st h] at h1
    unfold read_float at h1
    rcases hn : st.tk.next st.fi with ⟨_ | token, tk1, fi1⟩
    · rw [hn] at h1; cases h1
    · rw [hn] at h1
      cases hv : ops.stod token with
      | none => simp only [hv] at h1; cases h1
      | some v => simp only [hv] at h1; cases h1; rfl

/-- C11, on the line `# masse` in a state with two species: the round reads the one
token of `masse` and leaves the two that follow to the tokenizer. -/
theorem one_handler_per_line_witness :
    classify "# masse".toList = some .masse ∧
    body_step decimalOps true "# masse".toList
        ⟨Plasma.new (-1) 1 2, [], ⟨number_re, []⟩, ["9.1e-31 2".toList, "12".toList]⟩
      = .ok ⟨{ (Plasma.new (-1) 1 2 : Plasma (Int × Int)) with masse := some (91, -32) }, [],
          ⟨number_re, " 2".toList⟩, ["12".toList]⟩ :=
  ⟨by decide,
    ((one_handler_per_line decimalOps true).2.2.1 "# masse".toList
      ⟨Plasma.new (-1) 1 2, [], ⟨number_re, []⟩, ["9.1e-31 2".toList, "12".toList]⟩
      (by decide)).1.trans (by rfl)⟩

/-- C12: in the BODY loop the line `# nion` selects the handler of `ni` and the line
`# nexp` the handler of `ne`. On a file that repeats the `nion` line after the two
sizes, the handler of `ni` takes the two tokens of the next line and writes `ni(0, 0)`;
on a file that repeats the `nexp` line, the handler of `ne` writes `ne[0]`. -/
theorem sizing_line_selects_body_handler :
    classify "# nion".toList = some .ni ∧ classify "# nexp".toList = some .ne ∧
    read_input_gacode decimalOps (some "# nexp\n1\n# nion\n1\n# nion\n1 5\n".toList) [] true
      = .returned { (Plasma.new (-1) 1 1 : Plasma (Int × Int)) with ni := [[some (5, 0)]] }
          [] [] ∧
    read_input_gacode decimalOps (some "# nion\n1\n# nexp\n1\n# nexp\n1 7\n".toList) [] true
      = .returned { (Plasma.new (-1) 1 1 : Plasma (Int × Int)) with ne := [some (7, 0)] }
          [] [] := by
  refine ⟨by decide, by decide, by decide, by decide⟩

/-- C13, counterexample: on the file `# nion`, `0`, `# nexp`, `0` the HEADER loop ends
with `nion = 0` and `nexp = 0`, neither of them the marker `-1`: the container is
constructed with the sizes `0` and returned. On the file `# nion`, `-5`, `# nexp`, `3`
the HEADER loop ends with `nion = -5`. -/
theorem body_phase_with_zero_sizes :
    header_loop ((getlines "# nion\n0\n# nexp\n0\n".toList []).length + 1)
        (header_start (getlines "# nion\n0\n# nexp\n0\n".toList []))
      = .ok ⟨-1, 0, 0, ⟨number_re, []⟩, [[]]⟩ ∧
    read_input_gacode decimalOps (some "# nion\n0\n# nexp\n0\n".toList) [] true
      = .returned (Plasma.new (-1) 0 0) [] [] ∧
    ¬ (0 < (Plasma.new (-1) 0 0 : Plasma (Int × Int)).nexp) ∧
    header_loop ((getlines "# nion\n-5\n# nexp\n3\n".toList []).length + 1)
        (header_start (getlines "# nion\n-5\n# nexp\n3\n".toList []))
      = .ok ⟨-1, 3, -5, ⟨number_re, []⟩, [[]]⟩ := by
  refine ⟨by rfl, by decide, by decide, by rfl⟩

/-- C13: in every state of the BODY loop of a call, the sizes `nexp` and `nion` with
which the HEADER loop ended differ from the marker `-1`, are 32-bit integers, and
converted to unsigned sizes they are the `nexp` and `nion` of the container. -/
theorem body_phase_sizes {F : Type} (ops : FloatOps F) (negative_psi : Bool) (content : Str)
    (ids : List Str) (st : Reader F) (hr : ReachedBy ops negative_psi content ids st) :
    ∃ hd, header_loop ((getlines content []).length + 1) (header_start (getlines content []))
        = .ok hd ∧
      hd.nexp ≠ -1 ∧ hd.nion ≠ -1 ∧
      (-(2 : Int) ^ 31 ≤ hd.nexp ∧ hd.nexp < (2 : Int) ^ 31) ∧
      (-(2 : Int) ^ 31 ≤ hd.nion ∧ hd.nion < (2 : Int) ^ 31) ∧
      st.plasma.nexp = toSizeT hd.nexp ∧ st.plasma.nion = toSizeT hd.nion := by
  obtain ⟨hd, hh, h1, h2, hreach⟩ := hr
  have hr := header_loop_range _ _ _ hh (header_start_inRange _)
  have hf := (reaches_follows ops negative_psi _ _ hreach).1
  refine ⟨hd, hh, h1, h2, hr.1, hr.2, ?_, ?_⟩
  · exact congrArg Shape.nexp hf
  · exact congrArg Shape.nion hf

/-- C13, on a file that declares `nion = 0` and `nexp = 2`: the BODY loop starts with a
container of the sizes `2` and `0`. -/
theorem body_phase_sizes_witness :
    ReachedBy decimalOps true "# nion\n0\n# nexp\n2\n# ne\n".toList []
      (body_start ⟨-1, 2, 0, ⟨number_re, []⟩, ["# ne".toList, []]⟩ []) ∧
    ∃ hd, header_loop ((getlines "# nion\n0\n# nexp\n2\n# ne\n".toList []).length + 1)
        (header_start (getlines "# nion\n0\n# nexp\n2\n# ne\n".toList [])) = .ok hd ∧
      hd.nexp ≠ -1 ∧ hd.nion ≠ -1 ∧
      (-(2 : Int) ^ 31 ≤ hd.nexp ∧ hd.nexp < (2 : Int) ^ 31) ∧
      (-(2 : Int) ^ 31 ≤ hd.nion ∧ hd.nion < (2 : Int) ^ 31) ∧
      (body_start ⟨-1, 2, 0, ⟨number_re, []⟩, ["# ne".toList, []]⟩ []
        : Reader (Int × Int)).plasma.nexp = toSizeT hd.nexp ∧
      (body_start ⟨-1, 2, 0, ⟨number_re, []⟩, ["# ne".toList, []]⟩ []
        : Reader (Int × Int)).plasma.nion = toSizeT hd.nion :=
  ⟨⟨_, rfl, by decide, by decide, Reaches.start _⟩,
    body_phase_sizes decimalOps true "# nion\n0\n# nexp\n2\n# ne\n".toList []
      (body_start ⟨-1, 2, 0, ⟨number_re, []⟩, ["# ne".toList, []]⟩ [])
      ⟨_, rfl, by decide, by decide, Reaches.start _⟩⟩

/-! ### The handler of `name` -/

theorem words_of_line_cons (c : Char) (t : Str) (hc : isspace c = false) :
    words_of_line (c :: t)
      = (c :: t.takeWhile (fun x => !isspace x))
          :: words_of_line (t.dropWhile (fun x => !isspace x)) := by
  induction t generalizing c with
  | nil => simp [words_of_line, hc]
  | cons d t ih =>
    cases hd : isspace d with
    | true => simp [words_of_line, hc, hd, List.takeWhile, List.dropWhile]
    | false =>
      have e := ih d hd
      rw [words_of_line]
      simp only [hc, hd, Bool.false_eq_true, if_false]
      rw [e]
      simp [List.takeWhile, List.dropWhile, hd]

theorem words_of_line_dropWhile (s : Str) :
    words_of_line (s.dropWhile isspace) = words_of_line s := by
  induction s with
  | nil => rfl
  | cons c t ih =>
    cases hc : isspace c with
    | true => simp [List.dropWhile, hc, words_of_line, ih]
    | false => simp [List.dropWhile, hc]

/-- The extraction `ss >> name` takes the first word and leaves the text of the others. -/
theorem extract_word_words (s w : Str) (ws : List Str) (h : words_of_line s = w :: ws) :
    (extract_word s).1 = w ∧ words_of_line (extract_word s).2 = ws := by
  rw [← words_of_line_dropWhile] at h
  unfold extract_word
  cases hs : s.dropWhile isspace with
  | nil => rw [hs] at h; simp [words_of_line] at h
  | cons c t =>
    have hc : isspace c = false := by
      have := List.head_dropWhile_not isspace s (by rw [hs]; simp)
      simpa [hs] using this
    rw [hs, words_of_line_cons c t hc] at h
    injection h with h1 h2
    simp only [List.takeWhile, List.dropWhile, hc, Bool.not_false]
    exact ⟨h1, h2⟩

theorem name_loop_words : ∀ (k : Nat) (s : Str) (ids : List Str),
    k ≤ (words_of_line s).length → name_loop k s ids = ids ++ (words_of_line s).take k := by
  intro k
  induction k with
  | zero => intro s ids _; simp [name_loop]
  | succ k ih =>
    intro s ids hk
    cases hw : words_of_line s with
    | nil => rw [hw] at hk; simp at hk
    | cons w ws =>
      obtain ⟨e1, e2⟩ := extract_word_words s w ws hw
      rw [name_loop, e1, ih _ _ (by rw [e2]; rw [hw] at hk; simpa using hk), e2]
      simp

/-- C14: in a state of the BODY loop with `nion = M`, on a line that matches the pattern
of `name` and is followed by a line with at least `M` words, the round takes exactly
that following line from the stream, appends its first `M` words in order to
`species_identifiers`, and leaves the container and the tokenizer as they are. -/
theorem name_handler_appends {F : Type} (ops : FloatOps F) (negative_psi : Bool)
    (st : Reader F) (line following : Str) (rest : IFStream) (M : Nat)
    (hname : regex_match line re_name = true) (hM : st.plasma.nion = M)
    (hwords : M ≤ (words_of_line following).length) :
    body_step ops negative_psi line { st with fi := following :: rest }
      = .ok { st with
          species_identifiers := st.species_identifiers ++ (words_of_line following).take M,
          fi := rest } := by
  unfold body_step
  rw [if_pos hname]
  unfold handle_name
  simp only [List.head?_cons, Option.getD_some, List.tail]
  rw [hM, name_loop_words M following _ hwords]

/-- C14, on the line `# name` followed by a line of three words, with `nion = 2`. -/
theorem name_handler_appends_witness :
    regex_match "# name".toList re_name = true ∧
    (Plasma.new (-1) 3 2 : Plasma (Int × Int)).nion = 2 ∧
    2 ≤ (words_of_line "  D \t C  W".toList).length ∧
    body_step decimalOps true "# name".toList
        { (⟨Plasma.new (-1) 3 2, ["X".toList], ⟨number_re, " 7".toList⟩, []⟩
            : Reader (Int × Int)) with fi := "  D \t C  W".toList :: ["# masse".toList] }
      = .ok { (⟨Plasma.new (-1) 3 2, ["X".toList], ⟨number_re, " 7".toList⟩, []⟩
            : Reader (Int × Int)) with
          species_identifiers := ["X".toList] ++ (words_of_line "  D \t C  W".toList).take 2,
          fi := ["# masse".toList] } ∧
    ["X".toList] ++ (words_of_line "  D \t C  W".toList).take 2
      = ["X".toList, "D".toList, "C".toList] :=
  ⟨by decide, rfl, by decide,
    name_handler_appends decimalOps true
      ⟨Plasma.new (-1) 3 2, ["X".toList], ⟨number_re, " 7".toList⟩, []⟩
      "# name".toList "  D \t C  W".toList ["# masse".toList] 2 (by decide) rfl (by decide),
    by decide⟩

/-! ### The handlers of `ni` and `ti` -/

theorem entry_setEntry {F : Type} (N : Nat) (i : Nat) (v : F) (hi : i < N) :
    ∀ (m : List (List (Option F))) (M ion : Nat), m.map List.length = List.replicate M N →
      ion < M → ∀ s g, entry (setEntry m ion i v) s g
        = if s = ion ∧ g = i then some v else entry m s g := by
  intro m
  induction m with
  | nil =>
    intro M ion hm hion
    cases M with
    | zero => omega
    | succ M => simp [List.replicate] at hm
  | cons row rows ih =>
    intro M ion hm hion s g
    cases M with
    | zero => omega
    | succ M =>
      simp only [List.map_cons, List.replicate_succ, List.cons.injEq] at hm
      cases ion with
      | zero =>
        cases s with
        | zero =>
          simp only [setEntry, entry, List.getD_cons_zero, true_and]
          rw [List.getD_eq_getElem?_getD, List.getElem?_set]
          by_cases hg : g = i
          · subst hg
            simp [hm.1, hi]
          · have : ¬ i = g := fun h => hg h.symm
            simp [hg, this, List.getD_eq_getElem?_getD]
        | succ s => simp [setEntry, entry]
      | succ ion =>
        cases s with
        | zero => simp [setEntry, entry]
        | succ s =>
          have := ih M ion hm.2 (by omega) s g
          simp only [setEntry, entry, List.getD_cons_succ] at this ⊢
          rw [this]
          simp

theorem next_of_tokens (tk : Tokenizer) (hre : 0 < tk.re.minLen) (fi : IFStream) (t : Str)
    (ts : List Str) (h : stream_tokens tk fi = t :: ts) :
    ∃ tk1 fi1, tk.next fi = (some t, tk1, fi1) ∧ stream_tokens tk1 fi1 = ts ∧
      tk1.re = tk.re := by
  have hs := Tokenizer.next_spec tk hre fi
  have hre1 := Tokenizer.next_re tk fi
  rcases hn : tk.next fi with ⟨_ | token, tk1, fi1⟩
  · rw [hn] at hs
    simp only at hs
    rw [hs] at h
    cases h
  · rw [hn] at hs hre1
    simp only at hs
    rw [hs] at h
    injection h with h1 h2
    subst h1
    exact ⟨tk1, fi1, rfl, h2, hre1⟩
theorem value_at_cons_succ {F : Type} (ops : FloatOps F) (t : Str) (T : List Str) (j : Nat) :
    value_at ops (t :: T) (j + 1) = value_at ops T j := by
  simp [value_at]

theorem value_at_drop {F : Type} (ops : FloatOps F) (T : List Str) (n j : Nat) :
    value_at ops (T.drop n) j = value_at ops T (n + j) := by
  simp [value_at, List.getElem?_drop]

/-- The inner loop of the handlers of `ni` and `ti` at the grid point `g`: `k` checked
reads, for the species from `ion0` on. -/
theorem read_row {F : Type} (ops : FloatOps F) (f : Field) (L : MatrixField F)
    (hL : L.lawful) (M N g : Nat) (hg : g < N) :
    ∀ (k ion0 : Nat) (st : Reader F) (T : List Str), ion0 + k ≤ M →
      0 < st.tk.re.minLen → stream_tokens st.tk st.fi = T →
      (L.get st.plasma).map List.length = List.replicate M N →
      (∀ j < k, (value_at ops T j).isSome) →
      ∃ st1, forLoop (fun ion s1 => read_float ops f
            (fun p v => L.set p (setEntry (L.get p) ion g v)) s1) k ion0 st = .ok st1 ∧
        stream_tokens st1.tk st1.fi = T.drop k ∧ st1.tk.re = st.tk.re ∧
        st1.species_identifiers = st.species_identifiers ∧
        st1.plasma = L.set st.plasma (L.get st1.plasma) ∧
        (L.get st1.plasma).map List.length = List.replicate M N ∧
        ∀ s g1, entry (L.get st1.plasma) s g1
          = if g1 = g ∧ ion0 ≤ s ∧ s < ion0 + k then value_at ops T (s - ion0)
            else entry (L.get st.plasma) s g1 := by
  obtain ⟨l1, l2, l3, l4⟩ := hL
  intro k
  induction k with
  | zero =>
    intro ion0 st T _ _ hT hm _
    refine ⟨st, rfl, by simpa using hT, rfl, rfl, (l3 _).symm, hm, ?_⟩
    intro s g1
    have : ¬ (g1 = g ∧ ion0 ≤ s ∧ s < ion0 + 0) := by omega
    rw [if_neg this]
  | succ k ih =>
    intro ion0 st T hk hre hT hm hv
    have h0 := hv 0 (by omega)
    cases T with
    | nil => simp [value_at] at h0
    | cons t T1 =>
      obtain ⟨tk1, fi1, hn, hT1, hre1⟩ := next_of_tokens st.tk hre st.fi t T1 hT
      cases hvt : ops.stod t with
      | none => simp [value_at, hvt] at h0
      | some v =>
        have hstep : read_float ops f (fun p v => L.set p (setEntry (L.get p) ion0 g v)) st
            = .ok { st with plasma := L.set st.plasma (setEntry (L.get st.plasma) ion0 g v),
                            tk := tk1, fi := fi1 } := by
          unfold read_float
          rw [hn]
          simp only [hvt]
        obtain ⟨st1, e1, e2, e3, e4, e5, e6, e7⟩ := ih (ion0 + 1)
          { st with plasma := L.set st.plasma (setEntry (L.get st.plasma) ion0 g v),
                    tk := tk1, fi := fi1 } T1 (by omega) (by rw [hre1]; exact hre) hT1
          (by rw [l1, setEntry_shape]; exact hm)
          (fun j hj => by
            have := hv (j + 1) (by omega)
            rwa [value_at_cons_succ] at this)
        refine ⟨st1, ?_, ?_, ?_, ?_, ?_, e6, ?_⟩
        · rw [forLoop, hstep]
          exact e1
        · rw [e2]; simp
        · rw [e3]; exact hre1
        · rw [e4]
        · exact e5.trans (l2 _ _ _)
        · intro s g1
          rw [e7 s g1]
          simp only [l1]
          rw [entry_setEntry N g v hg _ M ion0 hm (by omega) s g1]
          by_cases c1 : g1 = g
          · by_cases c2 : s = ion0
            · subst c1 c2
              have n1 : ¬ (g1 = g1 ∧ s + 1 ≤ s ∧ s < s + 1 + k) := by omega
              have n2 : (g1 = g1 ∧ s ≤ s ∧ s < s + (k + 1)) := by omega
              rw [if_neg n1, if_pos n2, if_pos ⟨rfl, rfl⟩]
              simp [value_at, hvt]
            · by_cases c3 : ion0 + 1 ≤ s ∧ s < ion0 + 1 + k
              · have n1 : (g1 = g ∧ ion0 + 1 ≤ s ∧ s < ion0 + 1 + k) := ⟨c1, c3⟩
                have n2 : (g1 = g ∧ ion0 ≤ s ∧ s < ion0 + (k + 1)) := ⟨c1, by omega, by omega⟩
                rw [if_pos n1, if_pos n2]
                have : s - ion0 = (s - (ion0 + 1)) + 1 := by omega
                rw [this, value_at_cons_succ]
              · have n1 : ¬ (g1 = g ∧ ion0 + 1 ≤ s ∧ s < ion0 + 1 + k) := fun h => c3 h.2
                have n2 : ¬ (g1 = g ∧ ion0 ≤ s ∧ s < ion0 + (k + 1)) := by omega
                have n3 : ¬ (s = ion0 ∧ g1 = g) := fun h => c2 h.1
                rw [if_neg n1, if_neg n2, if_neg n3]
          · have n1 : ¬ (g1 = g ∧ ion0 + 1 ≤ s ∧ s < ion0 + 1 + k) := fun h => c1 h.1
            have n2 : ¬ (g1 = g ∧ ion0 ≤ s ∧ s < ion0 + (k + 1)) := fun h => c1 h.1
            have n3 : ¬ (s = ion0 ∧ g1 = g) := fun h => c1 h.2
            rw [if_neg n1, if_neg n2, if_neg n3]
/-- The loop of the handlers of `ni` and `ti` over `k` grid points from `g0` on: at each
grid point an unchecked read of the index, then `nion` checked reads. -/
theorem read_rows {F : Type} (ops : FloatOps F) (f : Field) (L : MatrixField F)
    (hL : L.lawful) (M N : Nat) :
    ∀ (k g0 : Nat) (st : Reader F) (T : List Str), g0 + k ≤ N → st.plasma.nion = M →
      0 < st.tk.re.minLen → stream_tokens st.tk st.fi = T →
      (L.get st.plasma).map List.length = List.replicate M N →
      k * (M + 1) ≤ T.length →
      (∀ j < k, ∀ s < M, (value_at ops T (j * (M + 1) + 1 + s)).isSome) →
      ∃ st1, forLoop (fun i s =>
            forLoop (fun ion s1 => read_float ops f
                (fun p v => L.set p (setEntry (L.get p) ion i v)) s1) s.plasma.nion 0
              { s with tk := (s.tk.next s.fi).2.1, fi := (s.tk.next s.fi).2.2 }) k g0 st
          = .ok st1 ∧
        stream_tokens st1.tk st1.fi = T.drop (k * (M + 1)) ∧ st1.tk.re = st.tk.re ∧
        st1.species_identifiers = st.species_identifiers ∧
        st1.plasma = L.set st.plasma (L.get st1.plasma) ∧
        (L.get st1.plasma).map List.length = List.replicate M N ∧
        ∀ s g, entry (L.get st1.plasma) s g
          = if s < M ∧ g0 ≤ g ∧ g < g0 + k then value_at ops T ((g - g0) * (M + 1) + 1 + s)
            else entry (L.get st.plasma) s g := by
  have hL1 := hL
  obtain ⟨l1, l2, l3, l4⟩ := hL
  intro k
  induction k with
  | zero =>
    intro g0 st T _ _ _ hT hm _ _
    refine ⟨st, rfl, by simpa using hT, rfl, rfl, (l3 _).symm, hm, ?_⟩
    intro s g
    have : ¬ (s < M ∧ g0 ≤ g ∧ g < g0 + 0) := by omega
    rw [if_neg this]
  | succ k ih =>
    intro g0 st T hk hM hre hT hm hlen hv
    have hmul : (k + 1) * (M + 1) = k * (M + 1) + (M + 1) := Nat.succ_mul k (M + 1)
    cases T with
    | nil => simp only [List.length_nil] at hlen; omega
    | cons t T1 =>
      obtain ⟨tk1, fi1, hn, hT1, hre1⟩ := next_of_tokens st.tk hre st.fi t T1 hT
      obtain ⟨st2, a1, a2, a3, a4, a5, a6, a7⟩ := read_row ops f L hL1 M N g0 (by omega) M 0
        { st with tk := tk1, fi := fi1 } T1 (by omega) (by rw [hre1]; exact hre) hT1 hm
        (fun j hj => by
          have := hv 0 (by omega) j hj
          have e : 0 * (M + 1) + 1 + j = j + 1 := by omega
          rwa [e, value_at_cons_succ] at this)
      have hM2 : st2.plasma.nion = M := by rw [a5, l4]; exact hM
      simp only [List.length_cons] at hlen
      obtain ⟨st3, b1, b2, b3, b4, b5, b6, b7⟩ := ih (g0 + 1) st2 (T1.drop M) (by omega) hM2
        (by rw [a3]; rw [hre1]; exact hre) a2 a6
        (by rw [List.length_drop]; omega)
        (fun j hj s hs => by
          have := hv (j + 1) (by omega) s hs
          have e : (j + 1) * (M + 1) + 1 + s = (M + (j * (M + 1) + 1 + s)) + 1 := by
            rw [Nat.succ_mul]; omega
          rw [e, value_at_cons_succ] at this
          rwa [value_at_drop])
      refine ⟨st3, ?_, ?_, ?_, ?_, ?_, b6, ?_⟩
      · rw [forLoop]
        simp only [hn, hM]
        rw [a1]
        exact b1
      · rw [b2, List.drop_drop]
        have e : (k + 1) * (M + 1) = (M + k * (M + 1)) + 1 := by omega
        rw [e, List.drop_succ_cons]
      · rw [b3, a3]; exact hre1
      · rw [b4, a4]
      · have e := b5
        rw [a5] at e
        exact e.trans (l2 _ _ _)
      · intro s g
        rw [b7 s g, a7 s g]
        by_cases c1 : s < M ∧ g0 + 1 ≤ g ∧ g < g0 + 1 + k
        · have n2 : s < M ∧ g0 ≤ g ∧ g < g0 + (k + 1) := by omega
          rw [if_pos c1, if_pos n2, value_at_drop]
          obtain ⟨d, hd⟩ : ∃ d, g = g0 + 1 + d := ⟨g - (g0 + 1), by omega⟩
          subst hd
          have e1 : g0 + 1 + d - (g0 + 1) = d := by omega
          have e2 : g0 + 1 + d - g0 = d + 1 := by omega
          rw [e1, e2]
          have e3 : (d + 1) * (M + 1) + 1 + s = (M + (d * (M + 1) + 1 + s)) + 1 := by
            rw [Nat.succ_mul]; omega
          rw [e3, value_at_cons_succ]
        · rw [if_neg c1]
          by_cases c2 : g = g0 ∧ s < M
          · have n1 : g = g0 ∧ 0 ≤ s ∧ s < 0 + M := by omega
            have n2 : s < M ∧ g0 ≤ g ∧ g < g0 + (k + 1) := by omega
            rw [if_pos n1, if_pos n2]
            obtain ⟨rfl, _⟩ := c2
            have e : (g - g) * (M + 1) + 1 + s = (s - 0) + 1 := by simp; omega
            rw [e, value_at_cons_succ]
          · have n1 : ¬ (g = g0 ∧ 0 ≤ s ∧ s < 0 + M) := by omega
            have n2 : ¬ (s < M ∧ g0 ≤ g ∧ g < g0 + (k + 1)) := by omega
            rw [if_neg n1, if_neg n2]
theorem lawful_ni {F : Type} : (MatrixField.ni : MatrixField F).lawful :=
  ⟨fun _ _ => rfl, fun _ _ _ => rfl, fun _ => rfl, fun _ _ => rfl⟩

theorem lawful_ti {F : Type} : (MatrixField.ti : MatrixField F).lawful :=
  ⟨fun _ _ => rfl, fun _ _ _ => rfl, fun _ => rfl, fun _ _ => rfl⟩

/-- In a state of the BODY loop the tokenizer has the pattern of the numbers, and `ni` and
`ti` have `nion` rows of `nexp` entries. -/
theorem reached_shape {F : Type} (ops : FloatOps F) (negative_psi : Bool) (content : Str)
    (ids : List Str) (st : Reader F) (hr : ReachedBy ops negative_psi content ids st) :
    st.tk.re = number_re ∧
    st.plasma.ni.map List.length = List.replicate st.plasma.nion st.plasma.nexp ∧
    st.plasma.ti.map List.length = List.replicate st.plasma.nion st.plasma.nexp := by
  have hre := (read_of_reached ops negative_psi content ids st hr).1
  obtain ⟨hd, _, _, _, hreach⟩ := hr
  have hf := (reaches_follows ops negative_psi _ _ hreach).1
  simp only [body_start, shape_new] at hf
  have e1 := congrArg Shape.ni hf
  have e2 := congrArg Shape.ti hf
  have e3 := congrArg Shape.nexp hf
  have e4 := congrArg Shape.nion hf
  simp only [Plasma.shape] at e1 e2 e3 e4
  rw [e3, e4]
  exact ⟨hre, e1, e2⟩

/-- The handler of a matrix field on the tokens ahead of the tokenizer. -/
theorem fill_matrix_reads {F : Type} (ops : FloatOps F) (f : Field) (L : MatrixField F)
    (hL : L.lawful) (st : Reader F) (N M : Nat) (hN : st.plasma.nexp = N)
    (hM : st.plasma.nion = M) (hre : st.tk.re = number_re)
    (hm : (L.get st.plasma).map List.length = List.replicate M N)
    (htok : N * (M + 1) ≤ (stream_tokens st.tk st.fi).length)
    (hval : ∀ g < N, ∀ s < M,
      (value_at ops (stream_tokens st.tk st.fi) (g * (M + 1) + 1 + s)).isSome) :
    ∃ st1, fill_matrix ops f (fun ion i p v => L.set p (setEntry (L.get p) ion i v)) st
        = .ok st1 ∧
      stream_tokens st1.tk st1.fi = (stream_tokens st.tk st.fi).drop (N * (M + 1)) ∧
      st1.species_identifiers = st.species_identifiers ∧
      st1.plasma = L.set st.plasma (L.get st1.plasma) ∧
      ∀ s < M, ∀ g < N, entry (L.get st1.plasma) s g
        = value_at ops (stream_tokens st.tk st.fi) (g * (M + 1) + 1 + s) := by
  obtain ⟨st1, e1, e2, _, e4, e5, _, e7⟩ := read_rows ops f L hL M N N 0 st
    (stream_tokens st.tk st.fi) (by omega) hM (by rw [hre]; decide) rfl hm htok hval
  refine ⟨st1, ?_, e2, e4, e5, ?_⟩
  · unfold fill_matrix
    rw [hN]
    exact e1
  · intro s hs g hg
    rw [e7 s g, if_pos ⟨hs, by omega, by omega⟩]
    simp

/-- C15, amended: in a state of the BODY loop with `nexp = N` and `nion = M`, on a line
that selects `ni` (respectively `ti`) while the tokenizer has at least `N * (M + 1)`
tokens ahead (in the unread rest of its line, then on the lines after the directive
line), the tokens at the positions `g * (M + 1) + 1 + s` being converted by `std::stod`:
the round consumes exactly the next `N * (M + 1)` tokens and sets `ni(s, g)`
(respectively `ti(s, g)`) to the value of the token at the 0-based position
`g * (M + 1) + 1 + s`, for every `s < M` and `g < N`; the tokens at the positions
`g * (M + 1)` are read and dropped; nothing else changes. When the tokenizer has no token
left in its line, the tokens ahead are those of the lines after the directive line. -/
theorem matrix_handler_reads {F : Type} (ops : FloatOps F) (negative_psi : Bool)
    (content : Str) (ids : List Str) (st : Reader F) (line : Str) (rest : IFStream)
    (N M : Nat) (hr : ReachedBy ops negative_psi content ids st)
    (hfi : st.fi = line :: rest) (hN : st.plasma.nexp = N) (hM : st.plasma.nion = M)
    (htok : N * (M + 1) ≤ (stream_tokens st.tk rest).length)
    (hval : ∀ g < N, ∀ s < M,
      (value_at ops (stream_tokens st.tk rest) (g * (M + 1) + 1 + s)).isSome) :
    (classify line = some .ni →
      ∃ st1, body_step ops negative_psi line { st with fi := rest } = .ok st1 ∧
        stream_tokens st1.tk st1.fi = (stream_tokens st.tk rest).drop (N * (M + 1)) ∧
        st1.species_identifiers = st.species_identifiers ∧
        st1.plasma = { st.plasma with ni := st1.plasma.ni } ∧
        ∀ s < M, ∀ g < N, entry st1.plasma.ni s g
          = value_at ops (stream_tokens st.tk rest) (g * (M + 1) + 1 + s)) ∧
    (classify line = some .ti →
      ∃ st1, body_step ops negative_psi line { st with fi := rest } = .ok st1 ∧
        stream_tokens st1.tk st1.fi = (stream_tokens st.tk rest).drop (N * (M + 1)) ∧
        st1.species_identifiers = st.species_identifiers ∧
        st1.plasma = { st.plasma with ti := st1.plasma.ti } ∧
        ∀ s < M, ∀ g < N, entry st1.plasma.ti s g
          = value_at ops (stream_tokens st.tk rest) (g * (M + 1) + 1 + s)) ∧
    (regex_search number_re st.tk.line = none →
      stream_tokens st.tk rest = (rest.map (tokens_of number_re)).flatten) := by
  have _ := hfi
  obtain ⟨hre, hni, hti⟩ := reached_shape ops negative_psi content ids st hr
  rw [hN, hM] at hni hti
  refine ⟨?_, ?_, ?_⟩
  · intro hc
    rw [body_step_classify, hc]
    exact fill_matrix_reads ops .ni MatrixField.ni lawful_ni { st with fi := rest } N M hN hM
      hre hni htok hval
  · intro hc
    rw [body_step_classify, hc]
    exact fill_matrix_reads ops .ti MatrixField.ti lawful_ti { st with fi := rest } N M hN hM
      hre hti htok hval
  · intro hbuf
    unfold stream_tokens
    rw [hre, tokens_of_none _ _ hbuf, List.nil_append]

/-- C15, amended, on a file with `nexp = 2`, `nion = 2` and the body `1 10 20`,
`2 30 40` of a `ni` line, followed by one more number: `ni(0, 0) = 10`, `ni(1, 0) = 20`,
`ni(0, 1) = 30`, `ni(1, 1) = 40`. -/
theorem matrix_handler_reads_witness :
    ReachedBy decimalOps true "# nexp\n2\n# nion\n2\n# ni\n1 10 20\n2 30 40\n7\n".toList []
      (body_start ⟨-1, 2, 2, ⟨number_re, []⟩,
        ["# ni".toList, "1 10 20".toList, "2 30 40".toList, "7".toList, []]⟩ []) ∧
    stream_tokens ⟨number_re, []⟩ ["1 10 20".toList, "2 30 40".toList, "7".toList, []]
      = ["1".toList, "10".toList, "20".toList, "2".toList, "30".toList, "40".toList, "7".toList] ∧
    (∃ st1, body_step decimalOps true "# ni".toList
        { (body_start ⟨-1, 2, 2, ⟨number_re, []⟩,
            ["# ni".toList, "1 10 20".toList, "2 30 40".toList, "7".toList, []]⟩ []
            : Reader (Int × Int)) with
          fi := ["1 10 20".toList, "2 30 40".toList, "7".toList, []] } = .ok st1 ∧
      stream_tokens st1.tk st1.fi
        = (stream_tokens ⟨number_re, []⟩
            ["1 10 20".toList, "2 30 40".toList, "7".toList, []]).drop (2 * (2 + 1)) ∧
      st1.species_identifiers = [] ∧
      st1.plasma = { (Plasma.new (-1) 2 2 : Plasma (Int × Int)) with ni := st1.plasma.ni } ∧
      ∀ s < 2, ∀ g < 2, entry st1.plasma.ni s g
        = value_at decimalOps (stream_tokens ⟨number_re, []⟩
            ["1 10 20".toList, "2 30 40".toList, "7".toList, []]) (g * (2 + 1) + 1 + s)) ∧
    read_input_gacode decimalOps
        (some "# nexp\n2\n# nion\n2\n# ni\n1 10 20\n2 30 40\n7\n".toList) [] true
      = .returned { (Plasma.new (-1) 2 2 : Plasma (Int × Int)) with
          ni := [[some (10, 0), some (30, 0)], [some (20, 0), some (40, 0)]] } [] [] :=
  ⟨⟨_, rfl, by decide, by decide, Reaches.start _⟩, by decide,
    (matrix_handler_reads decimalOps true
      "# nexp\n2\n# nion\n2\n# ni\n1 10 20\n2 30 40\n7\n".toList []
      (body_start ⟨-1, 2, 2, ⟨number_re, []⟩,
        ["# ni".toList, "1 10 20".toList, "2 30 40".toList, "7".toList, []]⟩ [])
      "# ni".toList ["1 10 20".toList, "2 30 40".toList, "7".toList, []] 2 2
      ⟨_, rfl, by decide, by decide, Reaches.start _⟩ rfl rfl rfl (by decide) (by decide)).1
      (by decide),
    by decide⟩

/-! ### The matches of the patterns -/

theorem lang_length (r : Regex) (s s1 : Str) (h : Lang r s s1) : s1.length ≤ s.length := by
  induction h with
  | eps s => exact Nat.le_refl _
  | cls c x t h => simp
  | seq a b s s1 s2 _ _ ih1 ih2 => exact Nat.le_trans ih2 ih1
  | altL a b s s1 _ ih => exact ih
  | altR a b s s1 _ ih => exact ih
  | optSome a s s1 _ ih => exact ih
  | optNone a s => exact Nat.le_refl _
  | starNil a s => exact Nat.le_refl _
  | starCons a s s1 s2 _ _ _ ih1 ih2 => exact Nat.le_trans ih2 ih1
  | plus a s s1 s2 _ _ ih1 ih2 => exact Nat.le_trans ih2 ih1
  | eol => exact Nat.le_refl _

/-- The greedy iteration succeeds exactly when some number of rounds, each one consuming
a character at least, leads to a text on which the continuation succeeds. -/
theorem starLoop_isSome {α : Type} (a : Regex)
    (step : Str → (Str → Option α) → Option α)
    (hstep : ∀ s k, (step s k).isSome = true ↔ ∃ s1, Lang a s s1 ∧ (k s1).isSome = true) :
    ∀ (n : Nat) (s : Str) (k : Str → Option α), s.length ≤ n →
      ((starLoop step n s k).isSome = true ↔
        ∃ s1, Lang (.star a) s s1 ∧ (k s1).isSome = true) := by
  intro n
  induction n with
  | zero =>
    intro s k hn
    have hs : s = [] := List.eq_nil_of_length_eq_zero (by omega)
    subst hs
    rw [starLoop]
    constructor
    · intro h
      exact ⟨[], .starNil a [], h⟩
    · rintro ⟨s1, hl, hk⟩
      cases hl with
      | starNil => exact hk
      | starCons _ _ s2 _ _ hlt _ => simp at hlt
  | succ n ih =>
    intro s k hn
    rw [starLoop]
    have hso := hstep s (fun s1 => if s1.length < s.length then starLoop step n s1 k else none)
    generalize step s (fun s1 => if s1.length < s.length then starLoop step n s1 k else none)
      = o at hso ⊢
    refine Iff.trans (b := o.isSome = true ∨ (k s).isSome = true) (by cases o <;> simp) ?_
    rw [hso]
    constructor
    · rintro (⟨s1, hl, hk⟩ | hk)
      · by_cases hlt : s1.length < s.length
        · rw [if_pos hlt] at hk
          obtain ⟨s2, hl2, hk2⟩ := (ih s1 k (by omega)).mp hk
          exact ⟨s2, .starCons a s s1 s2 hl hlt hl2, hk2⟩
        · rw [if_neg hlt] at hk
          simp at hk
      · exact ⟨s, .starNil a s, hk⟩
    · rintro ⟨s2, hl, hk⟩
      cases hl with
      | starNil => exact Or.inr hk
      | starCons _ _ s1 _ h1 hlt h2 =>
        refine Or.inl ⟨s1, h1, ?_⟩
        rw [if_pos hlt]
        exact (ih s1 k (by omega)).mpr ⟨s2, h2, hk⟩

/-- The backtracking matcher succeeds exactly when the pattern has a match after which
the continuation succeeds. -/
theorem run_isSome {α : Type} (r : Regex) :
    ∀ (s : Str) (k : Str → Option α),
      (r.run s k).isSome = true ↔ ∃ s1, Lang r s s1 ∧ (k s1).isSome = true := by
  induction r with
  | eps =>
    intro s k
    rw [Regex.run]
    constructor
    · intro h; exact ⟨s, .eps s, h⟩
    · rintro ⟨s1, hl, hk⟩; cases hl; exact hk
  | cls c =>
    intro s k
    cases s with
    | nil =>
      rw [run_cls_nil]
      constructor
      · intro h; simp at h
      · rintro ⟨s1, hl, _⟩; cases hl
    | cons x t =>
      rw [run_cls_cons]
      constructor
      · intro h
        by_cases hc : c.test x = true
        · rw [if_pos hc] at h; exact ⟨t, .cls c x t hc, h⟩
        · rw [if_neg hc] at h; simp at h
      · rintro ⟨s1, hl, hk⟩
        cases hl with
        | cls _ _ _ hc => rw [if_pos hc]; exact hk
  | seq a b iha ihb =>
    intro s k
    rw [run_seq_eq, iha]
    constructor
    · rintro ⟨s1, hl, hk⟩
      obtain ⟨s2, hl2, hk2⟩ := (ihb s1 k).mp hk
      exact ⟨s2, .seq a b s s1 s2 hl hl2, hk2⟩
    · rintro ⟨s2, hl, hk⟩
      cases hl with
      | seq _ _ _ s1 _ h1 h2 => exact ⟨s1, h1, (ihb s1 k).mpr ⟨s2, h2, hk⟩⟩
  | alt a b iha ihb =>
    intro s k
    rw [Regex.run]
    have hso := iha s k
    generalize a.run s k = o at hso ⊢
    refine Iff.trans (b := o.isSome = true ∨ (b.run s k).isSome = true)
      (by cases o <;> simp) ?_
    rw [hso, ihb]
    constructor
    · rintro (⟨s1, hl, hk⟩ | ⟨s1, hl, hk⟩)
      · exact ⟨s1, .altL a b s s1 hl, hk⟩
      · exact ⟨s1, .altR a b s s1 hl, hk⟩
    · rintro ⟨s1, hl, hk⟩
      cases hl with
      | altL _ _ _ _ h => exact Or.inl ⟨s1, h, hk⟩
      | altR _ _ _ _ h => exact Or.inr ⟨s1, h, hk⟩
  | opt a iha =>
    intro s k
    rw [run_opt_eq]
    have hso := iha s k
    generalize a.run s k = o at hso ⊢
    refine Iff.trans (b := o.isSome = true ∨ (k s).isSome = true) (by cases o <;> simp) ?_
    rw [hso]
    constructor
    · rintro (⟨s1, hl, hk⟩ | hk)
      · exact ⟨s1, .optSome a s s1 hl, hk⟩
      · exact ⟨s, .optNone a s, hk⟩
    · rintro ⟨s1, hl, hk⟩
      cases hl with
      | optSome _ _ _ h => exact Or.inl ⟨s1, h, hk⟩
      | optNone => exact Or.inr hk
  | star a iha =>
    intro s k
    rw [Regex.run]
    exact starLoop_isSome a _ (fun s1 k1 => iha s1 k1) s.length s k (Nat.le_refl _)
  | plus a iha =>
    intro s k
    rw [Regex.run, iha]
    constructor
    · rintro ⟨s1, hl, hk⟩
      obtain ⟨s2, hl2, hk2⟩ :=
        (starLoop_isSome a _ (fun s1 k1 => iha s1 k1) s1.length s1 k (Nat.le_refl _)).mp hk
      exact ⟨s2, .plus a s s1 s2 hl hl2, hk2⟩
    · rintro ⟨s2, hl, hk⟩
      cases hl with
      | plus _ _ s1 _ h1 h2 =>
        exact ⟨s1, h1,
          (starLoop_isSome a _ (fun s1 k1 => iha s1 k1) s1.length s1 k (Nat.le_refl _)).mpr
            ⟨s2, h2, hk⟩⟩
  | eol =>
    intro s k
    rw [Regex.run]
    constructor
    · intro h
      cases s with
      | nil => exact ⟨[], .eol, by simpa using h⟩
      | cons x t => simp at h
    · rintro ⟨s1, hl, hk⟩
      cases hl
      simpa using hk

/-- A line matches a pattern as a whole exactly when the pattern has a match that leaves
nothing. -/
theorem regex_match_iff (line : Str) (re : Regex) :
    regex_match line re = true ↔ Lang re line [] := by
  unfold regex_match
  rw [run_isSome]
  constructor
  · rintro ⟨s1, hl, hk⟩
    cases s1 with
    | nil => exact hl
    | cons x t => simp [atEnd] at hk
  · intro h
    exact ⟨[], h, by simp [atEnd]⟩
theorem lang_star_cls (c : CharClass) (s s1 : Str) :
    Lang (.star (.cls c)) s s1 ↔ ∃ ds, s = ds ++ s1 ∧ ∀ d ∈ ds, c.test d = true := by
  constructor
  · intro h
    generalize hr : Regex.star (.cls c) = r at h
    induction h with
    | starNil a s => exact ⟨[], rfl, by simp⟩
    | starCons a s s1 s2 h1 _ _ _ ih2 =>
      injection hr with hr
      subst hr
      obtain ⟨ds, e, hds⟩ := ih2 rfl
      cases h1 with
      | cls _ x _ hx =>
        refine ⟨x :: ds, by rw [e]; rfl, ?_⟩
        intro d hd
        rcases List.mem_cons.mp hd with rfl | hd
        · exact hx
        · exact hds d hd
    | _ => cases hr
  · rintro ⟨ds, e, hds⟩
    subst e
    induction ds with
    | nil => exact .starNil _ _
    | cons d ds ih =>
      exact .starCons _ _ _ _ (.cls c d (ds ++ s1) (hds d (by simp))) (by simp)
        (ih (fun x hx => hds x (by simp [hx])))

theorem lang_plus_cls (c : CharClass) (s s1 : Str) :
    Lang (.plus (.cls c)) s s1 ↔
      ∃ d ds, s = d :: (ds ++ s1) ∧ c.test d = true ∧ ∀ x ∈ ds, c.test x = true := by
  constructor
  · intro h
    cases h with
    | plus _ _ s2 _ h1 h2 =>
      cases h1 with
      | cls _ x _ hx =>
        obtain ⟨ds, e, hds⟩ := (lang_star_cls c _ _).mp h2
        exact ⟨x, ds, by rw [e], hx, hds⟩
  · rintro ⟨d, ds, e, hd, hds⟩
    subst e
    exact .plus _ _ _ _ (.cls c d _ hd) ((lang_star_cls c _ _).mpr ⟨ds, rfl, hds⟩)
theorem space_not_letter (c : Char) (h : isspace c = true) : isLetter c = false := by
  simp only [isspace, Bool.and_eq_true, Bool.or_eq_true, decide_eq_true_eq] at h
  simp only [isLetter, Bool.or_eq_false_iff, Bool.and_eq_false_iff, decide_eq_false_iff_not]
  omega

theorem next_none_state : ∀ (fi : IFStream) (tk tk1 : Tokenizer) (fi1 : IFStream),
    tk.next fi = (none, tk1, fi1) → tk1.line = [] ∧ fi1 = [] := by
  intro fi
  induction fi with
  | nil =>
    intro tk tk1 fi1 h
    unfold Tokenizer.next at h
    cases hs : regex_search tk.re tk.line with
    | none =>
      rw [hs] at h
      simp only [Prod.mk.injEq, true_and] at h
      obtain ⟨e1, e2⟩ := h
      subst e1 e2
      exact ⟨rfl, rfl⟩
    | some r =>
      obtain ⟨token, suffix⟩ := r
      rw [hs] at h
      simp at h
  | cons l ls ih =>
    intro tk tk1 fi1 h
    unfold Tokenizer.next at h
    cases hs : regex_search tk.re tk.line with
    | none =>
      rw [hs] at h
      exact ih _ _ _ h
    | some r =>
      obtain ⟨token, suffix⟩ := r
      rw [hs] at h
      simp at h

theorem delivers_of_tokens : ∀ (ts : List Str) (tk : Tokenizer) (fi : IFStream)
    (more : List Str), 0 < tk.re.minLen → stream_tokens tk fi = ts ++ more →
    ∃ tk2 fi2, Delivers tk fi ts tk2 fi2 ∧ stream_tokens tk2 fi2 = more ∧ tk2.re = tk.re := by
  intro ts
  induction ts with
  | nil =>
    intro tk fi more _ h
    exact ⟨tk, fi, .done tk fi, by simpa using h, rfl⟩
  | cons t ts ih =>
    intro tk fi more hre h
    obtain ⟨tk1, fi1, hn, hT, hre1⟩ := next_of_tokens tk hre fi t (ts ++ more) h
    obtain ⟨tk2, fi2, hd, hm, hre2⟩ := ih tk1 fi1 more (by rw [hre1]; exact hre) hT
    exact ⟨tk2, fi2, .step tk fi t tk1 fi1 ts tk2 fi2 hn hd, hm, hre2.trans hre1⟩

theorem converts_of_isSome {F : Type} (ops : FloatOps F) :
    ∀ (ts : List Str), (∀ t ∈ ts, (ops.stod t).isSome) → ∃ vs, Converts ops ts vs := by
  intro ts
  induction ts with
  | nil => intro _; exact ⟨[], .nil⟩
  | cons t ts ih =>
    intro h
    obtain ⟨vs, hvs⟩ := ih (fun x hx => h x (List.mem_cons_of_mem _ hx))
    obtain ⟨v, hv⟩ := Option.isSome_iff_exists.mp (h t (List.mem_cons_self _ _))
    exact ⟨v :: vs, .cons hv hvs⟩

theorem storeAll_nion {F : Type} (store : Nat → Plasma F → F → Plasma F)
    (hstore : ∀ i p v, (store i p v).nion = p.nion) :
    ∀ (vs : List F) (i : Nat) (p : Plasma F), (storeAll store i vs p).nion = p.nion := by
  intro vs
  induction vs with
  | nil => intro i p; rfl
  | cons v vs ih =>
    intro i p
    rw [storeAll, ih, hstore]

/-- The loop of the handlers of `ni` and `ti` with at least one species and fewer than
`k * (nion + 1)` tokens ahead, for `k` grid points: the handler fails. -/
theorem fill_matrix_short {F : Type} (ops : FloatOps F) (f : Field)
    (store : Nat → Nat → Plasma F → F → Plasma F)
    (hstore : ∀ ion i p v, (store ion i p v).nion = p.nion) (M : Nat) (hM : 0 < M) :
    ∀ (k g0 : Nat) (st : Reader F), st.plasma.nion = M → 0 < st.tk.re.minLen →
      (stream_tokens st.tk st.fi).length < k * (M + 1) →
      (∀ t ∈ stream_tokens st.tk st.fi, (ops.stod t).isSome) →
      forLoop (fun i s =>
          forLoop (fun ion s1 => read_float ops f (store ion i) s1) s.plasma.nion 0
            { s with tk := (s.tk.next s.fi).2.1, fi := (s.tk.next s.fi).2.2 }) k g0 st
        = .error (.fail f) := by
  intro k
  induction k with
  | zero => intro g0 st _ _ h; simp at h
  | succ k ih =>
    intro g0 st hn hre hlen hstod
    rw [forLoop]
    simp only [hn]
    cases hT : stream_tokens st.tk st.fi with
    | nil =>
      have spec := Tokenizer.next_spec st.tk hre st.fi
      have hre1 := Tokenizer.next_re st.tk st.fi
      rcases hnx : st.tk.next st.fi with ⟨_ | t, tk1, fi1⟩
      · obtain ⟨e1, e2⟩ := next_none_state _ _ _ _ hnx
        rw [hnx] at hre1
        simp only at hre1 ⊢
        rw [fill_loop_short ops f (fun ion => store ion g0) M 0
          { st with tk := tk1, fi := fi1 } (by simp only; rw [hre1]; exact hre)
          (by simp only [stream_tokens, e1, e2]; simpa [tokens_of, matches_in] using hM)
          (by simp only [stream_tokens, e1, e2]; simp [tokens_of, matches_in])]
      · rw [hnx] at spec
        simp only at spec
        rw [hT] at spec
        cases spec
    | cons t T1 =>
      obtain ⟨tk1, fi1, hnx, hT1, hre1⟩ := next_of_tokens st.tk hre st.fi t T1 hT
      rw [hT] at hlen hstod
      simp only [hnx]
      by_cases hc : T1.length < M
      · rw [fill_loop_short ops f (fun ion => store ion g0) M 0
          { st with tk := tk1, fi := fi1 } (by simp only; rw [hre1]; exact hre)
          (by simp only; rw [hT1]; exact hc)
          (by simp only; rw [hT1]; exact fun x hx => hstod x (List.mem_cons_of_mem _ hx))]
      · have hsplit : stream_tokens tk1 fi1 = T1.take M ++ T1.drop M := by
          rw [hT1, List.take_append_drop]
        obtain ⟨tk2, fi2, hd, hm, hre2⟩ := delivers_of_tokens (T1.take M) tk1 fi1 (T1.drop M)
          (by rw [hre1]; exact hre) hsplit
        obtain ⟨vs, hvs⟩ := converts_of_isSome ops (T1.take M)
          (fun x hx => hstod x (List.mem_cons_of_mem _ (List.mem_of_mem_take hx)))
        have hlenM : (T1.take M).length = M := by
          rw [List.length_take]; omega
        have hrow := read_floats_delivered ops f (fun ion => store ion g0) (T1.take M) vs 0
          { st with tk := tk1, fi := fi1 } tk2 fi2 hd hvs
        rw [hlenM] at hrow
        rw [hrow]
        simp only
        apply ih
        · simp only
          rw [storeAll_nion _ (fun i p v => hstore i g0 p v)]
          exact hn
        · simp only; rw [hre2, hre1]; exact hre
        · simp only
          rw [hm, List.length_drop]
          simp only [List.length_cons] at hlen
          rw [Nat.succ_mul] at hlen
          omega
        · simp only
          rw [hm]
          exact fun x hx => hstod x (List.mem_cons_of_mem _ (List.mem_of_mem_drop hx))

/-- With at least one species, a `ni` or `ti` line reached while the tokenizer has fewer
than `nexp * (nion + 1)` tokens ahead, all of them converted by `std::stod`, makes the
call write the message of the directive and return the sentinel container. -/
theorem matrix_shortage_fails {F : Type} (ops : FloatOps F) (negative_psi : Bool)
    (content : Str) (ids : List Str) (st : Reader F) (line : Str) (rest : IFStream)
    (d : Directive) (f : Field) (hd : (d = .ni ∧ f = .ni) ∨ (d = .ti ∧ f = .ti))
    (hr : ReachedBy ops negative_psi content ids st)
    (hfi : st.fi = line :: rest) (hsel : classify line = some d) (hM : 0 < st.plasma.nion)
    (hshort : (stream_tokens st.tk rest).length < st.plasma.nexp * (st.plasma.nion + 1))
    (hstod : ∀ t ∈ stream_tokens st.tk rest, (ops.stod t).isSome) :
    read_input_gacode ops (some content) ids negative_psi
      = .returned sentinel st.species_identifiers [.invalid_line f] := by
  obtain ⟨hre, hread⟩ := read_of_reached ops negative_psi content ids st hr
  rw [hread]
  have hstep : body_step ops negative_psi line { st with fi := rest } = .error (.fail f) := by
    rw [body_step_classify, hsel]
    rcases hd with ⟨rfl, rfl⟩ | ⟨rfl, rfl⟩
    · exact fill_matrix_short ops .ni (fun ion i p v => { p with ni := setEntry p.ni ion i v })
        (fun _ _ _ _ => rfl) st.plasma.nion hM st.plasma.nexp 0 { st with fi := rest } rfl
        (by simp only; rw [hre]; decide) hshort hstod
    · exact fill_matrix_short ops .ti (fun ion i p v => { p with ti := setEntry p.ti ion i v })
        (fun _ _ _ _ => rfl) st.plasma.nion hM st.plasma.nexp 0 { st with fi := rest } rfl
        (by simp only; rw [hre]; decide) hshort hstod
  simp only [body_loop, hfi, hstep]

/-- C17: with `nion = 0` the handlers of `ni` and `ti` read nothing but the index of each
grid point, unchecked. On the files `# nion`, `0`, `# nexp`, `1`, `# ni` and `# nion`,
`0`, `# nexp`, `1`, `# ti` no token follows the directive line where one is required, and
the call returns the container of the sizes `1` and `0` without a message. The handler of
`ne`, which checks the read of the index, fails on the same file with a `ne` line. -/
theorem index_shortage_unnoticed :
    read_input_gacode decimalOps (some "# nion\n0\n# nexp\n1\n# ni\n".toList) [] true
      = .returned (Plasma.new (-1) 1 0) [] [] ∧
    read_input_gacode decimalOps (some "# nion\n0\n# nexp\n1\n# ti\n".toList) [] true
      = .returned (Plasma.new (-1) 1 0) [] [] ∧
    read_input_gacode decimalOps (some "# nion\n0\n# nexp\n1\n# ne\n".toList) [] true
      = .returned sentinel [] [.invalid_line .ne] := by
  refine ⟨by decide, by decide, by decide⟩

/-! ### The order of the declarations in the header -/

theorem header_skip_all (j : List Str) (hj : ∀ l ∈ j, is_inert_line l = true) :
    ∀ (n : Nat) (h : Header) (rest : IFStream), (h.nexp = -1 ∨ h.nion = -1) →
      h.fi = j ++ rest →
      header_loop (n + j.length) h = header_loop n { h with fi := rest } := by
  induction j with
  | nil =>
    intro n h rest _ hfi
    simp only [List.nil_append] at hfi
    simp only [List.length_nil, Nat.add_zero]
    rw [← hfi]
  | cons l j ih =>
    intro n h rest hc hfi
    have hl := hj l (List.mem_cons_self _ _)
    simp only [is_inert_line, Bool.and_eq_true, Bool.not_eq_true'] at hl
    obtain ⟨⟨⟨h1, h2⟩, h3⟩, _⟩ := hl
    have e : n + (l :: j).length = (n + j.length) + 1 := by simp; omega
    rw [e, header_skip (n + j.length) h l (j ++ rest) hfi hc h1 h2 h3]
    exact ih (fun x hx => hj x (List.mem_cons_of_mem _ hx)) n { h with fi := j ++ rest } rest hc
      rfl

theorem next_fetch (re : Regex) (b l : Str) (hb : regex_search re b = none)
    (fi : IFStream) :
    Tokenizer.next { re := re, line := b } (l :: fi) = Tokenizer.next { re := re, line := l } fi := by
  rw [Tokenizer.next]
  simp only [hb]

theorem next_found (re : Regex) (b d suf : Str) (hb : regex_search re b = some (d, suf))
    (fi : IFStream) :
    Tokenizer.next { re := re, line := b } fi = (some d, { re := re, line := suf }, fi) := by
  cases fi with
  | nil => rw [Tokenizer.next]; simp only [hb]
  | cons l ls => rw [Tokenizer.next]; simp only [hb]

/-- The tokenizer passes over lines without token and takes the first token of the next
line. -/
theorem next_skip_all (j : List Str) (hj : ∀ l ∈ j, is_inert_line l = true) :
    ∀ (b t d suf : Str) (rest : IFStream), regex_search number_re b = none →
      regex_search number_re t = some (d, suf) →
      Tokenizer.next { re := number_re, line := b } (j ++ t :: rest)
        = (some d, { re := number_re, line := suf }, rest) := by
  induction j with
  | nil =>
    intro b t d suf rest hb ht
    rw [List.nil_append, next_fetch number_re b t hb, next_found number_re t d suf ht]
  | cons l j ih =>
    intro b t d suf rest hb ht
    have hl := hj l (List.mem_cons_self _ _)
    simp only [is_inert_line, Bool.and_eq_true, Option.isNone_iff_eq_none] at hl
    rw [List.cons_append, next_fetch number_re b l hb]
    exact ih (fun x hx => hj x (List.mem_cons_of_mem _ hx)) l t d suf rest hl.2 ht

theorem search_spaces (w : Str) (hw : ∀ c ∈ w, isspace c = true) :
    regex_search number_re w = none := by
  induction w with
  | nil => decide
  | cons c w ih =>
    rw [search_space c w (hw c (List.mem_cons_self _ _))]
    exact ih (fun x hx => hw x (List.mem_cons_of_mem _ hx))

theorem search_token_line (w d w1 : Str) (hw : ∀ c ∈ w, isspace c = true)
    (hd : isDigits d = true) (hw1 : ∀ c ∈ w1, isspace c = true) :
    regex_search number_re (token_line w d w1) = some (d, w1) := by
  unfold token_line
  induction w with
  | nil =>
    have hsep : Sep w1 := by
      cases w1 with
      | nil => exact Or.inl rfl
      | cons c t => exact Or.inr ⟨c, t, rfl, hw1 c (List.mem_cons_self _ _)⟩
    have hwf : (⟨[], d, none, none⟩ : Numeral).wf = true := by
      simp only [isDigits, Bool.and_eq_true, Bool.not_eq_true'] at hd
      simp [Numeral.wf, isSign, hd.1, hd.2]
    have := search_numeral ⟨[], d, none, none⟩ hwf w1 (sep_startsOut _ hsep)
    simpa [Numeral.text, Numeral.fracText, Numeral.expText] using this
  | cons c w ih =>
    rw [List.cons_append, search_space c _ (hw c (List.mem_cons_self _ _))]
    exact ih (fun x hx => hw x (List.mem_cons_of_mem _ hx))

theorem stoul_digits (d : Str) (hd : isDigits d = true) (h64 : decValue d < 2 ^ 64) :
    stoul d = some (decValue d) := by
  obtain ⟨d0, ds, e, h0, hds⟩ := isDigits_cases d hd
  have hs0 := digit_chars d0 h0
  have hsplit : splitSign d = (false, d) := by
    subst e
    unfold splitSign
    split
    · rename_i t heq
      injection heq with h1 _
      exact absurd h1 hs0.2.2.1
    · rename_i t heq
      injection heq with h1 _
      exact absurd h1 hs0.2.1
    · rfl
  have hall : d.takeWhile isdigit = d := by
    rw [List.takeWhile_eq_self_iff]
    subst e
    intro x hx
    rcases List.mem_cons.mp hx with rfl | hx
    · exact h0
    · exact hds x hx
  have hne : d.isEmpty = false := by subst e; rfl
  unfold stoul
  simp only [hsplit, hall, hne, Bool.false_eq_true, if_false]
  rw [if_neg (by omega)]
theorem header_decl_append (l : Str) (j : List Str) (t : Str) (rest : IFStream) :
    header_decl l j t ++ rest = l :: (j ++ t :: rest) := by
  simp [header_decl]

/-- A round of the HEADER loop on a `nion` line: the tokenizer passes over the lines
without token and takes the decimal token of the next line. -/
theorem header_decl_nion (n : Nat) (shot nexp nion : Int) (b l : Str) (j : List Str)
    (w d w1 : Str) (rest : IFStream) (hc : nexp = -1 ∨ nion = -1)
    (hb : regex_search number_re b = none) (hl : is_nion_line l = true)
    (hj : ∀ x ∈ j, is_inert_line x = true) (hw : ∀ c ∈ w, isspace c = true)
    (hd : isDigits d = true) (hw1 : ∀ c ∈ w1, isspace c = true) (h31 : decValue d < 2 ^ 31) :
    header_loop (n + 1) ⟨shot, nexp, nion, ⟨number_re, b⟩, l :: (j ++ token_line w d w1 :: rest)⟩
      = header_loop n ⟨shot, nexp, (decValue d : Nat), ⟨number_re, w1⟩, rest⟩ := by
  simp only [is_nion_line, Bool.and_eq_true, Bool.not_eq_true'] at hl
  rw [header_loop]
  simp only [hc, if_true, hl.1, hl.2, Bool.false_eq_true, if_false,
    next_skip_all j hj b _ d w1 rest hb (search_token_line w d w1 hw hd hw1),
    stoul_digits d hd (by omega), toInt32_of_lt _ h31]

/-- A round of the HEADER loop on a `nexp` line. -/
theorem header_decl_nexp (n : Nat) (shot nexp nion : Int) (b l : Str) (j : List Str)
    (w d w1 : Str) (rest : IFStream) (hc : nexp = -1 ∨ nion = -1)
    (hb : regex_search number_re b = none) (hl : is_nexp_line l = true)
    (hj : ∀ x ∈ j, is_inert_line x = true) (hw : ∀ c ∈ w, isspace c = true)
    (hd : isDigits d = true) (hw1 : ∀ c ∈ w1, isspace c = true) (h31 : decValue d < 2 ^ 31) :
    header_loop (n + 1) ⟨shot, nexp, nion, ⟨number_re, b⟩, l :: (j ++ token_line w d w1 :: rest)⟩
      = header_loop n ⟨shot, (decValue d : Nat), nion, ⟨number_re, w1⟩, rest⟩ := by
  simp only [is_nexp_line, Bool.and_eq_true, Bool.not_eq_true'] at hl
  rw [header_loop]
  simp only [hc, if_true, hl.1.1, hl.1.2, hl.2, Bool.false_eq_true, if_false,
    next_skip_all j hj b _ d w1 rest hb (search_token_line w d w1 hw hd hw1),
    stoul_digits d hd (by omega), toInt32_of_lt _ h31]

theorem header_done (n : Nat) (shot : Int) (N M : Nat) (tk : Tokenizer) (fi : IFStream) :
    header_loop (n + 1) ⟨shot, N, M, tk, fi⟩ = .ok ⟨shot, N, M, tk, fi⟩ := by
  rw [header_loop]
  have : ¬ ((N : Int) = -1 ∨ (M : Int) = -1) := by omega
  simp only [this, if_false]

/-- The HEADER loop on a header with two declarations: the first declaration sets one
size, the second the other, and the loop ends after the line of the second token. -/
theorem header_two_decls (j1 j2 j3 j4 rest : List Str) (l1 l2 w1 d1 v1 w2 d2 v2 : Str)
    (hj1 : ∀ x ∈ j1, is_inert_line x = true) (hj2 : ∀ x ∈ j2, is_inert_line x = true)
    (hj3 : ∀ x ∈ j3, is_inert_line x = true) (hj4 : ∀ x ∈ j4, is_inert_line x = true)
    (hw1 : ∀ c ∈ w1, isspace c = true) (hd1 : isDigits d1 = true)
    (hv1 : ∀ c ∈ v1, isspace c = true) (h1 : decValue d1 < 2 ^ 31)
    (hw2 : ∀ c ∈ w2, isspace c = true) (hd2 : isDigits d2 = true)
    (hv2 : ∀ c ∈ v2, isspace c = true) (h2 : decValue d2 < 2 ^ 31) (m : Nat)
    (hm : (j1 ++ (header_decl l1 j2 (token_line w1 d1 v1) ++
      (j3 ++ (header_decl l2 j4 (token_line w2 d2 v2) ++ rest)))).length < m) :
    (is_nion_line l1 = true → is_nexp_line l2 = true →
      header_loop m (header_start (j1 ++ (header_decl l1 j2 (token_line w1 d1 v1) ++
        (j3 ++ (header_decl l2 j4 (token_line w2 d2 v2) ++ rest)))))
        = .ok ⟨-1, (decValue d2 : Nat), (decValue d1 : Nat), ⟨number_re, v2⟩, rest⟩) ∧
    (is_nexp_line l1 = true → is_nion_line l2 = true →
      header_loop m (header_start (j1 ++ (header_decl l1 j2 (token_line w1 d1 v1) ++
        (j3 ++ (header_decl l2 j4 (token_line w2 d2 v2) ++ rest)))))
        = .ok ⟨-1, (decValue d1 : Nat), (decValue d2 : Nat), ⟨number_re, v2⟩, rest⟩) := by
  have hnil : regex_search number_re [] = none := by decide
  constructor
  · intro hl1 hl2
    refine header_loop_more (0 + 1 + 1 + j3.length + 1 + j1.length) _ _ ?_ m hm
    rw [header_skip_all j1 hj1 _ (header_start _) _ (Or.inl rfl) rfl]
    show header_loop (0 + 1 + 1 + j3.length + 1) ⟨-1, -1, -1, ⟨number_re, []⟩,
      header_decl l1 j2 (token_line w1 d1 v1) ++
        (j3 ++ (header_decl l2 j4 (token_line w2 d2 v2) ++ rest))⟩ = _
    rw [header_decl_append, header_decl_nion _ _ _ _ _ _ _ _ _ _ _ (Or.inl rfl) hnil hl1 hj2 hw1
      hd1 hv1 h1]
    rw [header_skip_all j3 hj3 _ _ _ (Or.inl rfl) rfl]
    show header_loop (0 + 1 + 1) ⟨-1, -1, (decValue d1 : Nat), ⟨number_re, v1⟩,
      header_decl l2 j4 (token_line w2 d2 v2) ++ rest⟩ = _
    rw [header_decl_append, header_decl_nexp _ _ _ _ _ _ _ _ _ _ _ (Or.inl rfl)
      (search_spaces v1 hv1) hl2 hj4 hw2 hd2 hv2 h2, header_done]
  · intro hl1 hl2
    refine header_loop_more (0 + 1 + 1 + j3.length + 1 + j1.length) _ _ ?_ m hm
    rw [header_skip_all j1 hj1 _ (header_start _) _ (Or.inl rfl) rfl]
    show header_loop (0 + 1 + 1 + j3.length + 1) ⟨-1, -1, -1, ⟨number_re, []⟩,
      header_decl l1 j2 (token_line w1 d1 v1) ++
        (j3 ++ (header_decl l2 j4 (token_line w2 d2 v2) ++ rest))⟩ = _
    rw [header_decl_append, header_decl_nexp _ _ _ _ _ _ _ _ _ _ _ (Or.inl rfl) hnil hl1 hj2 hw1
      hd1 hv1 h1]
    rw [header_skip_all j3 hj3 _ _ _ (Or.inr rfl) rfl]
    show header_loop (0 + 1 + 1) ⟨-1, (decValue d1 : Nat), -1, ⟨number_re, v1⟩,
      header_decl l2 j4 (token_line w2 d2 v2) ++ rest⟩ = _
    rw [header_decl_append, header_decl_nion _ _ _ _ _ _ _ _ _ _ _ (Or.inr rfl)
      (search_spaces v1 hv1) hl2 hj4 hw2 hd2 hv2 h2, header_done]
/-- C18: a header that declares `nion = M` and `nexp = N`, both below `2^31`, each by its
directive line followed by the line of its decimal token, in either order, with any
number of lines that match no pattern of the HEADER loop and hold no token before,
between and inside the declarations: the HEADER loop ends right after the line of the
second token with `nion = M` and `nexp = N`, and the BODY loop starts on the lines that
follow, with a container of these sizes. -/
theorem header_order_independent {F : Type} (ops : FloatOps F) (negative_psi : Bool)
    (content : Str) (ids : List Str) (j1 j2 j3 j4 rest : List Str)
    (lM lN wM dM vM wN dN vN : Str) (M N : Nat)
    (hj1 : ∀ x ∈ j1, is_inert_line x = true) (hj2 : ∀ x ∈ j2, is_inert_line x = true)
    (hj3 : ∀ x ∈ j3, is_inert_line x = true) (hj4 : ∀ x ∈ j4, is_inert_line x = true)
    (hlM : is_nion_line lM = true) (hlN : is_nexp_line lN = true)
    (hwM : ∀ c ∈ wM, isspace c = true) (hdM : isDigits dM = true)
    (hvM : ∀ c ∈ vM, isspace c = true) (hM : decValue dM = M) (hM31 : M < 2 ^ 31)
    (hwN : ∀ c ∈ wN, isspace c = true) (hdN : isDigits dN = true)
    (hvN : ∀ c ∈ vN, isspace c = true) (hN : decValue dN = N) (hN31 : N < 2 ^ 31) :
    (getlines content [] = j1 ++ (header_decl lM j2 (token_line wM dM vM) ++
        (j3 ++ (header_decl lN j4 (token_line wN dN vN) ++ rest))) →
      header_loop ((getlines content []).length + 1) (header_start (getlines content []))
        = .ok ⟨-1, N, M, ⟨number_re, vN⟩, rest⟩ ∧
      (body_start ⟨-1, N, M, ⟨number_re, vN⟩, rest⟩ ids : Reader F)
        = ⟨Plasma.new (-1) N M, ids, ⟨number_re, vN⟩, rest⟩ ∧
      ReachedBy ops negative_psi content ids ⟨Plasma.new (-1) N M, ids, ⟨number_re, vN⟩, rest⟩) ∧
    (getlines content [] = j1 ++ (header_decl lN j2 (token_line wN dN vN) ++
        (j3 ++ (header_decl lM j4 (token_line wM dM vM) ++ rest))) →
      header_loop ((getlines content []).length + 1) (header_start (getlines content []))
        = .ok ⟨-1, N, M, ⟨number_re, vM⟩, rest⟩ ∧
      (body_start ⟨-1, N, M, ⟨number_re, vM⟩, rest⟩ ids : Reader F)
        = ⟨Plasma.new (-1) N M, ids, ⟨number_re, vM⟩, rest⟩ ∧
      ReachedBy ops negative_psi content ids ⟨Plasma.new (-1) N M, ids, ⟨number_re, vM⟩, rest⟩) := by
  subst hM hN
  have hstart : ∀ (v : Str), (body_start ⟨-1, (decValue dN : Nat), (decValue dM : Nat),
      ⟨number_re, v⟩, rest⟩ ids : Reader F)
        = ⟨Plasma.new (-1) (decValue dN) (decValue dM), ids, ⟨number_re, v⟩, rest⟩ := by
    intro v
    simp only [body_start, toSizeT_natCast _ hM31, toSizeT_natCast _ hN31]
  constructor
  · intro hlines
    have hh := (header_two_decls j1 j2 j3 j4 rest lM lN wM dM vM wN dN vN hj1 hj2 hj3 hj4 hwM
      hdM hvM hM31 hwN hdN hvN hN31 ((getlines content []).length + 1)
      (by rw [hlines]; omega)).1 hlM hlN
    rw [← hlines] at hh
    refine ⟨hh, hstart vN, ⟨_, hh, natCast_ne_neg_one _, natCast_ne_neg_one _, ?_⟩⟩
    rw [hstart vN]
    exact Reaches.start _
  · intro hlines
    have hh := (header_two_decls j1 j2 j3 j4 rest lN lM wN dN vN wM dM vM hj1 hj2 hj3 hj4 hwN
      hdN hvN hN31 hwM hdM hvM hM31 ((getlines content []).length + 1)
      (by rw [hlines]; omega)).2 hlN hlM
    rw [← hlines] at hh
    refine ⟨hh, hstart vM, ⟨_, hh, natCast_ne_neg_one _, natCast_ne_neg_one _, ?_⟩⟩
    rw [hstart vM]
    exact Reaches.start _

/-- C18, on a header with `nexp` declared before `nion`, comment lines, an empty line
between the `nexp` line and its token, and white space around the tokens. -/
theorem header_order_independent_witness :
    getlines "#  header comment\n# nexp\n\n  3\n# junk\n# nion\n 2 \n# name\nD C\n".toList []
      = ["#  header comment".toList] ++ (header_decl "# nexp".toList [[]]
          (token_line "  ".toList "3".toList []) ++
        (["# junk".toList] ++ (header_decl "# nion".toList []
          (token_line " ".toList "2".toList " ".toList) ++
          ["# name".toList, "D C".toList, []]))) ∧
    header_loop ((getlines
        "#  header comment\n# nexp\n\n  3\n# junk\n# nion\n 2 \n# name\nD C\n".toList []).length + 1)
      (header_start (getlines
        "#  header comment\n# nexp\n\n  3\n# junk\n# nion\n 2 \n# name\nD C\n".toList []))
      = .ok ⟨-1, (3 : Nat), (2 : Nat), ⟨number_re, " ".toList⟩,
          ["# name".toList, "D C".toList, []]⟩ :=
  ⟨by decide,
    ((header_order_independent decimalOps true
      "#  header comment\n# nexp\n\n  3\n# junk\n# nion\n 2 \n# name\nD C\n".toList []
      ["#  header comment".toList] [[]] ["# junk".toList] [] ["# name".toList, "D C".toList, []]
      "# nion".toList "# nexp".toList " ".toList "2".toList " ".toList
      "  ".toList "3".toList [] 2 3
      (by decide) (by decide) (by decide) (by decide) (by decide) (by decide)
      (by decide) (by decide) (by decide) (by decide) (by decide)
      (by decide) (by decide) (by decide) (by decide) (by decide)).2 (by decide)).1⟩

/-! ### The conversions of the header handlers on the tokens of the grammar -/

theorem lang_opt_inv (a : Regex) (s s1 : Str) (h : Lang (.opt a) s s1) :
    Lang a s s1 ∨ s = s1 := by
  cases h with
  | optSome _ _ _ h => exact Or.inl h
  | optNone => exact Or.inr rfl

theorem lang_sign (s s1 : Str) (h : Lang (.opt (.cls (.set ['+', '-']))) s s1) :
    ∃ sg, s = sg ++ s1 ∧ isSign sg = true := by
  rcases lang_opt_inv _ _ _ h with h | h
  · cases h with
    | cls _ x _ hx =>
      have hm := (set_test_eq _ _).mp hx
      simp only [List.mem_cons, List.mem_singleton, List.not_mem_nil, or_false] at hm
      rcases hm with rfl | rfl
      · exact ⟨['+'], rfl, by decide⟩
      · exact ⟨['-'], rfl, by decide⟩
  · exact ⟨[], by simpa using h, by decide⟩

theorem isDigits_cons (d : Char) (ds : Str) (hd : isdigit d = true)
    (hds : ∀ x ∈ ds, isdigit x = true) : isDigits (d :: ds) = true := by
  simp only [isDigits, List.isEmpty_cons, Bool.not_false, List.all_cons, hd, Bool.true_and,
    List.all_eq_true]
  exact hds

/-- Every text that the pattern of the numbers matches as a whole is the text of a
numeral of the grammar. -/
theorem number_lang_numeral (s : Str) (h : Lang number_re s []) :
    ∃ t : Numeral, t.wf = true ∧ t.text = s := by
  have h0 : Lang (.seq (.opt (.cls (.set ['+', '-']))) (.seq (.star (.cls .digit))
      (.seq (.opt (.cls (.set ['.']))) (.seq (.plus (.cls .digit))
        (.opt (.seq (.cls (.set ['E', 'e'])) (.seq (.opt (.cls (.set ['+', '-'])))
          (.plus (.cls .digit)))))))))
      s [] := h
  cases h0 with
  | seq _ _ _ s1 _ h1 h2 =>
    cases h2 with
    | seq _ _ _ s2 _ h3 h4 =>
      cases h4 with
      | seq _ _ _ s3 _ h5 h6 =>
        cases h6 with
        | seq _ _ _ s4 _ h7 h8 =>
          obtain ⟨sg, e1, hsg⟩ := lang_sign _ _ h1
          obtain ⟨a, e2, ha⟩ := (lang_star_cls _ _ _).mp h3
          obtain ⟨b0, bs, e4, hb0, hbs⟩ := (lang_plus_cls _ _ _).mp h7
          have hb : isDigits (b0 :: bs) = true := isDigits_cons b0 bs hb0 hbs
          have ha1 : a.all isdigit = true := by
            rw [List.all_eq_true]; exact ha
          -- the exponent
          have hex : ∃ ex : Option (Char × Str × Str),
              s4 = (Numeral.mk [] [] none ex).expText ∧
              (match ex with
                | none => true
                | some (c, sg1, d) => (c == 'e' || c == 'E') && isSign sg1 && isDigits d) = true := by
            rcases lang_opt_inv _ _ _ h8 with h9 | h9
            · cases h9 with
              | seq _ _ _ s5 _ h10 h11 =>
                cases h11 with
                | seq _ _ _ s6 _ h12 h13 =>
                  cases h10 with
                  | cls _ c _ hc =>
                    obtain ⟨sg1, e6, hsg1⟩ := lang_sign _ _ h12
                    obtain ⟨d0, ds, e7, hd0, hds⟩ := (lang_plus_cls _ _ _).mp h13
                    have hcm := (set_test_eq _ _).mp hc
                    simp only [List.mem_cons, List.mem_singleton, List.not_mem_nil,
                      or_false] at hcm
                    refine ⟨some (c, sg1, d0 :: ds), ?_, ?_⟩
                    · simp [Numeral.expText, e6, e7]
                    · have hc2 : (c == 'e' || c == 'E') = true := by
                        rcases hcm with rfl | rfl <;> decide
                      simp only [hc2, hsg1, isDigits_cons d0 ds hd0 hds, Bool.and_self]
            · exact ⟨none, by simp [Numeral.expText, h9], rfl⟩
          obtain ⟨ex, e8, hexwf⟩ := hex
          rcases lang_opt_inv _ _ _ h5 with h9 | h9
          · -- with a point
            cases h9 with
            | cls _ x _ hx =>
              have hxm := (set_test_eq _ _).mp hx
              simp only [List.mem_singleton] at hxm
              subst hxm
              refine ⟨⟨sg, a, some (b0 :: bs), ex⟩, ?_, ?_⟩
              · simp only [Numeral.wf, hsg, ha1, hb, Bool.and_self, Bool.true_and]
                exact hexwf
              · rw [e1, e2, e4, e8]
                simp [Numeral.text, Numeral.fracText, Numeral.expText]
          · -- without a point
            subst h9
            refine ⟨⟨sg, a ++ (b0 :: bs), none, ex⟩, ?_, ?_⟩
            · have hab : (a ++ b0 :: bs).all isdigit = true := by
                rw [List.all_append, ha1]
                simp only [isDigits, Bool.and_eq_true] at hb
                simpa using hb.2
              have hne : (a ++ b0 :: bs).isEmpty = false := by
                cases a <;> rfl
              simp only [Numeral.wf, hsg, hab, hne, Bool.not_false, Bool.true_and]
              exact hexwf
            · rw [e1, e2, e4, e8]
              simp [Numeral.text, Numeral.fracText, Numeral.expText]
theorem takeWhile_prefix {α : Type} (p : α → Bool) (l y : List α) (hl : ∀ c ∈ l, p c = true)
    (hy : ∀ a t, y = a :: t → p a = false) : (l ++ y).takeWhile p = l := by
  induction l with
  | nil =>
    cases y with
    | nil => rfl
    | cons a t => simp [List.takeWhile, hy a t rfl]
  | cons c l ih =>
    have e := ih (fun x hx => hl x (List.mem_cons_of_mem _ hx))
    simp only [List.cons_append, List.takeWhile, hl c (List.mem_cons_self _ _)]
    exact congrArg (List.cons c) e

/-- The digits that `std::stoi` and `std::stoul` read in the text of a numeral are its
digits before the point; the sign is its sign. -/
theorem numeral_leading_digits (t : Numeral) (hwf : t.wf = true) :
    (splitSign t.text).1 = decide (t.sign = ['-']) ∧
    (splitSign t.text).2.takeWhile isdigit = t.int := by
  have hbody := numeral_body_startsOut t hwf t.expText
  have hexp := (expText_spec (α := Unit) t hwf [] (sep_startsOut _ (Or.inl rfl)) (fun _ => some ()) () rfl).2.1
  rw [List.append_nil] at hexp
  have hwf0 := hwf
  simp only [Numeral.wf, Bool.and_eq_true] at hwf
  obtain ⟨⟨⟨hs, hint⟩, hfrac⟩, _⟩ := hwf
  have htail : ∀ a u, t.fracText ++ t.expText = a :: u → isdigit a = false := by
    intro a u e
    cases hf : t.frac with
    | none =>
      simp only [Numeral.fracText, hf, List.nil_append] at e
      exact hexp a u e
    | some f =>
      simp only [Numeral.fracText, hf, List.cons_append] at e
      injection e with e1 _
      rw [← e1]
      decide
  have htw : (t.int ++ (t.fracText ++ t.expText)).takeWhile isdigit = t.int :=
    takeWhile_prefix isdigit _ _ (all_digits_mem t.int hint) htail
  have hsplit : ∀ body : Str, StartsOut (.set ['+', '-']) body → splitSign body = (false, body) := by
    intro body hb
    cases body with
    | nil => rfl
    | cons a u =>
      have ha := hb a u rfl
      have ha1 : a ≠ '+' ∧ a ≠ '-' := by
        constructor
        · intro e; subst e; simp [CharClass.test] at ha
        · intro e; subst e; simp [CharClass.test] at ha
      unfold splitSign
      split
      · rename_i t1 heq
        injection heq with h1 _
        exact absurd h1 ha1.2
      · rename_i t1 heq
        injection heq with h1 _
        exact absurd h1 ha1.1
      · rfl
  rcases isSign_cases t.sign hs with e | e | e
  · have : t.text = t.int ++ (t.fracText ++ t.expText) := by simp [Numeral.text, e]
    rw [this, hsplit _ hbody.1, e]
    exact ⟨rfl, htw⟩
  · have : t.text = '+' :: (t.int ++ (t.fracText ++ t.expText)) := by simp [Numeral.text, e]
    rw [this, e]
    exact ⟨rfl, htw⟩
  · have : t.text = '-' :: (t.int ++ (t.fracText ++ t.expText)) := by simp [Numeral.text, e]
    rw [this, e]
    exact ⟨rfl, htw⟩

/-- C19, counterexample: the tokens `.5` and `99999999999` are matched by the pattern of
the numbers and delivered by the tokenizer, and `std::stoi` raises on both, `std::stoul`
on the first. On the file `# nion`, `.5`, the exception leaves `read_input_gacode`. -/
theorem conversion_raises_on_token :
    regex_match ".5".toList number_re = true ∧ stoi ".5".toList = none ∧
    stoul ".5".toList = none ∧
    regex_match "99999999999".toList number_re = true ∧ stoi "99999999999".toList = none ∧
    (Tokenizer.next ⟨number_re, []⟩ [".5".toList]).1 = some ".5".toList ∧
    read_input_gacode decimalOps (some "# nion\n.5\n".toList) [] true = .thrown [] [] := by
  refine ⟨by decide, by decide, by decide, by decide, by decide, by decide, by decide⟩

/-- C19: the texts that the pattern of the numbers matches are the numerals of the
grammar: optional sign, digits, optional point with digits, optional exponent. On such
a text `std::stoi` and `std::stoul` read the sign and the digits before the point:
`std::stoi` gives an integer exactly when there is such a digit and the signed value is
an `int`, `std::stoul` exactly when there is such a digit and the value is below `2^64`;
otherwise the conversion raises. -/
theorem conversions_on_tokens :
    (∀ t : Numeral, t.wf = true → regex_match t.text number_re = true) ∧
    (∀ s : Str, regex_match s number_re = true →
      ∃ t : Numeral, t.wf = true ∧ t.text = s ∧
        stoi s =
          (if t.int = [] then none
           else if -(2 : Int) ^ 31 ≤
                (if t.sign = ['-'] then -(decValue t.int : Int) else (decValue t.int : Int)) ∧
              (if t.sign = ['-'] then -(decValue t.int : Int) else (decValue t.int : Int))
                < (2 : Int) ^ 31
            then some (if t.sign = ['-'] then -(decValue t.int : Int) else (decValue t.int : Int))
           else none) ∧
        stoul s =
          (if t.int = [] then none
           else if 2 ^ 64 ≤ decValue t.int then none
           else some (if t.sign = ['-'] then (2 ^ 64 - decValue t.int) % 2 ^ 64
                      else decValue t.int))) := by
  constructor
  · intro t hwf
    unfold regex_match
    have := number_run_numeral t hwf [] (sep_startsOut _ (Or.inl rfl)) atEnd () rfl
    rw [List.append_nil] at this
    rw [this]
    rfl
  · intro s hs
    obtain ⟨t, hwf, ht⟩ := number_lang_numeral s ((regex_match_iff _ _).mp hs)
    obtain ⟨h1, h2⟩ := numeral_leading_digits t hwf
    refine ⟨t, hwf, ht, ?_, ?_⟩
    · rw [← ht]
      unfold stoi
      simp only [h1, h2, decide_eq_true_eq]
      cases hi : t.int with
      | nil => simp
      | cons d ds => simp
    · rw [← ht]
      unfold stoul
      simp only [h1, h2, decide_eq_true_eq]
      cases hi : t.int with
      | nil => simp
      | cons d ds => simp

/-- C19, on the token `-12.5e3`: `std::stoi` gives `-12`. -/
theorem conversions_on_tokens_witness :
    regex_match "-12.5e3".toList number_re = true ∧ stoi "-12.5e3".toList = some (-12) ∧
    ∃ t : Numeral, t.wf = true ∧ t.text = "-12.5e3".toList ∧
      stoi "-12.5e3".toList =
        (if t.int = [] then none
         else if -(2 : Int) ^ 31 ≤
              (if t.sign = ['-'] then -(decValue t.int : Int) else (decValue t.int : Int)) ∧
            (if t.sign = ['-'] then -(decValue t.int : Int) else (decValue t.int : Int))
              < (2 : Int) ^ 31
          then some (if t.sign = ['-'] then -(decValue t.int : Int) else (decValue t.int : Int))
         else none) ∧
      stoul "-12.5e3".toList =
        (if t.int = [] then none
         else if 2 ^ 64 ≤ decValue t.int then none
         else some (if t.sign = ['-'] then (2 ^ 64 - decValue t.int) % 2 ^ 64
                    else decValue t.int)) :=
  ⟨by decide, by decide, conversions_on_tokens.2 "-12.5e3".toList (by decide)⟩

/-! ### The text of the directive line -/

/-- C20: the line of a token-consuming directive is used for the selection only. When
the BODY loop reaches a directive line while the tokenizer has no token left in its line,
the tokens ahead of the tokenizer in the round are those of the lines after the directive
line, the first call of `Tokenizer::next` gives the first of them, and the round is the
same as for any other line that selects the same directive: the call on the file with
the directive line replaced by such a line (`# ne` for `# ne(10^19/m^3)`) and the same
lines before and after it has the same outcome. The directive `name` consumes no token
but a line: it is covered when a segment of the file follows the directive line (its
handler takes the words of the directive line itself when that line ends the file). -/
theorem directive_text_not_read {F : Type} (ops : FloatOps F) (negative_psi : Bool)
    (content content1 : Str) (ids : List Str) (st : Reader F) (pre : IFStream)
    (dline dline1 : Str) (post : IFStream)
    (hr : ReachedBy ops negative_psi content ids st)
    (hbuf : regex_search number_re st.tk.line = none)
    (hlines : getlines content [] = pre ++ dline :: post)
    (hlines1 : getlines content1 [] = pre ++ dline1 :: post)
    (hfi : st.fi = dline :: post) (hsel : classify dline1 = classify dline)
    (hname : classify dline = some .name → post ≠ []) :
    stream_tokens st.tk post = (post.map (tokens_of number_re)).flatten ∧
    (st.tk.next post).1 = ((post.map (tokens_of number_re)).flatten).head? ∧
    body_step ops negative_psi dline1 { st with fi := post }
      = body_step ops negative_psi dline { st with fi := post } ∧
    read_input_gacode ops (some content1) ids negative_psi
      = read_input_gacode ops (some content) ids negative_psi := by
  have hne : st.fi ≠ [] := by rw [hfi]; exact List.cons_ne_nil _ _
  obtain ⟨pre0, hpre0, hY⟩ := reachedBy_frame ops negative_psi content ids st hr hne
  have hpre : pre0 = pre := by
    rw [hlines, ← hfi] at hpre0
    exact (List.append_cancel_right hpre0).symm
  have hr1 := hY content1 (dline1 :: post) (by rw [hlines1, hpre])
  obtain ⟨hre, hread⟩ := read_of_reached ops negative_psi content ids st hr
  obtain ⟨_, hread1⟩ := read_of_reached ops negative_psi content1 ids _ hr1
  have htok : stream_tokens st.tk post = (post.map (tokens_of number_re)).flatten := by
    unfold stream_tokens
    rw [hre, tokens_of_none _ _ hbuf, List.nil_append]
  have hstep : body_step ops negative_psi dline1 { st with fi := post }
      = body_step ops negative_psi dline { st with fi := post } := by
    rw [body_step_classify, body_step_classify, hsel]
    cases hc : classify dline with
    | none => rfl
    | some d =>
      cases d with
      | name =>
        cases post with
        | nil => exact absurd rfl (hname hc)
        | cons l ls => rfl
      | _ => rfl
  refine ⟨htok, ?_, hstep, ?_⟩
  · have spec := Tokenizer.next_spec st.tk (by rw [hre]; decide) post
    rw [← htok]
    rcases hn : st.tk.next post with ⟨_ | t, tk1, fi1⟩
    · rw [hn] at spec
      simp only at spec
      rw [spec]
      rfl
    · rw [hn] at spec
      simp only at spec
      rw [spec]
      rfl
  · have hloop : body_loop ops negative_psi
          (({ st with fi := dline1 :: post } : Reader F).fi.length + 1)
          { st with fi := dline1 :: post }
        = body_loop ops negative_psi (st.fi.length + 1) st := by
      rw [hfi]
      simp only [List.length_cons, body_loop, hfi, hstep]
    rw [hread1, hread, hloop]

/-- C20, on a file with the line `# ne(10^19/m^3)`: the numbers `10`, `19` and `3` of the
directive line are not read; the values are those of the two lines after it. -/
theorem directive_text_not_read_witness :
    ReachedBy decimalOps true "# nexp\n2\n# nion\n1\n# ne(10^19/m^3)\n1 5\n2 6\n".toList []
      (body_start ⟨-1, 2, 1, ⟨number_re, []⟩,
        ["# ne(10^19/m^3)".toList, "1 5".toList, "2 6".toList, []]⟩ []) ∧
    classify "# ne".toList = classify "# ne(10^19/m^3)".toList ∧
    tokens_of number_re "# ne(10^19/m^3)".toList = ["10".toList, "19".toList, "3".toList] ∧
    read_input_gacode decimalOps (some "# nexp\n2\n# nion\n1\n# ne\n1 5\n2 6\n".toList) [] true
      = read_input_gacode decimalOps
          (some "# nexp\n2\n# nion\n1\n# ne(10^19/m^3)\n1 5\n2 6\n".toList) [] true ∧
    read_input_gacode decimalOps
        (some "# nexp\n2\n# nion\n1\n# ne(10^19/m^3)\n1 5\n2 6\n".toList) [] true
      = .returned { (Plasma.new (-1) 2 1 : Plasma (Int × Int)) with
          ne := [some (5, 0), some (6, 0)] } [] [] :=
  ⟨⟨_, rfl, by decide, by decide, Reaches.start _⟩, by decide, by decide,
    (directive_text_not_read decimalOps true
      "# nexp\n2\n# nion\n1\n# ne(10^19/m^3)\n1 5\n2 6\n".toList
      "# nexp\n2\n# nion\n1\n# ne\n1 5\n2 6\n".toList []
      (body_start ⟨-1, 2, 1, ⟨number_re, []⟩,
        ["# ne(10^19/m^3)".toList, "1 5".toList, "2 6".toList, []]⟩ [])
      ["# nexp".toList, "2".toList, "# nion".toList, "1".toList]
      "# ne(10^19/m^3)".toList "# ne".toList ["1 5".toList, "2 6".toList, []]
      ⟨_, rfl, by decide, by decide, Reaches.start _⟩ (by decide) (by decide) (by decide) rfl
      (by decide) (by decide)).2.2.2,
    by decide⟩

set_option maxRecDepth 100000 in
set_option exponentiation.threshold 5000 in
/-- C15, counterexample: with `nexp = 1` and `nion = 1`, the `ni` line is followed by the
two numeric tokens `1` and `1e999`; `std::stod` raises `std::out_of_range` on the value
token, so the round sets no entry of `ni` and the call ends with the exception. The
same holds for `ti` and for a value token that underflows, `1e-310`. -/
theorem matrix_value_out_of_range :
    ReachedBy rangedOps true "# nexp\n1\n# nion\n1\n# ni\n1 1e999\n".toList []
      (body_start ⟨-1, 1, 1, ⟨number_re, []⟩, ["# ni".toList, "1 1e999".toList, []]⟩ []) ∧
    classify "# ni".toList = some .ni ∧
    1 * (1 + 1) ≤ (stream_tokens ⟨number_re, []⟩ ["1 1e999".toList, []]).length ∧
    rangedOps.stod "1e999".toList = none ∧
    body_step rangedOps true "# ni".toList
        ⟨Plasma.new (-1) 1 1, [], ⟨number_re, []⟩, ["1 1e999".toList, []]⟩
      = .error .thrown ∧
    read_input_gacode rangedOps (some "# nexp\n1\n# nion\n1\n# ni\n1 1e999\n".toList) [] true
      = .thrown [] [] ∧
    rangedOps.stod "1e-310".toList = none ∧
    read_input_gacode rangedOps (some "# nexp\n1\n# nion\n1\n# ti\n1 1e-310\n".toList) [] true
      = .thrown [] [] ∧
    rangedOps.stod "1.5e19".toList = some (15, 18) :=
  ⟨⟨_, rfl, by decide, by decide, Reaches.start _⟩, by decide, by decide, by decide, by rfl,
    by decide, by decide, by decide, by decide⟩

/-! ### Bodies: lines that hold given tokens -/

theorem search_of_tokens_nil (s : Str) (h : tokens_of number_re s = []) :
    regex_search number_re s = none := by
  cases hs : regex_search number_re s with
  | none => rfl
  | some r =>
    obtain ⟨t, suf⟩ := r
    rw [tokens_of_some number_re (by decide) s t suf hs] at h
    cases h

theorem search_of_tokens_cons (s t : Str) (ts : List Str)
    (h : tokens_of number_re s = t :: ts) :
    ∃ suf, regex_search number_re s = some (t, suf) ∧ tokens_of number_re suf = ts := by
  cases hs : regex_search number_re s with
  | none =>
    rw [tokens_of_none number_re s hs] at h
    cases h
  | some r =>
    obtain ⟨t0, suf⟩ := r
    rw [tokens_of_some number_re (by decide) s t0 suf hs] at h
    injection h with h1 h2
    subst h1
    exact ⟨suf, rfl, h2⟩

/-- The tokenizer delivers the tokens of its line and keeps the rest, without token. -/
theorem delivers_in_line : ∀ (ts : List Str) (s : Str) (fi : IFStream),
    tokens_of number_re s = ts →
    ∃ suf, regex_search number_re suf = none ∧
      Delivers { re := number_re, line := s } fi ts { re := number_re, line := suf } fi := by
  intro ts
  induction ts with
  | nil =>
    intro s fi h
    exact ⟨s, search_of_tokens_nil s h, Delivers.done _ _⟩
  | cons t ts ih =>
    intro s fi h
    obtain ⟨suf0, hs, ht⟩ := search_of_tokens_cons s t ts h
    obtain ⟨suf, hsuf, hd⟩ := ih suf0 fi ht
    exact ⟨suf, hsuf, Delivers.step _ _ t _ _ ts _ _ (next_found number_re s t suf0 hs fi) hd⟩

theorem delivers_trans (tk : Tokenizer) (fi : IFStream) (ts : List Str) (tk1 : Tokenizer)
    (fi1 : IFStream) (h : Delivers tk fi ts tk1 fi1) :
    ∀ (ts1 : List Str) (tk2 : Tokenizer) (fi2 : IFStream), Delivers tk1 fi1 ts1 tk2 fi2 →
      Delivers tk fi (ts ++ ts1) tk2 fi2 := by
  induction h with
  | done tk fi => intro ts1 tk2 fi2 h1; exact h1
  | step tk fi t tka fia ts tkb fib hnext _ ih =>
    intro ts1 tk2 fi2 h1
    exact Delivers.step tk fi t tka fia (ts ++ ts1) tk2 fi2 hnext (ih ts1 tk2 fi2 h1)

/-- A tokenizer whose line holds no token fetches the next line for its next token. -/
theorem delivers_fetch (b l : Str) (hb : regex_search number_re b = none) (fi : IFStream)
    (t : Str) (ts : List Str) (tk2 : Tokenizer) (fi2 : IFStream)
    (h : Delivers { re := number_re, line := l } fi (t :: ts) tk2 fi2) :
    Delivers { re := number_re, line := b } (l :: fi) (t :: ts) tk2 fi2 := by
  cases h with
  | step _ _ _ tk1 fi1 _ _ _ hnext hrest =>
    exact Delivers.step _ _ t tk1 fi1 ts tk2 fi2
      (by rw [next_fetch number_re b l hb]; exact hnext) hrest

theorem is_body_nil (ts : List Str) (h : is_body [] ts = true) : ts = [] := by
  simp only [is_body, line_tokens, List.map_nil, List.flatten_nil, List.getLast?_nil,
    Bool.and_true, decide_eq_true_eq] at h
  exact h.symm

theorem is_body_cons (l : Str) (B : List Str) (ts : List Str)
    (h : is_body (l :: B) ts = true) :
    ts = tokens_of number_re l ++ line_tokens B ∧
      (B = [] → tokens_of number_re l ≠ []) ∧ (B ≠ [] → is_body B (line_tokens B) = true) := by
  simp only [is_body, Bool.and_eq_true, decide_eq_true_eq] at h
  obtain ⟨h1, h2⟩ := h
  refine ⟨?_, ?_, ?_⟩
  · rw [← h1]
    simp [line_tokens]
  · intro hB
    subst hB
    simp only [List.getLast?_singleton, Bool.not_eq_true', List.isEmpty_eq_false] at h2
    intro e
    simp [e] at h2
  · intro hB
    obtain ⟨x, xs, rfl⟩ := List.exists_cons_of_ne_nil hB
    simp only [is_body, decide_True, Bool.true_and]
    rw [List.getLast?_cons_cons] at h2
    exact h2

/-- A tokenizer whose line holds no token, asked for the tokens of a body, delivers them,
fetches the lines of the body and no other, and keeps a rest without token. -/
theorem delivers_body : ∀ (B : List Str) (b : Str) (ts : List Str) (post : IFStream),
    regex_search number_re b = none → is_body B ts = true →
    ∃ suf, regex_search number_re suf = none ∧
      Delivers { re := number_re, line := b } (B ++ post) ts
        { re := number_re, line := suf } post := by
  intro B
  induction B with
  | nil =>
    intro b ts post hb hB
    rw [is_body_nil ts hB]
    exact ⟨b, hb, Delivers.done _ _⟩
  | cons l B ih =>
    intro b ts post hb hB
    obtain ⟨hts, hlast, hrest⟩ := is_body_cons l B ts hB
    obtain ⟨suf0, hsuf0, hd0⟩ := delivers_in_line (tokens_of number_re l) l (B ++ post) rfl
    have hB1 : is_body B (line_tokens B) = true := by
      by_cases hn : B = []
      · subst hn; rfl
      · exact hrest hn
    obtain ⟨suf, hsuf, hd1⟩ := ih suf0 (line_tokens B) post hsuf0 hB1
    have hd := delivers_trans _ _ _ _ _ hd0 _ _ _ hd1
    rw [← hts] at hd
    have hne : ts ≠ [] := by
      intro e
      rw [e] at hts
      have e1 := List.append_eq_nil.mp hts.symm
      by_cases hn : B = []
      · exact hlast hn e1.1
      · obtain ⟨suf2, _, hd2⟩ := ih suf0 (line_tokens B) post hsuf0 hB1
        have hB2 := hrest hn
        obtain ⟨x, xs, rfl⟩ := List.exists_cons_of_ne_nil hn
        -- the last line of a body holds a token
        clear hd hd0 hd1 hd2 ih
        have : ∀ (C : List Str) (c : Str), is_body (c :: C) (line_tokens (c :: C)) = true →
            line_tokens (c :: C) ≠ [] := by
          intro C
          induction C with
          | nil =>
            intro c hc
            have := (is_body_cons c [] _ hc).2.1 rfl
            simpa [line_tokens] using this
          | cons d C ihC =>
            intro c hc
            have h3 := ihC d ((is_body_cons c (d :: C) _ hc).2.2 (List.cons_ne_nil _ _))
            intro e2
            apply h3
            simp only [line_tokens, List.map_cons, List.flatten_cons, List.append_eq_nil] at e2 ⊢
            exact e2.2
        exact this xs x hB2 e1.2
    obtain ⟨t, ts1, rfl⟩ := List.exists_cons_of_ne_nil hne
    exact ⟨suf, hsuf, delivers_fetch b l hb _ t ts1 _ _ hd⟩

/-- The first call of the tokenizer on a body with one token. -/
theorem next_body (B : List Str) (b tok : Str) (rest : IFStream)
    (hb : regex_search number_re b = none) (hB : is_body B [tok] = true) :
    ∃ suf, regex_search number_re suf = none ∧
      Tokenizer.next { re := number_re, line := b } (B ++ rest)
        = (some tok, { re := number_re, line := suf }, rest) := by
  obtain ⟨suf, hsuf, hd⟩ := delivers_body B b [tok] rest hb hB
  cases hd with
  | step _ _ _ tk1 fi1 _ _ _ hnext hrest =>
    cases hrest
    exact ⟨suf, hsuf, hnext⟩

/-! ### Headers made of blocks and declarations -/

theorem header_skip_passed (j : List Str) (hj : ∀ l ∈ j, is_passed_line l = true) :
    ∀ (n : Nat) (h : Header) (rest : IFStream), (h.nexp = -1 ∨ h.nion = -1) →
      h.fi = j ++ rest →
      header_loop (n + j.length) h = header_loop n { h with fi := rest } := by
  induction j with
  | nil =>
    intro n h rest _ hfi
    simp only [List.nil_append] at hfi
    simp only [List.length_nil, Nat.add_zero]
    rw [← hfi]
  | cons l j ih =>
    intro n h rest hc hfi
    have hl := hj l (List.mem_cons_self _ _)
    simp only [is_passed_line, Bool.and_eq_true, Bool.not_eq_true'] at hl
    obtain ⟨⟨h1, h2⟩, h3⟩ := hl
    have e : n + (l :: j).length = (n + j.length) + 1 := by simp; omega
    rw [e, header_skip (n + j.length) h l (j ++ rest) hfi hc h1 h2 h3]
    exact ih (fun x hx => hj x (List.mem_cons_of_mem _ hx)) n { h with fi := j ++ rest } rest hc
      rfl

/-- A round of the HEADER loop on a `shot` line followed by a body with one token. -/
theorem header_body_shot (n : Nat) (shot nexp nion : Int) (b l : Str) (B : List Str)
    (tok : Str) (v : Int) (rest : IFStream) (hc : nexp = -1 ∨ nion = -1)
    (hb : regex_search number_re b = none) (hl : regex_match l re_shot = true)
    (hB : is_body B [tok] = true) (hv : stoi tok = some v) :
    ∃ suf, regex_search number_re suf = none ∧
      header_loop (n + 1) ⟨shot, nexp, nion, ⟨number_re, b⟩, l :: (B ++ rest)⟩
        = header_loop n ⟨v, nexp, nion, ⟨number_re, suf⟩, rest⟩ := by
  obtain ⟨suf, hsuf, hn⟩ := next_body B b tok rest hb hB
  refine ⟨suf, hsuf, ?_⟩
  rw [header_loop]
  simp only [hc, if_true, hl, hn, hv]

/-- A round of the HEADER loop on a `nion` line followed by a body with one token. -/
theorem header_body_nion (n : Nat) (shot nexp nion : Int) (b l : Str) (B : List Str)
    (tok : Str) (v : Nat) (rest : IFStream) (hc : nexp = -1 ∨ nion = -1)
    (hb : regex_search number_re b = none) (hl : is_nion_line l = true)
    (hB : is_body B [tok] = true) (hv : stoul tok = some v) :
    ∃ suf, regex_search number_re suf = none ∧
      header_loop (n + 1) ⟨shot, nexp, nion, ⟨number_re, b⟩, l :: (B ++ rest)⟩
        = header_loop n ⟨shot, nexp, toInt32 v, ⟨number_re, suf⟩, rest⟩ := by
  obtain ⟨suf, hsuf, hn⟩ := next_body B b tok rest hb hB
  refine ⟨suf, hsuf, ?_⟩
  simp only [is_nion_line, Bool.and_eq_true, Bool.not_eq_true'] at hl
  rw [header_loop]
  simp only [hc, if_true, hl.1, hl.2, Bool.false_eq_true, if_false, hn, hv]

/-- A round of the HEADER loop on a `nexp` line followed by a body with one token. -/
theorem header_body_nexp (n : Nat) (shot nexp nion : Int) (b l : Str) (B : List Str)
    (tok : Str) (v : Nat) (rest : IFStream) (hc : nexp = -1 ∨ nion = -1)
    (hb : regex_search number_re b = none) (hl : is_nexp_line l = true)
    (hB : is_body B [tok] = true) (hv : stoul tok = some v) :
    ∃ suf, regex_search number_re suf = none ∧
      header_loop (n + 1) ⟨shot, nexp, nion, ⟨number_re, b⟩, l :: (B ++ rest)⟩
        = header_loop n ⟨shot, toInt32 v, nion, ⟨number_re, suf⟩, rest⟩ := by
  obtain ⟨suf, hsuf, hn⟩ := next_body B b tok rest hb hB
  refine ⟨suf, hsuf, ?_⟩
  simp only [is_nexp_line, Bool.and_eq_true, Bool.not_eq_true'] at hl
  rw [header_loop]
  simp only [hc, if_true, hl.1.1, hl.1.2, hl.2, Bool.false_eq_true, if_false, hn, hv]

/-- The HEADER loop gets over blocks: it keeps the sizes, and the tokenizer keeps a line
without token. -/
theorem header_skip_blocks (bs : List HeaderBlock) (hbs : ∀ x ∈ bs, x.ok = true) :
    ∀ (n : Nat) (shot nexp nion : Int) (b : Str) (rest : IFStream), (nexp = -1 ∨ nion = -1) →
      regex_search number_re b = none →
      ∃ shot1 suf, regex_search number_re suf = none ∧
        header_loop (n + bs.length) ⟨shot, nexp, nion, ⟨number_re, b⟩, block_lines bs ++ rest⟩
          = header_loop n ⟨shot1, nexp, nion, ⟨number_re, suf⟩, rest⟩ := by
  induction bs with
  | nil =>
    intro n shot nexp nion b rest _ hb
    exact ⟨shot, b, hb, rfl⟩
  | cons x bs ih =>
    intro n shot nexp nion b rest hc hb
    have hx := hbs x (List.mem_cons_self _ _)
    have hrest := fun y hy => hbs y (List.mem_cons_of_mem x hy)
    have e : n + (x :: bs).length = (n + bs.length) + 1 := by simp; omega
    rw [e]
    cases x with
    | line l =>
      simp only [HeaderBlock.ok, is_passed_line, Bool.and_eq_true, Bool.not_eq_true'] at hx
      obtain ⟨⟨h1, h2⟩, h3⟩ := hx
      obtain ⟨shot1, suf, hsuf, hh⟩ := ih hrest n shot nexp nion b rest hc hb
      refine ⟨shot1, suf, hsuf, ?_⟩
      rw [← hh]
      exact header_skip (n + bs.length) _ l (block_lines bs ++ rest)
        (by simp [block_lines, HeaderBlock.lines]) hc h1 h2 h3
    | shot l B tok =>
      simp only [HeaderBlock.ok, Bool.and_eq_true] at hx
      obtain ⟨⟨h1, h2⟩, h3⟩ := hx
      obtain ⟨v, hv⟩ := Option.isSome_iff_exists.mp h3
      obtain ⟨suf0, hsuf0, h0⟩ := header_body_shot (n + bs.length) shot nexp nion b l B tok v
        (block_lines bs ++ rest) hc hb h1 h2 hv
      obtain ⟨shot1, suf, hsuf, hh⟩ := ih hrest n v nexp nion suf0 rest hc hsuf0
      refine ⟨shot1, suf, hsuf, ?_⟩
      rw [← hh, ← h0]
      simp [block_lines, HeaderBlock.lines]

/-- The HEADER loop on a header with a declaration of each size, in either order, with
blocks before and between them: the loop ends after the body of the second declaration
with the two converted values. -/
theorem header_two_bodies (bs1 bs2 : List HeaderBlock) (l1 l2 : Str) (B1 B2 : List Str)
    (t1 t2 : Str) (v1 v2 : Nat) (rest : List Str)
    (hbs1 : ∀ x ∈ bs1, x.ok = true) (hbs2 : ∀ x ∈ bs2, x.ok = true)
    (hB1 : is_body B1 [t1] = true) (hB2 : is_body B2 [t2] = true)
    (hv1 : stoul t1 = some v1) (hv2 : stoul t2 = some v2)
    (h1 : toInt32 v1 ≠ -1) (h2 : toInt32 v2 ≠ -1) (m : Nat)
    (hm : (block_lines bs1 ++ l1 :: (B1 ++ (block_lines bs2 ++ l2 :: (B2 ++ rest)))).length < m) :
    (is_nion_line l1 = true → is_nexp_line l2 = true →
      ∃ shot suf, regex_search number_re suf = none ∧
        header_loop m (header_start
            (block_lines bs1 ++ l1 :: (B1 ++ (block_lines bs2 ++ l2 :: (B2 ++ rest)))))
          = .ok ⟨shot, toInt32 v2, toInt32 v1, ⟨number_re, suf⟩, rest⟩) ∧
    (is_nexp_line l1 = true → is_nion_line l2 = true →
      ∃ shot suf, regex_search number_re suf = none ∧
        header_loop m (header_start
            (block_lines bs1 ++ l1 :: (B1 ++ (block_lines bs2 ++ l2 :: (B2 ++ rest)))))
          = .ok ⟨shot, toInt32 v1, toInt32 v2, ⟨number_re, suf⟩, rest⟩) := by
  have hnil : regex_search number_re [] = none := by decide
  have hdone : ∀ (n : Nat) (shot a b : Int) (tk : Tokenizer) (fi : IFStream), a ≠ -1 → b ≠ -1 →
      header_loop (n + 1) ⟨shot, a, b, tk, fi⟩ = .ok ⟨shot, a, b, tk, fi⟩ := by
    intro n shot a b tk fi ha hb
    rw [header_loop]
    have : ¬ (a = -1 ∨ b = -1) := fun h => h.elim ha hb
    simp only [this, if_false]
  constructor
  · intro hl1 hl2
    obtain ⟨s1, f1, hf1, e1⟩ := header_skip_blocks bs1 hbs1 (0 + 1 + 1 + bs2.length + 1)
      (-1) (-1) (-1) [] (l1 :: (B1 ++ (block_lines bs2 ++ l2 :: (B2 ++ rest)))) (Or.inl rfl) hnil
    obtain ⟨f2, hf2, e2⟩ := header_body_nion (0 + 1 + 1 + bs2.length) s1 (-1) (-1) f1 l1 B1 t1 v1
      (block_lines bs2 ++ l2 :: (B2 ++ rest)) (Or.inl rfl) hf1 hl1 hB1 hv1
    obtain ⟨s3, f3, hf3, e3⟩ := header_skip_blocks bs2 hbs2 (0 + 1 + 1)
      s1 (-1) (toInt32 v1) f2 (l2 :: (B2 ++ rest)) (Or.inl rfl) hf2
    obtain ⟨f4, hf4, e4⟩ := header_body_nexp (0 + 1) s3 (-1) (toInt32 v1) f3 l2 B2 t2 v2
      rest (Or.inl rfl) hf3 hl2 hB2 hv2
    refine ⟨s3, f4, hf4, header_loop_more (0 + 1 + 1 + bs2.length + 1 + bs1.length) _ _ ?_ m hm⟩
    exact e1.trans (e2.trans (e3.trans (e4.trans (hdone 0 _ _ _ _ _ h2 h1))))
  · intro hl1 hl2
    obtain ⟨s1, f1, hf1, e1⟩ := header_skip_blocks bs1 hbs1 (0 + 1 + 1 + bs2.length + 1)
      (-1) (-1) (-1) [] (l1 :: (B1 ++ (block_lines bs2 ++ l2 :: (B2 ++ rest)))) (Or.inl rfl) hnil
    obtain ⟨f2, hf2, e2⟩ := header_body_nexp (0 + 1 + 1 + bs2.length) s1 (-1) (-1) f1 l1 B1 t1 v1
      (block_lines bs2 ++ l2 :: (B2 ++ rest)) (Or.inl rfl) hf1 hl1 hB1 hv1
    obtain ⟨s3, f3, hf3, e3⟩ := header_skip_blocks bs2 hbs2 (0 + 1 + 1)
      s1 (toInt32 v1) (-1) f2 (l2 :: (B2 ++ rest)) (Or.inr rfl) hf2
    obtain ⟨f4, hf4, e4⟩ := header_body_nion (0 + 1) s3 (toInt32 v1) (-1) f3 l2 B2 t2 v2
      rest (Or.inr rfl) hf3 hl2 hB2 hv2
    refine ⟨s3, f4, hf4, header_loop_more (0 + 1 + 1 + bs2.length + 1 + bs1.length) _ _ ?_ m hm⟩
    exact e1.trans (e2.trans (e3.trans (e4.trans (hdone 0 _ _ _ _ _ h1 h2))))

/-! ### C3: the sizes of the returned container, from the declarations -/

/-- C3, counterexample: the input declares `nexp = 3` and `nion = 4294967298`; the `int`
local `nion` holds `2`, and the returned container has `nion = 2` and arrays `mass` and
`z` of length `2`, not the declared number. -/
theorem wrapped_size_returned :
    stoul "4294967298".toList = some 4294967298 ∧
    read_input_gacode decimalOps (some "# nexp\n3\n# nion\n4294967298\n".toList) [] true
      = .returned (Plasma.new (-1) 3 2) [] [] ∧
    (Plasma.new (-1) 3 2 : Plasma (Int × Int)).nion ≠ 4294967298 ∧
    (Plasma.new (-1) 3 2 : Plasma (Int × Int)).z.length ≠ 4294967298 := by
  decide

/-- C3, amended: let the header of the input declare `nion = M` and `nexp = N`, both below
`2^31`, each by its directive line followed by a body with one numeric token, which
`std::stoul` reads as `M`, respectively `N`, in either order, with any lines that the
HEADER loop passes over and any declarations of `shot` before and between the two
declarations. When the call returns a container without diagnostic, that container has
`nexp = N` and `nion = M`, its arrays `polflux`, `ne` and `te` have length `N`, its arrays
`mass` and `z` have length `M`, and `ni` and `ti` have `M` rows of length `N`; and no
directive handler changes the sizes of the container it works on. -/
theorem returned_sizes {F : Type} (ops : FloatOps F) (content : Str) (ids ids1 : List Str)
    (negative_psi : Bool) (p : Plasma F) (bs1 bs2 : List HeaderBlock) (lM lN : Str)
    (BM BN : List Str) (tM tN : Str) (M N : Nat) (rest : List Str)
    (hbs1 : ∀ x ∈ bs1, x.ok = true) (hbs2 : ∀ x ∈ bs2, x.ok = true)
    (hlM : is_nion_line lM = true) (hlN : is_nexp_line lN = true)
    (hBM : is_body BM [tM] = true) (hBN : is_body BN [tN] = true)
    (hM : stoul tM = some M) (hN : stoul tN = some N) (hM31 : M < 2 ^ 31) (hN31 : N < 2 ^ 31)
    (hlines : getlines content []
        = block_lines bs1 ++ lM :: (BM ++ (block_lines bs2 ++ lN :: (BN ++ rest))) ∨
      getlines content []
        = block_lines bs1 ++ lN :: (BN ++ (block_lines bs2 ++ lM :: (BM ++ rest))))
    (h : read_input_gacode ops (some content) ids negative_psi = .returned p ids1 []) :
    (p.nexp = N ∧ p.nion = M ∧ p.polflux.length = N ∧ p.ne.length = N ∧ p.te.length = N ∧
      p.mass.length = M ∧ p.z.length = M ∧
      p.ni.map List.length = List.replicate M N ∧ p.ti.map List.length = List.replicate M N) ∧
    (∀ (line : Str) (st st1 : Reader F), body_step ops negative_psi line st = .ok st1 →
      st1.plasma.shape = st.plasma.shape) := by
  refine ⟨?_, fun line st st1 hs => (body_step_follows _ _ _ _ _ hs).1⟩
  have eM := toInt32_of_lt M hM31
  have eN := toInt32_of_lt N hN31
  have nM : toInt32 M ≠ -1 := by rw [eM]; exact natCast_ne_neg_one M
  have nN : toInt32 N ≠ -1 := by rw [eN]; exact natCast_ne_neg_one N
  have hh : ∃ shot tk fi, header_loop ((getlines content []).length + 1)
      (header_start (getlines content [])) = .ok ⟨shot, (N : Nat), (M : Nat), tk, fi⟩ := by
    rcases hlines with hl | hl
    · obtain ⟨shot, suf, _, e⟩ := (header_two_bodies bs1 bs2 lM lN BM BN tM tN M N rest hbs1 hbs2
        hBM hBN hM hN nM nN ((getlines content []).length + 1) (by rw [hl]; omega)).1 hlM hlN
      rw [← hl, eM, eN] at e
      exact ⟨shot, _, _, e⟩
    · obtain ⟨shot, suf, _, e⟩ := (header_two_bodies bs1 bs2 lN lM BN BM tN tM N M rest hbs1 hbs2
        hBN hBM hN hM nN nM ((getlines content []).length + 1) (by rw [hl]; omega)).2 hlN hlM
      rw [← hl, eM, eN] at e
      exact ⟨shot, _, _, e⟩
  obtain ⟨shot, tk, fi, hh⟩ := hh
  rcases read_stream_returned ops _ _ _ _ _ _ h with ⟨f, hf, _⟩ | ⟨_, hd1, st, hh1, _, _, hb, hp, _⟩
  · cases hf
  · rw [hh] at hh1
    cases hh1
    have hshape := (body_loop_follows ops negative_psi _ _ _ hb).1.1
    rw [← hp] at hshape
    simp only [body_start, shape_new, toSizeT_natCast N hN31, toSizeT_natCast M hM31] at hshape
    have g := fun (f : Shape → Nat) => congrArg f hshape
    exact ⟨g Shape.nexp, g Shape.nion, g Shape.polflux, g Shape.ne, g Shape.te, g Shape.mass,
      g Shape.z, congrArg Shape.ni hshape, congrArg Shape.ti hshape⟩

/-- C3, amended, at an input with a comment line that holds a number, a declaration of
`shot`, then `nexp = 3` and `nion = 2`, a `mass` and a `te` directive. -/
theorem returned_sizes_witness :
    getlines "# made in 2024\n# shot\n163303\n# nexp\n\n 3\n# nion\n2\n# mass\n2.0 12.0\n# te\n1 1.5\n2 1.2\n3 0.9".toList []
      = block_lines [.line "# made in 2024".toList, .shot "# shot".toList ["163303".toList]
            "163303".toList] ++ "# nexp".toList :: ([[], " 3".toList] ++
          (block_lines [] ++ "# nion".toList :: (["2".toList] ++
            ["# mass".toList, "2.0 12.0".toList, "# te".toList, "1 1.5".toList,
              "2 1.2".toList, "3 0.9".toList]))) ∧
    read_input_gacode decimalOps
        (some "# made in 2024\n# shot\n163303\n# nexp\n\n 3\n# nion\n2\n# mass\n2.0 12.0\n# te\n1 1.5\n2 1.2\n3 0.9".toList) [] true
      = .returned { (Plasma.new 163303 3 2 : Plasma (Int × Int)) with
          mass := [some (20, -1), some (120, -1)],
          te := [some (15, -1), some (12, -1), some (9, -1)] } [] [] ∧
    ((3 : Nat) = 3 ∧ (2 : Nat) = 2 ∧
      [some ((15 : Int), (-1 : Int)), some (12, -1), some (9, -1)].length = 3) :=
  ⟨by decide, by decide,
    have h := (returned_sizes decimalOps
      "# made in 2024\n# shot\n163303\n# nexp\n\n 3\n# nion\n2\n# mass\n2.0 12.0\n# te\n1 1.5\n2 1.2\n3 0.9".toList
      [] [] true
      { (Plasma.new 163303 3 2 : Plasma (Int × Int)) with
          mass := [some (20, -1), some (120, -1)],
          te := [some (15, -1), some (12, -1), some (9, -1)] }
      [.line "# made in 2024".toList, .shot "# shot".toList ["163303".toList] "163303".toList]
      [] "# nion".toList "# nexp".toList ["2".toList] [[], " 3".toList] "2".toList "3".toList
      2 3
      ["# mass".toList, "2.0 12.0".toList, "# te".toList, "1 1.5".toList, "2 1.2".toList,
        "3 0.9".toList]
      (by decide) (by decide) (by decide) (by decide) (by decide) (by decide) (by decide)
      (by decide) (by decide) (by decide) (Or.inr (by decide)) (by decide)).1
    ⟨h.1, h.2.1, h.2.2.2.2.1⟩⟩

/-! ### C6: the stream ends in the HEADER loop -/

/-- The loop of the pair handlers on the tokens ahead of the tokenizer: `k` pairs are
read, and the values of the second tokens are stored. -/
theorem read_pairs_tokens {F : Type} (ops : FloatOps F) (f : Field)
    (store : Nat → Plasma F → F → Plasma F) :
    ∀ (k i0 : Nat) (st : Reader F) (T : List Str), 0 < st.tk.re.minLen →
      stream_tokens st.tk st.fi = T → 2 * k ≤ T.length →
      (∀ j < k, (value_at ops T (2 * j + 1)).isSome) →
      ∃ st1 vs, forLoop (fun i s => read_pair ops f (store i) s) k i0 st = .ok st1 ∧
        stream_tokens st1.tk st1.fi = T.drop (2 * k) ∧ st1.tk.re = st.tk.re ∧
        st1.species_identifiers = st.species_identifiers ∧
        vs.length = k ∧ (∀ j < k, value_at ops T (2 * j + 1) = vs[j]?) ∧
        st1.plasma = storeAll store i0 vs st.plasma := by
  intro k
  induction k with
  | zero =>
    intro i0 st T _ hT _ _
    exact ⟨st, [], rfl, by simpa using hT, rfl, rfl, rfl, fun j hj => by omega, rfl⟩
  | succ k ih =>
    intro i0 st T hre hT hlen hval
    match T, hT, hlen, hval with
    | [], _, hlen, _ => simp at hlen
    | [_], _, hlen, _ => simp at hlen; omega
    | a :: b :: T1, hT, hlen, hval =>
      obtain ⟨tk1, fi1, hn1, hT1, hre1⟩ := next_of_tokens st.tk hre st.fi a (b :: T1) hT
      obtain ⟨tk2, fi2, hn2, hT2, hre2⟩ := next_of_tokens tk1 (by rw [hre1]; exact hre) fi1 b T1 hT1
      have h0 := hval 0 (by omega)
      simp only [value_at, Nat.mul_zero, Nat.zero_add, List.getElem?_cons_succ,
        List.getElem?_cons_zero, Option.some_bind] at h0
      obtain ⟨v, hv⟩ := Option.isSome_iff_exists.mp h0
      have hstep : read_pair ops f (store i0) st
          = .ok { st with plasma := store i0 st.plasma v, tk := tk2, fi := fi2 } := by
        simp only [read_pair, next2, hn1, hn2, hv]
      have hval1 : ∀ j < k, (value_at ops T1 (2 * j + 1)).isSome := by
        intro j hj
        have := hval (j + 1) (by omega)
        rw [show 2 * (j + 1) + 1 = (2 * j + 1 + 1) + 1 by omega, value_at_cons_succ,
          value_at_cons_succ] at this
        exact this
      obtain ⟨st1, vs, e1, e2, e3, e4, e5, e6, e7⟩ := ih (i0 + 1)
        { st with plasma := store i0 st.plasma v, tk := tk2, fi := fi2 } T1
        (by show 0 < tk2.re.minLen; rw [hre2, hre1]; exact hre) hT2
        (by simp only [List.length_cons] at hlen; omega) hval1
      refine ⟨st1, v :: vs, ?_, ?_, ?_, e4, by simp [e5], ?_, ?_⟩
      · simp only [forLoop, hstep]
        exact e1
      · rw [e2]
        rw [show 2 * (k + 1) = 2 * k + 1 + 1 by omega]
        simp
      · rw [e3]
        show tk2.re = st.tk.re
        rw [hre2, hre1]
      · intro j hj
        cases j with
        | zero =>
          simp only [value_at, Nat.mul_zero, Nat.zero_add, List.getElem?_cons_succ,
            List.getElem?_cons_zero, Option.some_bind, hv]
        | succ j =>
          rw [show 2 * (j + 1) + 1 = (2 * j + 1 + 1) + 1 by omega, value_at_cons_succ,
            value_at_cons_succ, List.getElem?_cons_succ]
          exact e6 j (by omega)
      · rw [e7]
        rfl

/-- The entries of an array after the assignments of `writeFrom`. -/
theorem writeFrom_getElem {F : Type} (vs : List F) :
    ∀ (l : List (Option F)) (i j : Nat), i + vs.length ≤ l.length →
      (writeFrom l i vs)[j]?
        = if i ≤ j ∧ j < i + vs.length then (vs[j - i]?).map some else l[j]? := by
  induction vs with
  | nil =>
    intro l i j _
    simp only [writeFrom, List.length_nil, Nat.add_zero]
    rw [if_neg (by omega)]
  | cons v vs ih =>
    intro l i j hl
    simp only [List.length_cons] at hl
    rw [writeFrom, ih (l.set i (some v)) (i + 1) j (by rw [List.length_set]; omega)]
    by_cases h1 : i + 1 ≤ j ∧ j < i + 1 + vs.length
    · rw [if_pos h1, if_pos (by simp only [List.length_cons]; omega)]
      rw [show j - i = (j - (i + 1)) + 1 by omega, List.getElem?_cons_succ]
    · rw [if_neg h1]
      by_cases h2 : j = i
      · subst h2
        rw [if_pos (by simp only [List.length_cons]; omega)]
        simp only [Nat.sub_self, List.getElem?_cons_zero, Option.map_some']
        rw [List.getElem?_set_self (by omega)]
      · rw [if_neg (by simp only [List.length_cons]; omega)]
        rw [List.getElem?_set_ne (by omega)]

theorem storeAll_polflux {F : Type} (g : F → F) (vs : List F) :
    ∀ (i : Nat) (p : Plasma F),
      storeAll (fun i p v => { p with polflux := p.polflux.set i (some (g v)) }) i vs p
        = { p with polflux := writeFrom p.polflux i (vs.map g) } := by
  induction vs with
  | nil => intro i p; rfl
  | cons v vs ih => intro i p; simp only [storeAll, ih, writeFrom, List.map_cons]

/-- The handler of `polflux` on the tokens ahead of the tokenizer: entry `i` becomes the
value of the second token of pair `i`, multiplied by the sign. -/
theorem polflux_reads {F : Type} (ops : FloatOps F) (negative_psi : Bool) (st : Reader F)
    (N : Nat) (hN : st.plasma.nexp = N) (hre : st.tk.re = number_re)
    (hlen : st.plasma.polflux.length = N)
    (htok : 2 * N ≤ (stream_tokens st.tk st.fi).length)
    (hval : ∀ i < N, (value_at ops (stream_tokens st.tk st.fi) (2 * i + 1)).isSome) :
    ∃ st1, Directive.handler ops negative_psi [] .polflux st = .ok st1 ∧
      stream_tokens st1.tk st1.fi = (stream_tokens st.tk st.fi).drop (2 * N) ∧
      st1.species_identifiers = st.species_identifiers ∧
      st1.plasma = { st.plasma with polflux := st1.plasma.polflux } ∧
      ∀ i < N, st1.plasma.polflux.getD i none
        = (value_at ops (stream_tokens st.tk st.fi) (2 * i + 1)).map
            (ops.mul (if negative_psi then ops.negOne else ops.one)) := by
  obtain ⟨st1, vs, e1, e2, _, e4, e5, e6, e7⟩ := read_pairs_tokens ops .polflux
    (fun i p v =>
      { p with polflux :=
          p.polflux.set i (some (ops.mul (if negative_psi then ops.negOne else ops.one) v)) })
    N 0 st (stream_tokens st.tk st.fi) (by rw [hre]; decide) rfl htok hval
  rw [storeAll_polflux] at e7
  refine ⟨st1, ?_, e2, e4, ?_, ?_⟩
  · simp only [Directive.handler, fill_profile, hN]
    exact e1
  · rw [e7]
  · intro i hi
    rw [e7, List.getD_eq_getElem?_getD]
    simp only
    rw [writeFrom_getElem _ _ 0 i (by simp [e5, hlen]), if_pos (by simp [e5]; omega)]
    rw [e6 i hi]
    simp only [Nat.sub_zero, List.getElem?_map]
    cases vs[i]? <;> rfl

/-- In a state of the BODY loop the tokenizer has the pattern of the numbers and the
array `polflux` has `nexp` entries. -/
theorem reached_polflux {F : Type} (ops : FloatOps F) (negative_psi : Bool) (content : Str)
    (ids : List Str) (st : Reader F) (hr : ReachedBy ops negative_psi content ids st) :
    st.tk.re = number_re ∧ st.plasma.polflux.length = st.plasma.nexp := by
  have hre := (read_of_reached ops negative_psi content ids st hr).1
  obtain ⟨hd, _, _, _, hreach⟩ := hr
  have hf := (reaches_follows ops negative_psi _ _ hreach).1
  simp only [body_start, shape_new] at hf
  have e1 := congrArg Shape.polflux hf
  have e3 := congrArg Shape.nexp hf
  simp only [Plasma.shape] at e1 e3
  rw [e3]
  exact ⟨hre, e1⟩

/-- A successful call of the tokenizer gave the first of the tokens ahead. -/
theorem tokens_of_next (tk : Tokenizer) (hre : 0 < tk.re.minLen) (fi : IFStream) (t : Str)
    (tk1 : Tokenizer) (fi1 : IFStream) (h : tk.next fi = (some t, tk1, fi1)) :
    stream_tokens tk fi = t :: stream_tokens tk1 fi1 ∧ tk1.re = tk.re := by
  have hs := Tokenizer.next_spec tk hre fi
  have hr := Tokenizer.next_re tk fi
  rw [h] at hs hr
  exact ⟨hs, hr⟩

/-- When the loop of a pair handler ends normally, there were enough tokens ahead and
`std::stod` converted the second token of every pair. -/
theorem read_pairs_ok {F : Type} (ops : FloatOps F) (f : Field)
    (store : Nat → Plasma F → F → Plasma F) :
    ∀ (k i0 : Nat) (st st1 : Reader F), 0 < st.tk.re.minLen →
      forLoop (fun i s => read_pair ops f (store i) s) k i0 st = .ok st1 →
      2 * k ≤ (stream_tokens st.tk st.fi).length ∧
        ∀ j < k, (value_at ops (stream_tokens st.tk st.fi) (2 * j + 1)).isSome := by
  intro k
  induction k with
  | zero => intro i0 st st1 _ _; exact ⟨by omega, fun j hj => by omega⟩
  | succ k ih =>
    intro i0 st st1 hre h
    simp only [forLoop] at h
    cases hs : read_pair ops f (store i0) st with
    | error e => rw [hs] at h; cases h
    | ok st2 =>
      rw [hs] at h
      simp only at h
      unfold read_pair next2 at hs
      rcases hn1 : st.tk.next st.fi with ⟨_ | a, tk1, fi1⟩
      · rw [hn1] at hs; cases hs
      · rw [hn1] at hs
        simp only at hs
        rcases hn2 : tk1.next fi1 with ⟨_ | b, tk2, fi2⟩
        · rw [hn2] at hs; cases hs
        · rw [hn2] at hs
          simp only at hs
          cases hv : ops.stod b with
          | none => rw [hv] at hs; cases hs
          | some v =>
            rw [hv] at hs
            simp only [Except.ok.injEq] at hs
            subst hs
            obtain ⟨e1, r1⟩ := tokens_of_next st.tk hre st.fi a tk1 fi1 hn1
            obtain ⟨e2, r2⟩ := tokens_of_next tk1 (by rw [r1]; exact hre) fi1 b tk2 fi2 hn2
            obtain ⟨h1, h2⟩ := ih (i0 + 1) _ st1 (by show 0 < tk2.re.minLen; rw [r2, r1]; exact hre) h
            simp only at h1 h2
            rw [e1, e2]
            refine ⟨by simp only [List.length_cons]; omega, ?_⟩
            intro j hj
            cases j with
            | zero =>
              simp [value_at, hv]
            | succ j =>
              rw [show 2 * (j + 1) + 1 = (2 * j + 1 + 1) + 1 by omega, value_at_cons_succ,
                value_at_cons_succ]
              exact h2 j (by omega)

/-- C4: whenever the call returns, the results with `negative_psi = true` and with
`negative_psi = false` have the same species names and diagnostics, and the container
of either is the container of the other with every `polflux` entry multiplied by `-1.0`
and every other field the same. And the direction is that of the claim: whenever a round
of the BODY loop on a `polflux` line ends normally, it has read `2 * nexp` tokens, and
`polflux[i]` is the value that `std::stod` gives for the second token of pair `i` when
`negative_psi` is false, and `-1.0` times that value when it is true. (`1.0 * x = x` and
`-1.0 * (-1.0 * x) = x` are the laws of `double` that are used.) -/
theorem sign_flag_negates_polflux {F : Type} (ops : FloatOps F)
    (hone : ∀ x, ops.mul ops.one x = x)
    (hinv : ∀ x, ops.mul ops.negOne (ops.mul ops.negOne x) = x)
    (file : Option Str) (ids : List Str) :
    (∀ p0 ids1 cerr, read_input_gacode ops file ids false = .returned p0 ids1 cerr →
      read_input_gacode ops file ids true
        = .returned { p0 with polflux := p0.polflux.map (Option.map (ops.mul ops.negOne)) }
            ids1 cerr) ∧
    (∀ p1 ids1 cerr, read_input_gacode ops file ids true = .returned p1 ids1 cerr →
      read_input_gacode ops file ids false
        = .returned { p1 with polflux := p1.polflux.map (Option.map (ops.mul ops.negOne)) }
            ids1 cerr) ∧
    (∀ (negative_psi : Bool) (content : Str) (st st1 : Reader F) (line : Str) (rest : IFStream)
      (N : Nat), ReachedBy ops negative_psi content ids st → st.fi = line :: rest →
      classify line = some .polflux → st.plasma.nexp = N →
      body_step ops negative_psi line { st with fi := rest } = .ok st1 →
      stream_tokens st1.tk st1.fi = (stream_tokens st.tk rest).drop (2 * N) ∧
      ∀ i < N, ∃ x, value_at ops (stream_tokens st.tk rest) (2 * i + 1) = some x ∧
        st1.plasma.polflux.getD i none
          = some (if negative_psi then ops.mul ops.negOne x else x)) := by
  have key := read_input_gacode_negated ops hone file ids
  refine ⟨?_, ?_, ?_⟩
  · intro p0 ids1 cerr h0
    rw [key, h0]
    rfl
  · intro p1 ids1 cerr h1
    rw [key] at h1
    cases h0 : read_input_gacode ops file ids false with
    | returned p0 ids0 cerr0 =>
      rw [h0] at h1
      simp only [Outcome.onPlasma, Outcome.returned.injEq] at h1
      obtain ⟨hp, hi, hc⟩ := h1
      subst hp hi hc
      exact congrArg (fun q => Outcome.returned q ids0 cerr0) (negated_negated ops hinv p0).symm
    | exited s c => rw [h0] at h1; cases h1
    | thrown i c => rw [h0] at h1; cases h1
    | hang => rw [h0] at h1; cases h1
  · intro negative_psi content st st1 line rest N hr _ hc hN hstep
    obtain ⟨hre, hlen⟩ := reached_polflux ops negative_psi content ids st hr
    rw [hN] at hlen
    rw [body_step_classify, hc] at hstep
    have hok := read_pairs_ok ops .polflux
      (fun i p v =>
        { p with polflux :=
            p.polflux.set i (some (ops.mul (if negative_psi then ops.negOne else ops.one) v)) })
      N 0 { st with fi := rest } st1 (by show 0 < st.tk.re.minLen; rw [hre]; decide)
      (by simp only [Directive.handler, fill_profile, hN] at hstep; exact hstep)
    obtain ⟨st2, e1, e2, _, _, e5⟩ := polflux_reads ops negative_psi { st with fi := rest } N hN
      hre hlen hok.1 hok.2
    have e0 : Directive.handler ops negative_psi [] .polflux { st with fi := rest }
        = .ok st1 := hstep
    rw [e0] at e1
    cases e1
    refine ⟨e2, ?_⟩
    intro i hi
    obtain ⟨x, hx⟩ := Option.isSome_iff_exists.mp (hok.2 i hi)
    refine ⟨x, hx, ?_⟩
    rw [e5 i hi]
    simp only at hx
    rw [hx]
    cases negative_psi with
    | true => rfl
    | false => simp [hone]

/-- C4, at an input with a `polflux` directive: the file values 0.5 and 0.7 are stored
as they are with `negative_psi = false` and negated with `negative_psi = true`; the
round on the `polflux` line with `negative_psi = false` stores the values of the second
tokens of the pairs. -/
theorem sign_flag_negates_polflux_witness :
    (∀ x, decimalOps.mul decimalOps.one x = x) ∧
    (∀ x, decimalOps.mul decimalOps.negOne (decimalOps.mul decimalOps.negOne x) = x) ∧
    read_input_gacode decimalOps
        (some "# nexp\n2\n# nion\n1\n# polflux\n1 0.5\n2 0.7\n# ne\n1 3\n2 4".toList) [] false
      = .returned { (Plasma.new (-1) 2 1 : Plasma (Int × Int)) with
          polflux := [some (5, -1), some (7, -1)], ne := [some (3, 0), some (4, 0)] } [] [] ∧
    read_input_gacode decimalOps
        (some "# nexp\n2\n# nion\n1\n# polflux\n1 0.5\n2 0.7\n# ne\n1 3\n2 4".toList) [] true
      = .returned { (Plasma.new (-1) 2 1 : Plasma (Int × Int)) with
          polflux := [some (-5, -1), some (-7, -1)], ne := [some (3, 0), some (4, 0)] } [] [] ∧
    value_at decimalOps (stream_tokens ⟨number_re, []⟩
        ["1 0.5".toList, "2 0.7".toList, "# ne".toList, "1 3".toList, "2 4".toList]) 1
      = some (5, -1) ∧
    (∀ i < 2, ∃ x, value_at decimalOps (stream_tokens ⟨number_re, []⟩
          ["1 0.5".toList, "2 0.7".toList, "# ne".toList, "1 3".toList, "2 4".toList])
            (2 * i + 1) = some x ∧
        ([some ((5 : Int), (-1 : Int)), some (7, -1)]).getD i none
          = some (if false then decimalOps.mul decimalOps.negOne x else x)) :=
  ⟨fun x => by simp [decimalOps], fun x => by simp [decimalOps], by decide,
    (sign_flag_negates_polflux decimalOps (fun x => by simp [decimalOps])
      (fun x => by simp [decimalOps])
      (some "# nexp\n2\n# nion\n1\n# polflux\n1 0.5\n2 0.7\n# ne\n1 3\n2 4".toList) []).1
      { (Plasma.new (-1) 2 1 : Plasma (Int × Int)) with
          polflux := [some (5, -1), some (7, -1)], ne := [some (3, 0), some (4, 0)] } [] []
      (by decide),
    by decide,
    ((sign_flag_negates_polflux decimalOps (fun x => by simp [decimalOps])
      (fun x => by simp [decimalOps]) none []).2.2 false
      "# nexp\n2\n# nion\n1\n# polflux\n1 0.5\n2 0.7\n# ne\n1 3\n2 4".toList
      (body_start ⟨-1, 2, 1, ⟨number_re, []⟩,
        ["# polflux".toList, "1 0.5".toList, "2 0.7".toList, "# ne".toList, "1 3".toList,
          "2 4".toList]⟩ [])
      ⟨{ (Plasma.new (-1) 2 1 : Plasma (Int × Int)) with
          polflux := [some (5, -1), some (7, -1)] }, [], ⟨number_re, []⟩,
        ["# ne".toList, "1 3".toList, "2 4".toList]⟩
      "# polflux".toList
      ["1 0.5".toList, "2 0.7".toList, "# ne".toList, "1 3".toList, "2 4".toList] 2
      ⟨_, rfl, by decide, by decide, Reaches.start _⟩ rfl (by decide) rfl (by rfl)).2⟩

/-! ### C10: the names appended before a failure -/

theorem name_loop_acc : ∀ (k : Nat) (ss : Str) (ids : List Str),
    name_loop k ss ids = ids ++ name_loop k ss [] := by
  intro k
  induction k with
  | zero => intro ss ids; simp [name_loop]
  | succ k ih =>
    intro ss ids
    simp only [name_loop]
    rw [ih _ (ids ++ _), ih _ ([] ++ _)]
    simp

theorem read_float_ids {F : Type} (ops : FloatOps F) (f : Field)
    (store : Plasma F → F → Plasma F) (st st1 : Reader F)
    (h : read_float ops f store st = .ok st1) :
    st1.species_identifiers = st.species_identifiers := by
  unfold read_float at h
  split at h
  · cases h
  · split at h
    · cases h
    · cases h; rfl

theorem read_pair_ids {F : Type} (ops : FloatOps F) (f : Field)
    (store : Plasma F → F → Plasma F) (st st1 : Reader F)
    (h : read_pair ops f store st = .ok st1) :
    st1.species_identifiers = st.species_identifiers := by
  unfold read_pair at h
  split at h
  · cases h
  · split at h
    · cases h
    · cases h; rfl

theorem fill_matrix_ids {F : Type} (ops : FloatOps F) (f : Field)
    (store : Nat → Nat → Plasma F → F → Plasma F) (st st1 : Reader F)
    (h : fill_matrix ops f store st = .ok st1) :
    st1.species_identifiers = st.species_identifiers := by
  unfold fill_matrix at h
  refine forLoop_rel (fun s s1 : Reader F => s1.species_identifiers = s.species_identifiers)
    (fun _ => rfl) (fun a b c h1 h2 => h2.trans h1) _ ?_ _ _ _ _ h
  intro i s s1 hs
  have := forLoop_rel (fun s s1 : Reader F => s1.species_identifiers = s.species_identifiers)
    (fun _ => rfl) (fun a b c h1 h2 => h2.trans h1) _
    (fun ion s2 s3 h3 => read_float_ids ops f (store ion i) s2 s3 h3) _ _ _ _ hs
  exact this

/-- A round of the BODY loop appends the names of `pushed_names` and leaves the names
before them as they are. -/
theorem body_step_pushes {F : Type} (ops : FloatOps F) (negative_psi : Bool) (line : Str)
    (st st1 : Reader F) (h : body_step ops negative_psi line st = .ok st1) :
    st1.species_identifiers = st.species_identifiers ++ pushed_names line st := by
  have hloopF : ∀ (f : Field) (store : Nat → Plasma F → F → Plasma F) (k i : Nat)
      (s s1 : Reader F), forLoop (fun i s => read_float ops f (store i) s) k i s = .ok s1 →
      s1.species_identifiers = s.species_identifiers := fun f store k i s s1 hs =>
    forLoop_rel (fun s s1 : Reader F => s1.species_identifiers = s.species_identifiers)
      (fun _ => rfl) (fun a b c h1 h2 => h2.trans h1) _
      (fun i s2 s3 h3 => read_float_ids ops f (store i) s2 s3 h3) _ _ _ _ hs
  have hloopP : ∀ (f : Field) (store : Nat → Plasma F → F → Plasma F) (k i : Nat)
      (s s1 : Reader F), forLoop (fun i s => read_pair ops f (store i) s) k i s = .ok s1 →
      s1.species_identifiers = s.species_identifiers := fun f store k i s s1 hs =>
    forLoop_rel (fun s s1 : Reader F => s1.species_identifiers = s.species_identifiers)
      (fun _ => rfl) (fun a b c h1 h2 => h2.trans h1) _
      (fun i s2 s3 h3 => read_pair_ids ops f (store i) s2 s3 h3) _ _ _ _ hs
  unfold pushed_names
  unfold body_step at h
  by_cases c1 : regex_match line re_name = true
  · rw [if_pos c1] at h
    rw [if_pos c1]
    cases h
    simp only [handle_name]
    exact name_loop_acc _ _ _
  rw [if_neg c1] at h
  rw [if_neg c1, List.append_nil]
  by_cases c2 : regex_match line re_masse = true
  · rw [if_pos c2] at h; exact read_float_ids _ _ _ _ _ h
  rw [if_neg c2] at h
  by_cases c3 : regex_match line re_ze = true
  · rw [if_pos c3] at h; exact read_float_ids _ _ _ _ _ h
  rw [if_neg c3] at h
  by_cases c4 : regex_match line re_mass = true
  · rw [if_pos c4] at h; exact hloopF _ _ _ _ _ _ h
  rw [if_neg c4] at h
  by_cases c5 : regex_match line re_z = true
  · rw [if_pos c5] at h; exact hloopF _ _ _ _ _ _ h
  rw [if_neg c5] at h
  by_cases c6 : regex_match line re_polflux = true
  · rw [if_pos c6] at h; exact hloopP _ _ _ _ _ _ h
  rw [if_neg c6] at h
  by_cases c7 : regex_match line re_ne = true
  · rw [if_pos c7] at h; exact hloopP _ _ _ _ _ _ h
  rw [if_neg c7] at h
  by_cases c8 : regex_match line re_ni = true
  · rw [if_pos c8] at h; exact fill_matrix_ids _ _ _ _ _ h
  rw [if_neg c8] at h
  by_cases c9 : regex_match line re_te = true
  · rw [if_pos c9] at h; exact hloopP _ _ _ _ _ _ h
  rw [if_neg c9] at h
  by_cases c10 : regex_match line re_ti = true
  · rw [if_pos c10] at h; exact fill_matrix_ids _ _ _ _ _ h
  rw [if_neg c10] at h
  cases h
  rfl

/-- The names of the caller after rounds of the BODY loop: those before, followed by the
names that the rounds appended. -/
theorem pushing_ids {F : Type} (ops : FloatOps F) (negative_psi : Bool) (st : Reader F)
    (names : List Str) (st1 : Reader F) (h : ReachesPushing ops negative_psi st names st1) :
    st1.species_identifiers = st.species_identifiers ++ names ∧
      Reaches ops negative_psi st st1 := by
  induction h with
  | start st => exact ⟨by simp, Reaches.start st⟩
  | round st st1 st2 line rest names hfi hstep _ ih =>
    refine ⟨?_, Reaches.round st st1 st2 line rest hfi hstep ih.2⟩
    rw [ih.1, body_step_pushes ops negative_psi line _ st1 hstep, List.append_assoc]

/-- An early exit of the BODY loop happens in a round that the loop reaches, and the names
given back are those before the loop followed by the names appended by the rounds before
that one. -/
theorem body_loop_failure {F : Type} (ops : FloatOps F) (negative_psi : Bool) :
    ∀ n (st : Reader F) (e : Abort) (ids1 : List Str), st.fi.length < n →
      body_loop ops negative_psi n st = .error (e, ids1) →
      ∃ names st1 line rest, ReachesPushing ops negative_psi st names st1 ∧
        st1.fi = line :: rest ∧
        body_step ops negative_psi line { st1 with fi := rest } = .error e ∧
        ids1 = st.species_identifiers ++ names := by
  intro n
  induction n with
  | zero => intro st e ids1 hlen h; omega
  | succ n ih =>
    intro st e ids1 hlen h
    simp only [body_loop] at h
    split at h
    · cases h
    · next line rest hfi =>
      split at h
      · next st2 hstep =>
        have h1 := body_step_follows _ _ _ _ _ hstep
        have hlen2 : st2.fi.length < n := by
          have := h1.2.2.1.length_le
          rw [hfi] at hlen
          simp only [List.length_cons] at hlen this
          omega
        obtain ⟨names, st1, line1, rest1, hr, hfi1, hfail, hids⟩ := ih _ _ _ hlen2 h
        refine ⟨_, st1, line1, rest1,
          ReachesPushing.round st st2 st1 line rest names hfi hstep hr, hfi1, hfail, ?_⟩
        rw [hids, body_step_pushes ops negative_psi line _ st2 hstep, List.append_assoc]
      · next e1 hstep =>
        cases h
        exact ⟨[], st, line, rest, ReachesPushing.start st, hfi, hstep, by simp⟩

/-- C10, counterexample: the `masse` handler finds no token after a `name` directive
was handled; the name read before the failure stays in the caller's sequence. -/
theorem names_survive_handler_failure :
    read_input_gacode decimalOps
        (some "# nion\n1\n# nexp\n1\n# name\nD\n# masse\n".toList) ["X".toList] true
      = .returned sentinel ["X".toList, "D".toList] [.invalid_line .masse] ∧
    ["X".toList, "D".toList] ≠ ["X".toList] := by
  decide

/-- C10, amended: when a handler finds no token, the call returns the sentinel
container, which carries none of the values read so far. The caller's species names are
unchanged when the failing handler is one of the HEADER loop. When it is one of the BODY
loop, the failure happens in a round that the loop reaches from its start, and the
caller's species names are those before the call followed by the names that the rounds
before the failing one appended: for each `name` line handled, the `nion` words that
its handler extracted, in order. -/
theorem handler_failure_result {F : Type} (ops : FloatOps F) (content : Str)
    (ids ids1 : List Str) (negative_psi : Bool) (p : Plasma F) (f : Field)
    (h : read_input_gacode ops (some content) ids negative_psi
      = .returned p ids1 [.invalid_line f]) :
    p = sentinel ∧ ids <+: ids1 ∧ (f.inBody = false → ids1 = ids) ∧
    (f.inBody = true →
      ∃ hd names st line rest,
        header_loop ((getlines content []).length + 1) (header_start (getlines content []))
          = .ok hd ∧ hd.nexp ≠ -1 ∧ hd.nion ≠ -1 ∧
        ReachesPushing ops negative_psi (body_start hd ids) names st ∧
        st.fi = line :: rest ∧
        body_step ops negative_psi line { st with fi := rest } = .error (.fail f) ∧
        ids1 = ids ++ names) := by
  obtain ⟨hp, hpre, hin⟩ : p = sentinel ∧ ids <+: ids1 ∧ (f.inBody = false → ids1 = ids) := by
    rcases read_stream_returned ops _ _ _ _ _ _ h with ⟨f1, hf, hp, hpre, hin⟩ | ⟨hc, _⟩
    · cases hf
      exact ⟨hp, hpre, hin⟩
    · cases hc
  refine ⟨hp, hpre, hin, ?_⟩
  intro hb
  simp only [read_input_gacode, read_stream] at h
  split at h
  · next f1 hh =>
    cases h
    rcases header_loop_error _ _ _ (Nat.lt_succ_self _) hh with ⟨f1, hf1, hin1⟩ | ht
    · cases hf1
      rw [hin1] at hb
      cases hb
    · cases ht
  · cases h
  · cases h
  · next hd hh =>
    split at h
    · cases h
    · next hc =>
      have hc1 : hd.nexp ≠ -1 ∧ hd.nion ≠ -1 :=
        ⟨fun h1 => hc (Or.inl h1), fun h1 => hc (Or.inr h1)⟩
      split at h
      · cases h
      · next f2 ids2 hl =>
        cases h
        obtain ⟨names, st1, line, rest, hr, hfi, hfail, hids⟩ :=
          body_loop_failure ops negative_psi _ _ _ _ (Nat.lt_succ_self _) hl
        exact ⟨hd, names, st1, line, rest, hh, hc1.1, hc1.2, hr, hfi, hfail, hids⟩
      · cases h
      · cases h

/-- C10, amended, at an input whose `z` directive lacks a token: the two names of the
`name` line handled before stay in the caller's sequence. -/
theorem handler_failure_result_witness :
    read_input_gacode decimalOps
        (some "# nion\n2\n# nexp\n1\n# name\nD C\n# z\n1\n".toList) [] true
      = .returned sentinel ["D".toList, "C".toList] [.invalid_line .z] ∧
    pushed_names "# name".toList
        (⟨Plasma.new (-1) 1 2, [], ⟨number_re, []⟩, ["D C".toList, "# z".toList, "1".toList, []]⟩
          : Reader (Int × Int))
      = ["D".toList, "C".toList] ∧
    ((sentinel : Plasma (Int × Int)) = sentinel ∧ [] <+: ["D".toList, "C".toList] ∧
      (Field.z.inBody = false → ["D".toList, "C".toList] = []) ∧
      (Field.z.inBody = true →
        ∃ hd names st line rest,
          header_loop ((getlines "# nion\n2\n# nexp\n1\n# name\nD C\n# z\n1\n".toList []).length + 1)
              (header_start (getlines "# nion\n2\n# nexp\n1\n# name\nD C\n# z\n1\n".toList []))
            = .ok hd ∧ hd.nexp ≠ -1 ∧ hd.nion ≠ -1 ∧
          ReachesPushing decimalOps true (body_start hd []) names st ∧
          st.fi = line :: rest ∧
          body_step decimalOps true line { st with fi := rest } = .error (.fail .z) ∧
          ["D".toList, "C".toList] = [] ++ names)) :=
  ⟨by decide, by decide,
    handler_failure_result decimalOps "# nion\n2\n# nexp\n1\n# name\nD C\n# z\n1\n".toList []
      ["D".toList, "C".toList] true sentinel .z (by decide)⟩

/-! ### C1: declarations and directives with their bodies -/

/-- The HEADER loop on a header that declares `nion`, then `nexp`, among lines that it
passes over: `shot` keeps `-1`. -/
theorem header_two_lines (j1 j2 : List Str) (l1 l2 : Str) (B1 B2 : List Str) (t1 t2 : Str)
    (v1 v2 : Nat) (rest : List Str)
    (hj1 : ∀ x ∈ j1, is_passed_line x = true) (hj2 : ∀ x ∈ j2, is_passed_line x = true)
    (hl1 : is_nion_line l1 = true) (hl2 : is_nexp_line l2 = true)
    (hB1 : is_body B1 [t1] = true) (hB2 : is_body B2 [t2] = true)
    (hv1 : stoul t1 = some v1) (hv2 : stoul t2 = some v2)
    (h1 : toInt32 v1 ≠ -1) (h2 : toInt32 v2 ≠ -1) (m : Nat)
    (hm : (j1 ++ l1 :: (B1 ++ (j2 ++ l2 :: (B2 ++ rest)))).length < m) :
    ∃ suf, regex_search number_re suf = none ∧
      header_loop m (header_start (j1 ++ l1 :: (B1 ++ (j2 ++ l2 :: (B2 ++ rest)))))
        = .ok ⟨-1, toInt32 v2, toInt32 v1, ⟨number_re, suf⟩, rest⟩ := by
  have hnil : regex_search number_re [] = none := by decide
  have e1 := header_skip_passed j1 hj1 (0 + 1 + 1 + j2.length + 1)
    (header_start (j1 ++ l1 :: (B1 ++ (j2 ++ l2 :: (B2 ++ rest))))) _ (Or.inl rfl) rfl
  obtain ⟨f2, hf2, e2⟩ := header_body_nion (0 + 1 + 1 + j2.length) (-1) (-1) (-1) [] l1 B1 t1 v1
    (j2 ++ l2 :: (B2 ++ rest)) (Or.inl rfl) hnil hl1 hB1 hv1
  have e3 := header_skip_passed j2 hj2 (0 + 1 + 1)
    ⟨-1, -1, toInt32 v1, ⟨number_re, f2⟩, j2 ++ l2 :: (B2 ++ rest)⟩ _ (Or.inl rfl) rfl
  obtain ⟨f4, hf4, e4⟩ := header_body_nexp (0 + 1) (-1) (-1) (toInt32 v1) f2 l2 B2 t2 v2
    rest (Or.inl rfl) hf2 hl2 hB2 hv2
  have e5 : header_loop (0 + 1) ⟨-1, toInt32 v2, toInt32 v1, ⟨number_re, f4⟩, rest⟩
      = .ok ⟨-1, toInt32 v2, toInt32 v1, ⟨number_re, f4⟩, rest⟩ := by
    rw [header_loop]
    have : ¬ (toInt32 v2 = -1 ∨ toInt32 v1 = -1) := fun h => h.elim h2 h1
    simp only [this, if_false]
  refine ⟨f4, hf4, header_loop_more (0 + 1 + 1 + j2.length + 1 + j1.length) _ _ ?_ m hm⟩
  exact e1.trans (e2.trans (e3.trans (e4.trans e5)))

/-- The BODY loop runs over lines that select no directive without changing anything. -/
theorem reaches_unselected {F : Type} (ops : FloatOps F) (negative_psi : Bool) :
    ∀ (post : List Str) (p : Plasma F) (ids : List Str) (tk : Tokenizer),
      (∀ x ∈ post, classify x = none) →
      Reaches ops negative_psi ⟨p, ids, tk, post⟩ ⟨p, ids, tk, []⟩ := by
  intro post
  induction post with
  | nil => intro p ids tk _; exact Reaches.start _
  | cons l post ih =>
    intro p ids tk h
    refine Reaches.round _ ⟨p, ids, tk, post⟩ _ l post rfl ?_
      (ih p ids tk (fun x hx => h x (List.mem_cons_of_mem _ hx)))
    rw [body_step_classify, h l (List.mem_cons_self _ _)]

/-- A round of the BODY loop on a `name` line followed by a line with `nion` words. -/
theorem reaches_name_line {F : Type} (ops : FloatOps F) (negative_psi : Bool) (p : Plasma F)
    (ids : List Str) (tk : Tokenizer) (l wline : Str) (rest : IFStream)
    (hl : classify l = some .name) (hn : (words_of_line wline).length = p.nion) :
    Reaches ops negative_psi ⟨p, ids, tk, l :: wline :: rest⟩
      ⟨p, ids ++ words_of_line wline, tk, rest⟩ := by
  refine reaches_one ops negative_psi _ _ l (wline :: rest) rfl ?_
  rw [body_step_classify, hl]
  simp only [Directive.handler, handle_name, List.head?_cons, Option.getD_some, List.tail]
  rw [name_loop_words p.nion wline ids (by omega), ← hn, List.take_length]

/-- A round of the BODY loop on a `masse` line followed by a body with one token. -/
theorem reaches_masse_body {F : Type} (ops : FloatOps F) (negative_psi : Bool) (p : Plasma F)
    (ids : List Str) (b l : Str) (B : List Str) (t : Str) (v : F) (rest : IFStream)
    (hb : regex_search number_re b = none) (hl : classify l = some .masse)
    (hB : is_body B [t] = true) (hv : ops.stod t = some v) :
    ∃ suf, regex_search number_re suf = none ∧
      Reaches ops negative_psi ⟨p, ids, ⟨number_re, b⟩, l :: (B ++ rest)⟩
        ⟨{ p with masse := some v }, ids, ⟨number_re, suf⟩, rest⟩ := by
  obtain ⟨suf, hsuf, hn⟩ := next_body B b t rest hb hB
  refine ⟨suf, hsuf, reaches_one ops negative_psi _ _ l (B ++ rest) rfl ?_⟩
  rw [body_step_classify, hl]
  simp only [Directive.handler, read_float, hn, hv]

/-- A round of the BODY loop on a `z` line followed by a body with `nion` tokens. -/
theorem reaches_z_body {F : Type} (ops : FloatOps F) (negative_psi : Bool) (p : Plasma F)
    (ids : List Str) (b l : Str) (B : List Str) (ts : List Str) (vs : List F) (rest : IFStream)
    (hb : regex_search number_re b = none) (hl : classify l = some .z)
    (hB : is_body B ts = true) (hn : ts.length = p.nion) (hv : Converts ops ts vs) :
    ∃ suf, regex_search number_re suf = none ∧
      Reaches ops negative_psi ⟨p, ids, ⟨number_re, b⟩, l :: (B ++ rest)⟩
        ⟨{ p with z := writeFrom p.z 0 vs }, ids, ⟨number_re, suf⟩, rest⟩ := by
  obtain ⟨suf, hsuf, hd⟩ := delivers_body B b ts rest hb hB
  refine ⟨suf, hsuf, reaches_one ops negative_psi _ _ l (B ++ rest) rfl ?_⟩
  rw [body_step_classify, hl]
  have := read_floats_delivered ops .z (fun i p v => { p with z := p.z.set i (some v) })
    ts vs 0 ⟨p, ids, ⟨number_re, b⟩, B ++ rest⟩ _ _ hd hv
  simp only [Directive.handler, fill_species, ← hn, this, storeAll_z]

/-- A round of the BODY loop on a `ne` line followed by a body with `nexp` pairs. -/
theorem reaches_ne_body {F : Type} (ops : FloatOps F) (negative_psi : Bool) (p : Plasma F)
    (ids : List Str) (b l : Str) (B : List Str) (ps : List (Str × Str)) (vs : List F)
    (rest : IFStream) (hb : regex_search number_re b = none) (hl : classify l = some .ne)
    (hB : is_body B (ps.map (fun q => [q.1, q.2])).flatten = true) (hn : ps.length = p.nexp)
    (hv : Converts ops (ps.map Prod.snd) vs) :
    ∃ suf, regex_search number_re suf = none ∧
      Reaches ops negative_psi ⟨p, ids, ⟨number_re, b⟩, l :: (B ++ rest)⟩
        ⟨{ p with ne := writeFrom p.ne 0 vs }, ids, ⟨number_re, suf⟩, rest⟩ := by
  obtain ⟨suf, hsuf, hd⟩ := delivers_body B b _ rest hb hB
  refine ⟨suf, hsuf, reaches_one ops negative_psi _ _ l (B ++ rest) rfl ?_⟩
  rw [body_step_classify, hl]
  have := read_pairs_delivered ops .ne (fun i p v => { p with ne := p.ne.set i (some v) })
    ps vs 0 ⟨p, ids, ⟨number_re, b⟩, B ++ rest⟩ _ _ hd hv
  simp only [Directive.handler, fill_profile, ← hn, this, storeAll_ne]

/-- C1, amended: on an input made of a `nion` declaration and a `nexp` declaration (the
directive line and a body with one numeric token, which `std::stoul` reads as `M`,
respectively `N`, both below `2^31`), and then a `name`, a `masse`, a `z` and a `ne`
directive line, each followed by exactly its body (a line of `M` words; lines with one
numeric token; lines with `M` numeric tokens; lines with `N` pairs of numeric tokens), the
value tokens being converted by `std::stod`, the call returns a container with
`nion = M`, `nexp = N`, `masse` the value of the `masse` token, `z` the values of the `z`
tokens, `ne` the values of the second tokens of the pairs, every other entry unset, and
appends the `M` words in order to the species names. The directive lines are any lines
that select their handlers, a body is any lines that hold its tokens and of which the
last one holds a token, lines that the HEADER loop passes over may precede the
declarations, and lines that select no directive may follow the `ne` body. -/
theorem reads_declared_values {F : Type} (ops : FloatOps F) (negative_psi : Bool)
    (content : Str) (ids : List Str) (j1 j2 : List Str) (lM lN : Str) (BM BN : List Str)
    (tM tN : Str) (M N : Nat) (lname wline lmasse : Str) (Bmasse : List Str) (tmasse : Str)
    (vmasse : F) (lz : Str) (Bz : List Str) (zs : List Str) (zvals : List F) (lne : Str)
    (Bne : List Str) (nes : List (Str × Str)) (nevals : List F) (post : List Str)
    (hlines : getlines content [] =
      j1 ++ lM :: (BM ++ (j2 ++ lN :: (BN ++ (lname :: wline :: lmasse :: (Bmasse ++
        lz :: (Bz ++ lne :: (Bne ++ post))))))))
    (hj1 : ∀ x ∈ j1, is_passed_line x = true) (hj2 : ∀ x ∈ j2, is_passed_line x = true)
    (hlM : is_nion_line lM = true) (hBM : is_body BM [tM] = true)
    (hM : stoul tM = some M) (hM31 : M < 2 ^ 31)
    (hlN : is_nexp_line lN = true) (hBN : is_body BN [tN] = true)
    (hN : stoul tN = some N) (hN31 : N < 2 ^ 31)
    (hname : classify lname = some .name) (hwords : (words_of_line wline).length = M)
    (hmasse : classify lmasse = some .masse) (hBmasse : is_body Bmasse [tmasse] = true)
    (hvm : ops.stod tmasse = some vmasse)
    (hz : classify lz = some .z) (hBz : is_body Bz zs = true) (hzlen : zs.length = M)
    (hzv : Converts ops zs zvals)
    (hne : classify lne = some .ne)
    (hBne : is_body Bne (nes.map (fun q => [q.1, q.2])).flatten = true)
    (hnelen : nes.length = N) (hnev : Converts ops (nes.map Prod.snd) nevals)
    (hpost : ∀ x ∈ post, classify x = none) :
    read_input_gacode ops (some content) ids negative_psi
      = .returned { (Plasma.new (-1) N M : Plasma F) with
          masse := some vmasse, z := zvals.map some, ne := nevals.map some }
        (ids ++ words_of_line wline) [] := by
  have hzl : zvals.length = M := by
    have := List.Forall₂.length_eq hzv
    omega
  have hnl : nevals.length = N := by
    have := List.Forall₂.length_eq hnev
    simp only [List.length_map] at this
    omega
  have eM := toInt32_of_lt M hM31
  have eN := toInt32_of_lt N hN31
  obtain ⟨f0, hf0, hh⟩ := header_two_lines j1 j2 lM lN BM BN tM tN M N
    (lname :: wline :: lmasse :: (Bmasse ++ lz :: (Bz ++ lne :: (Bne ++ post))))
    hj1 hj2 hlM hlN hBM hBN hM hN (by rw [eM]; exact natCast_ne_neg_one M)
    (by rw [eN]; exact natCast_ne_neg_one N) ((getlines content []).length + 1)
    (by rw [hlines]; omega)
  rw [← hlines, eM, eN] at hh
  have r1 := reaches_name_line ops negative_psi (Plasma.new (-1) N M : Plasma F) ids
    ⟨number_re, f0⟩ lname wline (lmasse :: (Bmasse ++ lz :: (Bz ++ lne :: (Bne ++ post))))
    hname hwords
  obtain ⟨f1, hf1, r2⟩ := reaches_masse_body ops negative_psi (Plasma.new (-1) N M : Plasma F)
    (ids ++ words_of_line wline) f0 lmasse Bmasse tmasse vmasse
    (lz :: (Bz ++ lne :: (Bne ++ post))) hf0 hmasse hBmasse hvm
  obtain ⟨f2, hf2, r3⟩ := reaches_z_body ops negative_psi
    { (Plasma.new (-1) N M : Plasma F) with masse := some vmasse }
    (ids ++ words_of_line wline) f1 lz Bz zs zvals (lne :: (Bne ++ post)) hf1 hz hBz hzlen hzv
  obtain ⟨f3, hf3, r4⟩ := reaches_ne_body ops negative_psi
    { (Plasma.new (-1) N M : Plasma F) with
        masse := some vmasse, z := writeFrom (List.replicate M none) 0 zvals }
    (ids ++ words_of_line wline) f2 lne Bne nes nevals post hf2 hne hBne hnelen hnev
  have r5 := reaches_unselected ops negative_psi post
    { (Plasma.new (-1) N M : Plasma F) with
        masse := some vmasse, z := writeFrom (List.replicate M none) 0 zvals,
        ne := writeFrom (List.replicate N none) 0 nevals }
    (ids ++ words_of_line wline) ⟨number_re, f3⟩ hpost
  have hreach : ReachedBy ops negative_psi content ids
      ⟨{ (Plasma.new (-1) N M : Plasma F) with
          masse := some vmasse, z := writeFrom (List.replicate M none) 0 zvals,
          ne := writeFrom (List.replicate N none) 0 nevals }, ids ++ words_of_line wline,
        ⟨number_re, f3⟩, []⟩ := by
    refine ⟨_, hh, natCast_ne_neg_one N, natCast_ne_neg_one M, ?_⟩
    simp only [body_start, toSizeT_natCast N hN31, toSizeT_natCast M hM31]
    exact reaches_trans _ _ _ _ _ r1 (reaches_trans _ _ _ _ _ r2 (reaches_trans _ _ _ _ _ r3
      (reaches_trans _ _ _ _ _ r4 r5)))
  rw [(read_of_reached ops negative_psi content ids _ hreach).2]
  simp only [body_loop]
  subst hzl hnl
  rw [writeFrom_replicate, writeFrom_replicate]

/-- C1, amended, at the example of the specification: `nion = 2`, `nexp = 3`, the species
`D` and `C`, `masse = 9.1e-31`, `z = [1, 6]`, `ne = [1.0e19, 1.2e19, 1.5e19]`; and at the
same data in another layout: a comment line with a number first, an empty line inside the
`nexp` declaration, annotated directive lines, blanks before and between the tokens, the
`ne` body on three lines, and a final newline. -/
theorem reads_declared_values_witness :
    read_input_gacode decimalOps
        (some "# nion\n2\n# nexp\n3\n# name\nD C\n# masse\n9.1e-31\n# z\n1 6\n# ne\n1 1.0e19 2 1.2e19 3 1.5e19".toList)
        [] true
      = .returned { (Plasma.new (-1) 3 2 : Plasma (Int × Int)) with
          masse := some (91, -32), z := [some (1, 0), some (6, 0)],
          ne := [some (10, 18), some (12, 18), some (15, 18)] }
        ["D".toList, "C".toList] [] ∧
    read_input_gacode decimalOps
        (some "# made in 2024\n# nion\n2\n# nexp | -\n\n  3\n# name\n  D   C \n# masse (kg)\n 9.1e-31\n# z | -\n  1   6\n# ne | 10^19/m^3\n   1  1.0e19\n   2  1.2e19\n   3  1.5e19\n".toList)
        [] true
      = .returned { (Plasma.new (-1) 3 2 : Plasma (Int × Int)) with
          masse := some (91, -32), z := [some (1, 0), some (6, 0)],
          ne := [some (10, 18), some (12, 18), some (15, 18)] }
        ["D".toList, "C".toList] [] :=
  ⟨reads_declared_values decimalOps true
      "# nion\n2\n# nexp\n3\n# name\nD C\n# masse\n9.1e-31\n# z\n1 6\n# ne\n1 1.0e19 2 1.2e19 3 1.5e19".toList
      [] [] [] "# nion".toList "# nexp".toList ["2".toList] ["3".toList] "2".toList "3".toList
      2 3 "# name".toList "D C".toList "# masse".toList ["9.1e-31".toList] "9.1e-31".toList
      (91, -32) "# z".toList ["1 6".toList] ["1".toList, "6".toList] [(1, 0), (6, 0)]
      "# ne".toList ["1 1.0e19 2 1.2e19 3 1.5e19".toList]
      [("1".toList, "1.0e19".toList), ("2".toList, "1.2e19".toList),
        ("3".toList, "1.5e19".toList)]
      [(10, 18), (12, 18), (15, 18)] []
      (by decide) (by decide) (by decide) (by decide) (by decide) (by decide) (by decide)
      (by decide) (by decide) (by decide) (by decide) (by decide) (by decide) (by decide)
      (by decide) (by decide) (by decide) (by decide) (by decide)
      (.cons (by decide) (.cons (by decide) .nil))
      (by decide) (by decide) (by decide)
      (.cons (by decide) (.cons (by decide) (.cons (by decide) .nil)))
      (by decide),
    reads_declared_values decimalOps true
      "# made in 2024\n# nion\n2\n# nexp | -\n\n  3\n# name\n  D   C \n# masse (kg)\n 9.1e-31\n# z | -\n  1   6\n# ne | 10^19/m^3\n   1  1.0e19\n   2  1.2e19\n   3  1.5e19\n".toList
      [] ["# made in 2024".toList] [] "# nion".toList "# nexp | -".toList ["2".toList]
      [[], "  3".toList] "2".toList "3".toList
      2 3 "# name".toList "  D   C ".toList "# masse (kg)".toList [" 9.1e-31".toList]
      "9.1e-31".toList
      (91, -32) "# z | -".toList ["  1   6".toList] ["1".toList, "6".toList] [(1, 0), (6, 0)]
      "# ne | 10^19/m^3".toList ["   1  1.0e19".toList, "   2  1.2e19".toList, "   3  1.5e19".toList]
      [("1".toList, "1.0e19".toList), ("2".toList, "1.2e19".toList),
        ("3".toList, "1.5e19".toList)]
      [(10, 18), (12, 18), (15, 18)] [[]]
      (by decide) (by decide) (by decide) (by decide) (by decide) (by decide) (by decide)
      (by decide) (by decide) (by decide) (by decide) (by decide) (by decide) (by decide)
      (by decide) (by decide) (by decide) (by decide) (by decide)
      (.cons (by decide) (.cons (by decide) .nil))
      (by decide) (by decide) (by decide)
      (.cons (by decide) (.cons (by decide) (.cons (by decide) .nil)))
      (by decide)⟩

set_option maxRecDepth 100000 in
set_option exponentiation.threshold 5000 in
/-- C1, counterexample: two inputs of the form of the claim on which no such container is
returned. The first declares `nion = 4294967295` and `nexp = 0`, and gives the `name`
line with 4294967295 words, `masse`, the `z` line with 4294967295 numerals and the empty
`ne` body; the `int` local `nion` holds `-1`, the HEADER loop runs to the end of the
stream and the process exits. The second is the example of the specification with the
`masse` token `1e999`, on which `std::stod` raises `std::out_of_range`: the call ends
with the exception after the two names were appended. -/
theorem oversized_nion_exits :
    read_input_gacode decimalOps
        (some (unlines ["# nion".toList, "4294967295".toList, "# nexp".toList, "0".toList,
          "# name".toList, spaced (List.replicate 4294967295 "D".toList),
          "# masse".toList, "1".toList,
          "# z".toList, spaced (List.replicate 4294967295 "1".toList),
          "# ne".toList, []]))
        [] true
      = .exited (-1) [.no_specification .nion] ∧
    read_input_gacode rangedOps
        (some "# nion\n2\n# nexp\n3\n# name\nD C\n# masse\n1e999\n# z\n1 6\n# ne\n1 1.0e19 2 1.2e19 3 1.5e19".toList)
        [] true
      = .thrown ["D".toList, "C".toList] [] :=
  ⟨exit_on_oversized_nion, by decide⟩

/-! ### C5: bodies in any layout -/

/-- Every line has a description by its tokens: the tokens that the number pattern finds
in it, each with the text before it, and the text after the last. -/
theorem line_splits (sel : Str × Str → Str) (hsel : ∀ t : Str, sel (t, t) = t) :
    ∀ (n : Nat) (l : Str), l.length ≤ n →
      ∃ (items : List (Str × (Str × Str))) (last : Str),
        lineText sel items last = l ∧ splits sel items last = true ∧
          items.map Prod.snd = (tokens_of number_re l).map (fun t => (t, t)) := by
  intro n
  induction n with
  | zero =>
    intro l hl
    have hnil : l = [] := List.eq_nil_of_length_eq_zero (by omega)
    subst hnil
    exact ⟨[], [], rfl, by simp only [splits]; decide, by decide⟩
  | succ n ih =>
    intro l hl
    cases hs : regex_search number_re l with
    | none =>
      refine ⟨[], l, rfl, ?_, ?_⟩
      · simp only [splits, hs, Option.isNone_none]
      · rw [tokens_of_none number_re l hs]
        rfl
    | some r =>
      obtain ⟨t, suf⟩ := r
      obtain ⟨⟨g, hg⟩, hlen⟩ := regex_search_some number_re l t suf hs
      have hmin : 0 < number_re.minLen := by decide
      obtain ⟨items, last, htext, hsp, htok⟩ := ih suf (by omega)
      refine ⟨(g, (t, t)) :: items, last, ?_, ?_, ?_⟩
      · simp only [lineText, hsel, htext]
        rw [hg, List.append_assoc]
      · have e : lineText sel ((g, (t, t)) :: items) last = l := by
          simp only [lineText, hsel, htext]
          rw [hg, List.append_assoc]
        simp only [splits, Bool.and_eq_true, decide_eq_true_eq]
        refine ⟨?_, hsp⟩
        rw [e, hsel, htext]
        exact hs
      · rw [tokens_of_some number_re hmin l t suf hs]
        simp only [List.map_cons, htok]

end Focus
